import Mathlib

/-!
# mJson (leptjson): parser, document model and serializer

A shallow embedding of `src/src/leptjson.c` and `src/src/leptjson.h`.

* A JSON text is a `List Nat` of bytes; the C string is the list up to its
  first zero byte, and reading at the end of the list yields the terminating
  zero (`peek`).
* A `double` is its IEEE-754 binary64 bit pattern, a `Nat`; the C library
  routines `strtod` and `sprintf("%.17g")` are parameters of the functions
  that call them.
* The byte stack of `lept_context` is the list of items pushed since the
  `head` of the running function; `c->json` is the remaining input.
* A function that loops or recurses without a structural argument takes a
  `fuel` argument and returns `none` when the fuel runs out; `none` is also
  the result of a failed `assert`.
-/

namespace leptjson

/-! ## Types of `leptjson.h` -/

/-- The tag of a JSON value (`lept_type`). -/
inductive lept_type where
  | LEPT_NULL
  | LEPT_FALSE
  | LEPT_TRUE
  | LEPT_NUMBER
  | LEPT_STRING
  | LEPT_ARRAY
  | LEPT_OBJECT
  deriving DecidableEq, Repr

/-- The return codes of `lept_parse` (the anonymous enum of `leptjson.h`). -/
inductive lept_parse_code where
  | LEPT_PARSE_OK
  | LEPT_PARSE_EXPECT_VALUE
  | LEPT_PARSE_INVALID_VALUE
  | LEPT_PARSE_ROOT_NOT_SINGULAR
  | LEPT_PARSE_NUMBER_TOO_BIG
  | LEPT_PARSE_MISS_QUOTATION_MARK
  | LEPT_PARSE_INVALID_STRING_ESCAPE
  | LEPT_PARSE_INVALID_STRING_CHAR
  | LEPT_PARSE_INVALID_UNICODE_HEX
  | LEPT_PARSE_INVALID_UNICODE_SURROGATE
  | LEPT_PARSE_MISS_COMMA_OR_SQUARE_BRACKET
  | LEPT_PARSE_MISS_KEY
  | LEPT_PARSE_MISS_COLON
  | LEPT_PARSE_MISS_COMMA_OR_CURLY_BRACKET
  deriving DecidableEq, Repr

/-- The return codes of the object operations (`lept_object_operate`). -/
inductive lept_object_operate where
  | INSERT_OBJECT_OK
  | MODIFY_OBJECT_OK
  | REMOVE_OBJECT_OK
  | OBJECT_INDEX_WRONG
  deriving DecidableEq, Repr

/-- A JSON value (`struct lept_value`): the tag together with the member of
the union that the tag selects. A string is its `len` bytes, an array its
`size` elements and its capacity, an object its `size` members `(k, v)` (the
key being its `klen` bytes) and its capacity. -/
inductive lept_value where
  | jnull
  | jfalse
  | jtrue
  | jnumber (n : Nat)
  | jstring (s : List Nat)
  | jarray (e : List lept_value) (capacity : Nat)
  | jobject (m : List (List Nat × lept_value)) (capacity : Nat)

open lept_type lept_parse_code lept_object_operate lept_value

/-- A member of an object (`struct lept_member`): key bytes and value. -/
abbrev lept_member := List Nat × lept_value

/-- The tag of a value (`lept_get_type`). -/
def lept_get_type : lept_value → lept_type
  | jnull => LEPT_NULL
  | jfalse => LEPT_FALSE
  | jtrue => LEPT_TRUE
  | jnumber _ => LEPT_NUMBER
  | jstring _ => LEPT_STRING
  | jarray _ _ => LEPT_ARRAY
  | jobject _ _ => LEPT_OBJECT

/-! ## Doubles as bit patterns -/

/-- The bit pattern is a NaN: exponent field all ones, fraction not zero. -/
def double_is_nan (x : Nat) : Bool :=
  decide ((x / 2 ^ 52) % 2 ^ 11 = 2047 ∧ x % 2 ^ 52 ≠ 0)

/-- The bit pattern is `+0` or `-0`. -/
def double_is_zero (x : Nat) : Bool :=
  decide (x % 2 ^ 63 = 0)

/-- The C comparison `a == b` of two doubles: false when either is a NaN,
true for the two zeros, otherwise equality of the bit patterns. -/
def double_eq (a b : Nat) : Bool :=
  !double_is_nan a && !double_is_nan b && (decide (a = b) || (double_is_zero a && double_is_zero b))

/-- The bit pattern of `HUGE_VAL` (positive infinity). -/
def HUGE_VAL : Nat := 0x7FF0000000000000

/-- The bit pattern of `-HUGE_VAL` (negative infinity). -/
def NEG_HUGE_VAL : Nat := 0xFFF0000000000000

/-- What a call of `strtod` leaves behind: the converted double and whether
`errno` was set to `ERANGE`. -/
structure strtod_result where
  val : Nat
  erange : Bool

/-! ## The parser -/

/-- The byte `*p` under a cursor; the terminating zero at the end. -/
def peek (p : List Nat) : Nat := p.headD 0

/-- The macro `ISDIGIT`. -/
def ISDIGIT (ch : Nat) : Bool := decide (48 ≤ ch ∧ ch ≤ 57)

/-- The macro `ISDIGIT1TO9`. -/
def ISDIGIT1TO9 (ch : Nat) : Bool := decide (49 ≤ ch ∧ ch ≤ 57)

/-- The macro `PUTC`: push one byte on the stack. -/
def PUTC (stack : List Nat) (ch : Nat) : List Nat := stack ++ [ch]

/-- The result of a parsing function: return code, the value `*v` and the
cursor `c->json` it leaves. -/
abbrev parse_result := lept_parse_code × lept_value × List Nat

/-- Skips space, tab and carriage return (`lept_parse_whitespace`,
leptjson.c:669-674). -/
def lept_parse_whitespace : List Nat → List Nat
  | [] => []
  | ch :: p => if ch = 32 ∨ ch = 9 ∨ ch = 13 then lept_parse_whitespace p else ch :: p

/-- The loop of `lept_parse_literal` over `literal[1..]`: the cursor after
the spelling, or `none` at the first byte that differs. -/
def lept_parse_literal_loop : List Nat → List Nat → Option (List Nat)
  | [], json => some json
  | l :: ls, json => if peek json ≠ l then none else lept_parse_literal_loop ls json.tail

/-- The assignment `v->type = type` for a tag without payload. -/
def lept_set_type (v : lept_value) : lept_type → lept_value
  | LEPT_NULL => jnull
  | LEPT_FALSE => jfalse
  | LEPT_TRUE => jtrue
  | _ => v

/-- Matches `null`, `false` or `true` (`lept_parse_literal`,
leptjson.c:676-688). -/
def lept_parse_literal (json : List Nat) (v : lept_value) (literal : List Nat)
    (type : lept_type) : parse_result :=
  let json := json.tail
  match lept_parse_literal_loop literal.tail json with
  | none => (LEPT_PARSE_INVALID_VALUE, v, json)
  | some json1 => (LEPT_PARSE_OK, lept_set_type v type, json1)

/-- The loop `for (p++; ISDIGIT(*p); p++)`, entered after the `p++`. -/
def lept_skip_digits : List Nat → List Nat
  | [] => []
  | ch :: p => if ISDIGIT ch then lept_skip_digits p else ch :: p

/-- The integer part of the number grammar (leptjson.c:727-734); `none` is
the `return LEPT_PARSE_INVALID_VALUE`. -/
def lept_number_int (p : List Nat) : Option (List Nat) :=
  if peek p = 48 then some p.tail
  else if !ISDIGIT1TO9 (peek p) then none
  else some (lept_skip_digits p.tail)

/-- The fraction part of the number grammar (leptjson.c:735-741). -/
def lept_number_frac (p : List Nat) : Option (List Nat) :=
  if peek p = 46 then
    if !ISDIGIT (peek p.tail) then none
    else some (lept_skip_digits p.tail.tail)
  else some p

/-- The exponent part of the number grammar (leptjson.c:742-750). -/
def lept_number_exp (p : List Nat) : Option (List Nat) :=
  if peek p = 69 ∨ peek p = 101 then
    let p1 := p.tail
    let p2 := if peek p1 = 43 ∨ peek p1 = 45 then p1.tail else p1
    if !ISDIGIT (peek p2) then none
    else some (lept_skip_digits p2.tail)
  else some p

/-- The assignment `v->u.n = x`: visible only under the tag `LEPT_NUMBER`. -/
def lept_set_n (v : lept_value) (x : Nat) : lept_value :=
  match v with
  | jnumber _ => jnumber x
  | _ => v

/-- Validates the number grammar, then converts with `strtod`
(`lept_parse_number`, leptjson.c:723-763). -/
def lept_parse_number (strtod : List Nat → strtod_result) (json : List Nat)
    (v : lept_value) : parse_result :=
  let p := if peek json = 45 then json.tail else json
  match lept_number_int p with
  | none => (LEPT_PARSE_INVALID_VALUE, v, json)
  | some p1 =>
    match lept_number_frac p1 with
    | none => (LEPT_PARSE_INVALID_VALUE, v, json)
    | some p2 =>
      match lept_number_exp p2 with
      | none => (LEPT_PARSE_INVALID_VALUE, v, json)
      | some p3 =>
        let r := strtod json
        if r.erange && (double_eq r.val HUGE_VAL || double_eq r.val NEG_HUGE_VAL) then
          (LEPT_PARSE_NUMBER_TOO_BIG, lept_set_n v r.val, json)
        else (LEPT_PARSE_OK, jnumber r.val, p3)

/-- The loop of `lept_parse_hex4` with `n` digits still to read
(leptjson.c:770-783). -/
def lept_parse_hex4_loop : Nat → List Nat → Nat → Option (List Nat × Nat)
  | 0, p, u => some (p, u)
  | n + 1, p, u =>
    let ch := peek p
    let u1 := u <<< 4
    if 48 ≤ ch ∧ ch ≤ 57 then lept_parse_hex4_loop n p.tail (u1 ||| (ch - 48))
    else if 65 ≤ ch ∧ ch ≤ 70 then lept_parse_hex4_loop n p.tail (u1 ||| (ch - (65 - 10)))
    else if 97 ≤ ch ∧ ch ≤ 102 then lept_parse_hex4_loop n p.tail (u1 ||| (ch - (97 - 10)))
    else none

/-- Reads four hex digits (`lept_parse_hex4`, leptjson.c:765-786): the cursor
after them and their value, `none` for the `NULL` result. -/
def lept_parse_hex4 (p : List Nat) : Option (List Nat × Nat) :=
  lept_parse_hex4_loop 4 p 0

/-- Pushes the UTF-8 bytes of a code point (`lept_encode_utf8`,
leptjson.c:788-805); each `int` argument of `PUTC` is narrowed to a byte. -/
def lept_encode_utf8 (stack : List Nat) (u : Nat) : List Nat :=
  if u ≤ 0x7F then PUTC stack ((u &&& 0xFF) % 256)
  else if u ≤ 0x7FF then
    PUTC (PUTC stack ((0xC0 ||| ((u >>> 6) &&& 0xFF)) % 256)) ((0x80 ||| (u &&& 0x3F)) % 256)
  else if u ≤ 0xFFFF then
    PUTC (PUTC (PUTC stack ((0xE0 ||| ((u >>> 12) &&& 0xFF)) % 256))
      ((0x80 ||| ((u >>> 6) &&& 0x3F)) % 256)) ((0x80 ||| (u &&& 0x3F)) % 256)
  else
    PUTC (PUTC (PUTC (PUTC stack ((0xF0 ||| ((u >>> 18) &&& 0xFF)) % 256))
      ((0x80 ||| ((u >>> 12) &&& 0x3F)) % 256)) ((0x80 ||| ((u >>> 6) &&& 0x3F)) % 256))
      ((0x80 ||| (u &&& 0x3F)) % 256)

/-- The result of the string loop: return code, the decoded bytes popped
from the stack and the cursor `p`. -/
abbrev string_result := lept_parse_code × List Nat × List Nat

/-- The `for (;;)` loop of `lept_parse_string_raw` (leptjson.c:813-878);
`stack` holds the bytes pushed since `head`. -/
def lept_parse_string_loop : Nat → List Nat → List Nat → Option string_result
  | 0, _, _ => none
  | fuel + 1, p0, stack =>
    let ch := peek p0
    let p := p0.tail
    if ch = 34 then some (LEPT_PARSE_OK, stack, p)
    else if ch = 92 then
      let e := peek p
      let p1 := p.tail
      if e = 34 then lept_parse_string_loop fuel p1 (PUTC stack 34)
      else if e = 92 then lept_parse_string_loop fuel p1 (PUTC stack 92)
      else if e = 47 then lept_parse_string_loop fuel p1 (PUTC stack 47)
      else if e = 98 then lept_parse_string_loop fuel p1 (PUTC stack 8)
      else if e = 102 then lept_parse_string_loop fuel p1 (PUTC stack 12)
      else if e = 110 then lept_parse_string_loop fuel p1 (PUTC stack 10)
      else if e = 114 then lept_parse_string_loop fuel p1 (PUTC stack 13)
      else if e = 116 then lept_parse_string_loop fuel p1 (PUTC stack 9)
      else if e = 117 then
        match lept_parse_hex4 p1 with
        | none => some (LEPT_PARSE_INVALID_UNICODE_HEX, [], p1)
        | some (p2, u) =>
          if 0xD800 ≤ u ∧ u ≤ 0xDBFF then
            if peek p2 ≠ 92 then some (LEPT_PARSE_INVALID_UNICODE_SURROGATE, [], p2.tail)
            else if peek p2.tail ≠ 117 then
              some (LEPT_PARSE_INVALID_UNICODE_SURROGATE, [], p2.tail.tail)
            else
              match lept_parse_hex4 p2.tail.tail with
              | none => some (LEPT_PARSE_INVALID_UNICODE_HEX, [], p2.tail.tail)
              | some (p3, u2) =>
                if u2 < 0xDC00 ∨ u2 > 0xDFFF then
                  some (LEPT_PARSE_INVALID_UNICODE_SURROGATE, [], p3)
                else
                  lept_parse_string_loop fuel p3
                    (lept_encode_utf8 stack ((((u - 0xD800) <<< 10) ||| (u2 - 0xDC00)) + 0x10000))
          else lept_parse_string_loop fuel p2 (lept_encode_utf8 stack u)
      else some (LEPT_PARSE_INVALID_STRING_ESCAPE, [], p1)
    else if ch = 0 then some (LEPT_PARSE_MISS_QUOTATION_MARK, [], p)
    else if ch < 0x20 then some (LEPT_PARSE_INVALID_STRING_CHAR, [], p)
    else lept_parse_string_loop fuel p (PUTC stack ch)

/-- Decodes a string to its bytes (`lept_parse_string_raw`,
leptjson.c:807-879). On an error the stack is rolled back to `head` and
`c->json` stays behind the opening quote. -/
def lept_parse_string_raw (json : List Nat) : Option string_result :=
  let json1 := json.tail
  match lept_parse_string_loop (json1.length + 1) json1 [] with
  | none => none
  | some (ret, str, p) =>
    if ret = LEPT_PARSE_OK then some (LEPT_PARSE_OK, str, p) else some (ret, [], json1)

/-- Releases a value (`lept_free`, leptjson.c:211-242): the tag becomes
`LEPT_NULL`. -/
def lept_free (_v : lept_value) : lept_value := jnull

/-- Releases `v`, then stores a copy of `len` bytes (`lept_set_string`,
leptjson.c:320-333). -/
def lept_set_string (_v : lept_value) (s : List Nat) : lept_value := jstring s

/-- Releases `v`, then installs an empty array of the given capacity
(`lept_set_array`, leptjson.c:337-348). -/
def lept_set_array (_v : lept_value) (capacity : Nat) : lept_value := jarray [] capacity

/-- Releases `v`, then installs an empty object of the given capacity
(`lept_set_object`, leptjson.c:454-466). -/
def lept_set_object (_v : lept_value) (capacity : Nat) : lept_value := jobject [] capacity

/-- Parses a string value (`lept_parse_string`, leptjson.c:881-888). -/
def lept_parse_string (json : List Nat) (v : lept_value) : Option parse_result :=
  match lept_parse_string_raw json with
  | none => none
  | some (ret, s, json1) =>
    if ret = LEPT_PARSE_OK then some (ret, lept_set_string v s, json1) else some (ret, v, json1)

mutual

/-- Dispatches on the first byte (`lept_parse_value`, leptjson.c:1022-1041). -/
def lept_parse_value (strtod : List Nat → strtod_result) :
    Nat → List Nat → lept_value → Option parse_result
  | 0, _, _ => none
  | fuel + 1, json, v =>
    if peek json = 110 then some (lept_parse_literal json v [110, 117, 108, 108] LEPT_NULL)
    else if peek json = 102 then
      some (lept_parse_literal json v [102, 97, 108, 115, 101] LEPT_FALSE)
    else if peek json = 116 then some (lept_parse_literal json v [116, 114, 117, 101] LEPT_TRUE)
    else if peek json = 34 then lept_parse_string json v
    else if peek json = 91 then lept_parse_array strtod fuel json v
    else if peek json = 123 then lept_parse_object strtod fuel json v
    else if peek json = 0 then some (LEPT_PARSE_EXPECT_VALUE, v, json)
    else some (lept_parse_number strtod json v)

/-- Parses an array (`lept_parse_array`, leptjson.c:890-936). -/
def lept_parse_array (strtod : List Nat → strtod_result) :
    Nat → List Nat → lept_value → Option parse_result
  | 0, _, _ => none
  | fuel + 1, json, v =>
    let json1 := lept_parse_whitespace json.tail
    if peek json1 = 93 then some (LEPT_PARSE_OK, lept_set_array v 0, json1.tail)
    else lept_parse_array_loop strtod fuel json1 [] v

/-- The `for (;;)` loop of `lept_parse_array` (leptjson.c:903-935); `stack`
holds the elements pushed so far, `size` of them; at `]` they are copied into
a fresh array of capacity `size`. On an error they are popped and released and
`*v` is left as it was. -/
def lept_parse_array_loop (strtod : List Nat → strtod_result) :
    Nat → List Nat → List lept_value → lept_value → Option parse_result
  | 0, _, _, _ => none
  | fuel + 1, json, stack, v =>
    match lept_parse_value strtod fuel json jnull with
    | none => none
    | some (ret, e, json1) =>
      if ret ≠ LEPT_PARSE_OK then some (ret, v, json1)
      else
        let stack1 := stack ++ [e]
        let json2 := lept_parse_whitespace json1
        if peek json2 = 44 then
          lept_parse_array_loop strtod fuel (lept_parse_whitespace json2.tail) stack1 v
        else if peek json2 = 93 then
          some (LEPT_PARSE_OK, jarray stack1 stack1.length, json2.tail)
        else some (LEPT_PARSE_MISS_COMMA_OR_SQUARE_BRACKET, v, json2)

/-- Parses an object (`lept_parse_object`, leptjson.c:938-1020). -/
def lept_parse_object (strtod : List Nat → strtod_result) :
    Nat → List Nat → lept_value → Option parse_result
  | 0, _, _ => none
  | fuel + 1, json, v =>
    let json1 := lept_parse_whitespace json.tail
    if peek json1 = 125 then some (LEPT_PARSE_OK, lept_set_object v 0, json1.tail)
    else lept_parse_object_loop strtod fuel json1 [] v

/-- The `for (;;)` loop of `lept_parse_object` (leptjson.c:956-1019); `stack`
holds the members pushed so far; at the closing brace they are copied into a
fresh object of capacity `size`. On an error they are popped and released and
`v->type` is set to `LEPT_NULL`. -/
def lept_parse_object_loop (strtod : List Nat → strtod_result) :
    Nat → List Nat → List lept_member → lept_value → Option parse_result
  | 0, _, _, _ => none
  | fuel + 1, json, stack, v =>
    if peek json ≠ 34 then some (LEPT_PARSE_MISS_KEY, jnull, json)
    else
      match lept_parse_string_raw json with
      | none => none
      | some (ret, str, json1) =>
        if ret ≠ LEPT_PARSE_OK then some (ret, jnull, json1)
        else
          let json2 := lept_parse_whitespace json1
          if peek json2 ≠ 58 then some (LEPT_PARSE_MISS_COLON, jnull, json2)
          else
            match lept_parse_value strtod fuel (lept_parse_whitespace json2.tail) jnull with
            | none => none
            | some (ret1, mv, json3) =>
              if ret1 ≠ LEPT_PARSE_OK then some (ret1, jnull, json3)
              else
                let stack1 := stack ++ [(str, mv)]
                let json4 := lept_parse_whitespace json3
                if peek json4 = 44 then
                  lept_parse_object_loop strtod fuel (lept_parse_whitespace json4.tail) stack1 v
                else if peek json4 = 125 then
                  some (LEPT_PARSE_OK, jobject stack1 stack1.length, json4.tail)
                else some (LEPT_PARSE_MISS_COMMA_OR_CURLY_BRACKET, jnull, json4)

end

/-- Parses a JSON text (`lept_parse`, leptjson.c:114-140): the return code
and the value `*v` on return. The fuel `3 * length + 1` is enough for every
text. -/
def lept_parse (strtod : List Nat → strtod_result) (json : List Nat) :
    Option (lept_parse_code × lept_value) :=
  match lept_parse_value strtod (3 * json.length + 1) (lept_parse_whitespace json) jnull with
  | none => none
  | some (ret, v, json1) =>
    if ret = LEPT_PARSE_OK then
      if peek (lept_parse_whitespace json1) ≠ 0 then some (LEPT_PARSE_ROOT_NOT_SINGULAR, jnull)
      else some (ret, v)
    else some (ret, v)

/-! ## Document model operations -/

/-- The test `memcmp(a, b, n) == 0` on two buffers that hold at least `n`
bytes each. -/
def memcmp_eq (a b : List Nat) (n : Nat) : Bool := decide (a.take n = b.take n)

/-- The scan of `lept_find_object_index` from index `i` on. -/
def lept_find_object_index_loop : List lept_member → List Nat → Nat → Option Nat
  | [], _, _ => none
  | (k, _) :: ms, key, i =>
    if k.length = key.length ∧ memcmp_eq k key key.length = true then some i
    else lept_find_object_index_loop ms key (i + 1)

/-- The index of the first member with the given key
(`lept_find_object_index`, leptjson.c:615-625), for the object with members
`m`; `none` stands for `LEPT_KEY_NOT_EXIST`, which is `(size_t)-1` and no
index of a member. -/
def lept_find_object_index (m : List lept_member) (key : List Nat) : Option Nat :=
  lept_find_object_index_loop m key 0

mutual

/-- Structural equality (`lept_is_equal`, leptjson.c:246-283). -/
def lept_is_equal : lept_value → lept_value → Bool
  | jstring s1, jstring s2 => decide (s1.length = s2.length) && memcmp_eq s1 s2 s1.length
  | jnumber n1, jnumber n2 => double_eq n1 n2
  | jarray e1 _, jarray e2 _ =>
    if e1.length ≠ e2.length then false else lept_is_equal_array_loop e1 e2
  | jobject m1 _, jobject m2 _ =>
    if m1.length ≠ m2.length then false else lept_is_equal_object_loop m1 m2
  | jnull, jnull => true
  | jfalse, jfalse => true
  | jtrue, jtrue => true
  | _, _ => false

/-- The loop over the elements of two arrays of the same size
(leptjson.c:260-263), at the elements not yet compared. -/
def lept_is_equal_array_loop : List lept_value → List lept_value → Bool
  | [], _ => true
  | _ :: _, [] => false
  | a :: l, b :: r => if !lept_is_equal a b then false else lept_is_equal_array_loop l r

/-- The loop over the members of the left object (leptjson.c:270-279), at
the left members not yet compared; `m2` is the whole right object. -/
def lept_is_equal_object_loop : List lept_member → List lept_member → Bool
  | [], _ => true
  | (k, v) :: l, m2 =>
    match lept_find_object_index m2 k with
    | none => false
    | some index =>
      match m2[index]? with
      | none => false
      | some (_, v2) => if !lept_is_equal v v2 then false else lept_is_equal_object_loop l m2

end

/-- Grows the capacity to at least `capacity` (`lept_reserve_array`,
leptjson.c:359-366). -/
def lept_reserve_array (v : lept_value) (capacity : Nat) : Option lept_value :=
  match v with
  | jarray e cap => if cap < capacity then some (jarray e capacity) else some (jarray e cap)
  | _ => none

/-- Grows the capacity to at least `capacity` (`lept_reserve_object`,
leptjson.c:478-485). -/
def lept_reserve_object (v : lept_value) (capacity : Nat) : Option lept_value :=
  match v with
  | jobject m cap => if cap < capacity then some (jobject m capacity) else some (jobject m cap)
  | _ => none

/-- The body of `lept_pushback_array_element` (leptjson.c:391-400), with the
call `lept_copy(slot, e)` on the fresh slot given as `copy`. -/
def lept_pushback_array_element_rec (copy : lept_value → lept_value → Option lept_value)
    (v e : lept_value) : Option lept_value :=
  match v with
  | jarray es cap =>
    match (if es.length = cap then lept_reserve_array v (if cap = 0 then 1 else cap * 2)
      else some v) with
    | some (jarray es1 cap1) =>
      match copy jnull e with
      | none => none
      | some x => some (jarray (es1 ++ [x]) cap1)
    | _ => none
  | _ => none

/-- The body of `lept_set_object_value_by_index` (leptjson.c:571-580), with
`lept_copy` given as `copy`. -/
def lept_set_object_value_by_index_rec (copy : lept_value → lept_value → Option lept_value)
    (v : lept_value) (index : Nat) (s_v : lept_value) :
    Option (lept_object_operate × lept_value) :=
  match v with
  | jobject m cap =>
    if index ≥ m.length then some (OBJECT_INDEX_WRONG, v)
    else
      match m[index]? with
      | none => none
      | some (k, old) =>
        match copy old s_v with
        | none => none
        | some x => some (MODIFY_OBJECT_OK, jobject (m.set index (k, x)) cap)
  | _ => none

/-- The body of `lept_set_object_value_by_key` (leptjson.c:581-613), with
`lept_copy` given as `copy`. -/
def lept_set_object_value_by_key_rec (copy : lept_value → lept_value → Option lept_value)
    (v : lept_value) (key : List Nat) (s_v : lept_value) :
    Option (lept_object_operate × lept_value) :=
  match v with
  | jobject m cap =>
    match lept_find_object_index m key with
    | none =>
      match (if m.length = cap then lept_reserve_object v (if cap = 0 then 1 else cap * 2)
        else some v) with
      | some (jobject m1 cap1) =>
        match copy jnull s_v with
        | none => none
        | some x => some (INSERT_OBJECT_OK, jobject (m1 ++ [(key, x)]) cap1)
      | _ => none
    | some index => lept_set_object_value_by_index_rec copy v index s_v
  | _ => none

/-- The loop of `lept_copy` over the elements of an array
(leptjson.c:166-167). -/
def lept_copy_array_loop (copy : lept_value → lept_value → Option lept_value) :
    lept_value → List lept_value → Option lept_value
  | dst, [] => some dst
  | dst, e :: es =>
    match lept_pushback_array_element_rec copy dst e with
    | none => none
    | some dst1 => lept_copy_array_loop copy dst1 es

/-- The loop of `lept_copy` over the members of an object
(leptjson.c:175-187): the value is copied into a fresh `val`, which
`lept_set_object_value_by_key` copies into the destination. -/
def lept_copy_object_loop (copy : lept_value → lept_value → Option lept_value) :
    lept_value → List lept_member → Option lept_value
  | dst, [] => some dst
  | dst, (k, mv) :: ms =>
    match copy jnull mv with
    | none => none
    | some val =>
      match lept_set_object_value_by_key_rec copy dst k val with
      | none => none
      | some (_, dst1) => lept_copy_object_loop copy dst1 ms

/-- Deep copy (`lept_copy`, leptjson.c:154-194): the new `*dst`, whose old
content is released on every path. One unit of fuel is used for each level of
nesting of `src`. -/
def lept_copy : Nat → lept_value → lept_value → Option lept_value
  | 0, _, _ => none
  | fuel + 1, dst, src =>
    match src with
    | jstring s => some (lept_set_string dst s)
    | jarray e capacity => lept_copy_array_loop (lept_copy fuel) (lept_set_array dst capacity) e
    | jobject m capacity =>
      lept_copy_object_loop (lept_copy fuel) (lept_set_object dst capacity) m
    | _ => some src

/-- Appends a copy of `e` (`lept_pushback_array_element`,
leptjson.c:391-400). -/
def lept_pushback_array_element (fuel : Nat) (v e : lept_value) : Option lept_value :=
  lept_pushback_array_element_rec (lept_copy fuel) v e

/-- Replaces the value of the member at `index` by a copy of `s_v`
(`lept_set_object_value_by_index`, leptjson.c:571-580). -/
def lept_set_object_value_by_index (fuel : Nat) (v : lept_value) (index : Nat)
    (s_v : lept_value) : Option (lept_object_operate × lept_value) :=
  lept_set_object_value_by_index_rec (lept_copy fuel) v index s_v

/-- Replaces the value under `key` or appends a new member
(`lept_set_object_value_by_key`, leptjson.c:581-613). -/
def lept_set_object_value_by_key (fuel : Nat) (v : lept_value) (key : List Nat)
    (s_v : lept_value) : Option (lept_object_operate × lept_value) :=
  lept_set_object_value_by_key_rec (lept_copy fuel) v key s_v

/-! ## The serializer -/

/-- The table `hex_digits` of `lept_stringify_string`. -/
def hex_digits : List Nat := [48, 49, 50, 51, 52, 53, 54, 55, 56, 57, 65, 66, 67, 68, 69, 70]

/-- The loop of `lept_stringify_string` over the bytes of the string
(leptjson.c:1051-1093): the bytes written for them. -/
def lept_stringify_string_loop : List Nat → List Nat
  | [] => []
  | ch :: s =>
    (if ch = 34 then [92, 34]
     else if ch = 92 then [92, 92]
     else if ch = 8 then [92, 98]
     else if ch = 12 then [92, 102]
     else if ch = 10 then [92, 110]
     else if ch = 13 then [92, 114]
     else if ch = 9 then [92, 116]
     else if ch < 0x20 then
       [92, 117, 48, 48, hex_digits.getD (ch >>> 4) 0, hex_digits.getD (ch &&& 15) 0]
     else [ch]) ++ lept_stringify_string_loop s

/-- The text of a string or key between quotes (`lept_stringify_string`,
leptjson.c:1043-1096): the bytes it leaves on the stack. -/
def lept_stringify_string (s : List Nat) : List Nat :=
  [34] ++ lept_stringify_string_loop s ++ [34]

mutual

/-- The text of a value (`lept_stringify_value`, leptjson.c:1098-1139): the
bytes it leaves on the stack; `sprintf` is the call
`sprintf(buffer, "%.17g", n)`. -/
def lept_stringify_value (sprintf : Nat → List Nat) : lept_value → List Nat
  | jnull => [110, 117, 108, 108]
  | jfalse => [102, 97, 108, 115, 101]
  | jtrue => [116, 114, 117, 101]
  | jnumber n => sprintf n
  | jstring s => lept_stringify_string s
  | jarray e _ => [91] ++ lept_stringify_array_loop sprintf e 0 ++ [93]
  | jobject m _ => [123] ++ lept_stringify_object_loop sprintf m 0 ++ [125]

/-- The loop over the elements of an array (leptjson.c:1118-1122), at index
`i`. -/
def lept_stringify_array_loop (sprintf : Nat → List Nat) : List lept_value → Nat → List Nat
  | [], _ => []
  | e :: es, i =>
    (if i > 0 then [44] else []) ++ lept_stringify_value sprintf e
      ++ lept_stringify_array_loop sprintf es (i + 1)

/-- The loop over the members of an object (leptjson.c:1127-1133), at index
`i`. -/
def lept_stringify_object_loop (sprintf : Nat → List Nat) : List lept_member → Nat → List Nat
  | [], _ => []
  | (k, v) :: ms, i =>
    (if i > 0 then [44] else []) ++ lept_stringify_string k ++ [58]
      ++ lept_stringify_value sprintf v ++ lept_stringify_object_loop sprintf ms (i + 1)

end

/-- The text of a value and its length (`lept_stringify`,
leptjson.c:142-152); the terminating zero pushed after it is not part of the
list. -/
def lept_stringify (sprintf : Nat → List Nat) (v : lept_value) : List Nat × Nat :=
  let stack := lept_stringify_value sprintf v
  (stack, stack.length)

/-! ## Predicates used in the statements -/

mutual

/-- No object inside the value, at any depth, has two members with the same
key. -/
def lept_keys_distinct : lept_value → Prop
  | jarray e _ => lept_keys_distinct_array e
  | jobject m _ => (m.map Prod.fst).Nodup ∧ lept_keys_distinct_object m
  | _ => True

/-- Every element has distinct keys at every depth. -/
def lept_keys_distinct_array : List lept_value → Prop
  | [] => True
  | e :: es => lept_keys_distinct e ∧ lept_keys_distinct_array es

/-- Every member value has distinct keys at every depth. -/
def lept_keys_distinct_object : List lept_member → Prop
  | [] => True
  | (_, v) :: ms => lept_keys_distinct v ∧ lept_keys_distinct_object ms

end

mutual

/-- The numbers stored in a value, at any depth. -/
def lept_numbers : lept_value → List Nat
  | jnumber n => [n]
  | jarray e _ => lept_numbers_array e
  | jobject m _ => lept_numbers_object m
  | _ => []

/-- The numbers stored in the elements of an array. -/
def lept_numbers_array : List lept_value → List Nat
  | [] => []
  | e :: es => lept_numbers e ++ lept_numbers_array es

/-- The numbers stored in the member values of an object. -/
def lept_numbers_object : List lept_member → List Nat
  | [] => []
  | (_, v) :: ms => lept_numbers v ++ lept_numbers_object ms

end

/-! ### Predicates and texts of the proofs -/

/-- The call returned, and if it returned `LEPT_PARSE_OK` it left a cursor
with fewer than `L` bytes to read. -/
def returns_consuming {α : Type} (L : Nat) (o : Option (lept_parse_code × α × List Nat)) : Prop :=
  ∃ r, o = some r ∧ (r.1 = LEPT_PARSE_OK → r.2.2.length < L)

/-- The ASCII hex digit for `d < 16`, in upper or lower case. -/
def hex_digit_char (upper : Bool) (d : Nat) : Nat :=
  if d < 10 then 48 + d else if upper then 65 + (d - 10) else 97 + (d - 10)

/-- A byte that the string loop copies as it is: at least `0x20` and neither
the double quote nor the backslash. -/
def ordinary_byte (b : Nat) : Prop := 0x20 ≤ b ∧ b ≠ 34 ∧ b ≠ 92

/-- A `strtod` that converts every text to `+0` without a range error; it
stands for the C routine on texts that hold no number. -/
def strtod_zero : List Nat → strtod_result := fun _ => ⟨0, false⟩

/-- A `strtod` that converts every text to `1.0` without a range error; it
stands for the C routine on texts whose number reads as one. -/
def strtod_one : List Nat → strtod_result := fun _ => ⟨0x3FF0000000000000, false⟩

/-- The integer part `0 | [1-9][0-9]*` of the number grammar. -/
def is_json_int : List Nat → Bool
  | [] => false
  | d :: ds => (decide (d = 48) && ds.isEmpty) || (ISDIGIT1TO9 d && ds.all ISDIGIT)

/-- The optional fraction part `. [0-9]+` of the number grammar. -/
def is_json_frac : List Nat → Bool
  | [] => true
  | [_] => false
  | c :: d :: ds => decide (c = 46) && ISDIGIT d && ds.all ISDIGIT

/-- The optional minus sign of the number grammar. -/
def is_json_sign (s : List Nat) : Bool := decide (s = [] ∨ s = [45])

/-- The texts that break the number grammar by a leading `+`, by a `.` with
no digit before it or after it, or by an exponent marker with no digit after
it and its optional sign. -/
inductive number_defect : List Nat → Prop where
  | leading_plus (rest : List Nat) : number_defect (43 :: rest)
  | no_digit_before_point (sign rest : List Nat) :
      is_json_sign sign = true → number_defect (sign ++ 46 :: rest)
  | no_digit_after_point (sign int rest : List Nat) :
      is_json_sign sign = true → is_json_int int = true → ISDIGIT (peek rest) = false →
      number_defect (sign ++ int ++ 46 :: rest)
  | no_digit_after_exponent (sign int frac : List Nat) (e : Nat) (esign rest : List Nat) :
      is_json_sign sign = true → is_json_int int = true → is_json_frac frac = true →
      (e = 69 ∨ e = 101) →
      (esign = [43] ∨ esign = [45] ∨ (esign = [] ∧ peek rest ≠ 43 ∧ peek rest ≠ 45)) →
      ISDIGIT (peek rest) = false →
      number_defect (sign ++ int ++ frac ++ e :: (esign ++ rest))

/-- The four hex digits of `x < 0x10000`, digit `i` in upper case when
`upper i` is true. -/
def hex4_text (upper : Nat → Bool) (x : Nat) : List Nat :=
  [hex_digit_char (upper 0) (x / 4096 % 16), hex_digit_char (upper 1) (x / 256 % 16),
    hex_digit_char (upper 2) (x / 16 % 16), hex_digit_char (upper 3) (x % 16)]

/-- The bit pattern is a finite double: the exponent field is not all ones. -/
def double_is_finite (x : Nat) : Bool := decide ((x / 2 ^ 52) % 2 ^ 11 ≠ 2047)

/-- A `strtod` for texts of one digit: a text that starts with `1` converts
to `1.0`, one that starts with `2` to `2.0`, any other to `+0`, without a
range error. -/
def strtod_digit : List Nat → strtod_result := fun s =>
  if peek s = 49 then ⟨0x3FF0000000000000, false⟩
  else if peek s = 50 then ⟨0x4000000000000000, false⟩
  else ⟨0, false⟩

/-- One digit or more, `[0-9]+`. -/
def is_json_digits : List Nat → Bool
  | [] => false
  | d :: ds => ISDIGIT d && ds.all ISDIGIT

/-- The optional exponent part `(e|E) [+-]? [0-9]+` of the number grammar. -/
def is_json_exp : List Nat → Bool
  | [] => true
  | [_] => false
  | e :: s :: t =>
    decide (e = 69 ∨ e = 101) &&
      (if s = 43 ∨ s = 45 then is_json_digits t else is_json_digits (s :: t))

/-- The text is a number of the grammar
`[-] (0 | [1-9][0-9]*) [ . [0-9]+ ] [ (e|E) [+-]? [0-9]+ ]`. -/
def is_json_number (t : List Nat) : Prop :=
  ∃ sign int frac exp, t = sign ++ int ++ frac ++ exp ∧ is_json_sign sign = true ∧
    is_json_int int = true ∧ is_json_frac frac = true ∧ is_json_exp exp = true

/-- The byte that follows a value in a compact text: the end of the input,
a comma, or a closing bracket or brace. -/
def is_delimiter (c : Nat) : Prop := c = 0 ∨ c = 44 ∨ c = 93 ∨ c = 125

/-- The conversions round-trip on the double `n`: it is finite, `sprintf`
prints it as a number of the grammar, and `strtod` converts that text, up to
a delimiter, back to `n`. -/
def number_round_trips (strtod : List Nat → strtod_result) (sprintf : Nat → List Nat)
    (n : Nat) : Prop :=
  double_is_finite n = true ∧ is_json_number (sprintf n) ∧
    ∀ rest, is_delimiter (peek rest) → (strtod (sprintf n ++ rest)).val = n

mutual

/-- The value with every capacity set to the size, as the parser builds
arrays and objects. -/
def lept_normalize : lept_value → lept_value
  | jarray e _ => jarray (lept_normalize_array e) e.length
  | jobject m _ => jobject (lept_normalize_object m) m.length
  | v => v

/-- The elements of an array, normalized. -/
def lept_normalize_array : List lept_value → List lept_value
  | [] => []
  | e :: es => lept_normalize e :: lept_normalize_array es

/-- The members of an object, their values normalized. -/
def lept_normalize_object : List lept_member → List lept_member
  | [] => []
  | (k, v) :: ms => (k, lept_normalize v) :: lept_normalize_object ms

end

/-- A `sprintf` for the doubles `1.0` and `2.0`: they print as `1` and `2`,
any other double as `0`. -/
def sprintf_digit : Nat → List Nat := fun n =>
  if n = 0x3FF0000000000000 then [49]
  else if n = 0x4000000000000000 then [50]
  else [48]

/-- A byte that can start the text of a value. -/
def is_value_start (c : Nat) : Prop :=
  c = 110 ∨ c = 102 ∨ c = 116 ∨ c = 34 ∨ c = 91 ∨ c = 123 ∨ c = 45 ∨ ISDIGIT c = true

/-- The text of the elements of an array from index `i` on, without the
comma in front of the first of them. -/
def lept_stringify_array_tail (sprintf : Nat → List Nat) : List lept_value → Nat → List Nat
  | [], _ => []
  | e :: es, i => lept_stringify_value sprintf e ++ lept_stringify_array_loop sprintf es (i + 1)

/-- The text of the members of an object from index `i` on, without the
comma in front of the first of them. -/
def lept_stringify_object_tail (sprintf : Nat → List Nat) : List lept_member → Nat → List Nat
  | [], _ => []
  | (k, v) :: ms, i =>
    lept_stringify_string k ++ [58] ++ lept_stringify_value sprintf v
      ++ lept_stringify_object_loop sprintf ms (i + 1)

mutual

/-- The depth of nesting of a value: 0 for a value that is neither an array
nor an object. -/
def lept_depth : lept_value → Nat
  | jarray e _ => lept_depth_array e + 1
  | jobject m _ => lept_depth_object m + 1
  | _ => 0

/-- The largest depth of an element. -/
def lept_depth_array : List lept_value → Nat
  | [] => 0
  | e :: es => max (lept_depth e) (lept_depth_array es)

/-- The largest depth of a member value. -/
def lept_depth_object : List lept_member → Nat
  | [] => 0
  | (_, v) :: ms => max (lept_depth v) (lept_depth_object ms)

end

mutual

/-- The invariant `size ≤ capacity` of every array and object inside the
value, at any depth. -/
def lept_size_le_capacity : lept_value → Prop
  | jarray e capacity => e.length ≤ capacity ∧ lept_size_le_capacity_array e
  | jobject m capacity => m.length ≤ capacity ∧ lept_size_le_capacity_object m
  | _ => True

/-- The invariant holds in every element. -/
def lept_size_le_capacity_array : List lept_value → Prop
  | [] => True
  | e :: es => lept_size_le_capacity e ∧ lept_size_le_capacity_array es

/-- The invariant holds in every member value. -/
def lept_size_le_capacity_object : List lept_member → Prop
  | [] => True
  | (_, v) :: ms => lept_size_le_capacity v ∧ lept_size_le_capacity_object ms

end

/-- The value `LEPT_KEY_NOT_EXIST`, which is `(size_t)-1` with a `size_t` of
64 bits (leptjson.h:26). -/
def LEPT_KEY_NOT_EXIST : Nat := 2 ^ 64 - 1

/-- The `size_t` that `lept_find_object_index` returns (leptjson.c:615-625):
the index of the first member with the key, or `LEPT_KEY_NOT_EXIST`. -/
def lept_find_object_index_size_t (m : List lept_member) (key : List Nat) : Nat :=
  match lept_find_object_index m key with
  | some i => i
  | none => LEPT_KEY_NOT_EXIST

/-- A run of the bytes that `lept_parse_whitespace` skips: space, tab and
carriage return. -/
def is_whitespace_run (w : List Nat) : Prop := ∀ b ∈ w, b = 32 ∨ b = 9 ∨ b = 13

/-- The text of one member of an object text, in its parts, with the key and
the value that the parts stand for: whitespace, the string text of the key,
whitespace, a colon, whitespace, the text of the value, whitespace. -/
structure member_text where
  ws_key : List Nat
  key_text : List Nat
  ws_colon : List Nat
  ws_value : List Nat
  value_text : List Nat
  ws_end : List Nat
  key : List Nat
  value : lept_value

/-- The bytes of a member text. -/
def member_text_bytes (t : member_text) : List Nat :=
  t.ws_key ++ (t.key_text ++ (t.ws_colon ++ 58 :: (t.ws_value ++ (t.value_text ++ t.ws_end))))

/-- The bytes of one or more member texts, separated by commas. -/
def members_text_bytes : List member_text → List Nat
  | [] => []
  | [t] => member_text_bytes t
  | t :: t1 :: ts => member_text_bytes t ++ 44 :: members_text_bytes (t1 :: ts)

/-- The bytes of an object text: the braces around the member texts, or
around the whitespace `w` when there is no member. -/
def object_text (w : List Nat) : List member_text → List Nat
  | [] => 123 :: (w ++ [125])
  | t :: ts => 123 :: (members_text_bytes (t :: ts) ++ [125])

/-- The text is a string text that decodes to the key, whatever follows
it. -/
def is_key_text (text key : List Nat) : Prop :=
  peek text = 34 ∧
    ∀ rest, lept_parse_string_raw (text ++ rest) = some (LEPT_PARSE_OK, key, rest)

/-- A byte that can follow the value of a member: whitespace, a comma or the
closing brace. -/
def is_member_end (c : Nat) : Prop := c = 32 ∨ c = 9 ∨ c = 13 ∨ c = 44 ∨ c = 125

/-- The text is the text of the value: in front of whitespace, a comma or the
closing brace it parses to the value and the cursor stops behind it. -/
def is_value_text (strtod : List Nat → strtod_result) (text : List Nat) (v : lept_value) :
    Prop :=
  ∀ rest, is_member_end (peek rest) →
    ∃ fuel, lept_parse_value strtod fuel (text ++ rest) jnull = some (LEPT_PARSE_OK, v, rest)

/-- The parts of a member text are what they are named. -/
def is_member_text (strtod : List Nat → strtod_result) (t : member_text) : Prop :=
  is_whitespace_run t.ws_key ∧ is_key_text t.key_text t.key ∧ is_whitespace_run t.ws_colon ∧
    is_whitespace_run t.ws_value ∧ is_value_text strtod t.value_text t.value ∧
    is_whitespace_run t.ws_end

/-! ## Operations on arrays and objects

Sizes, capacities, indices and counts are `size_t` values. The sums and
products that the functions form from them (`index + count`, `2 * size + 1`,
`capacity * 2`) are taken as natural numbers: the buffers of an array and of
an object lie in memory, which keeps sizes and capacities far below `2 ^ 63`,
and a call whose `index + count` wraps around is outside the model. -/

/-- The value under a key (`lept_find_object_value`, leptjson.c:626-630), for
the object with members `m`; `none` is the `NULL` returned when no member has
the key. -/
def lept_find_object_value (m : List lept_member) (key : List Nat) : Option lept_value :=
  match lept_find_object_index m key with
  | none => none
  | some index =>
    match m[index]? with
    | some (_, v) => some v
    | none => none

/-- Lowers the capacity to the size (`lept_shrink_array`,
leptjson.c:368-375). -/
def lept_shrink_array (v : lept_value) : Option lept_value :=
  match v with
  | jarray e cap => if cap > e.length then some (jarray e e.length) else some (jarray e cap)
  | _ => none

/-- The loop `for (i = index; i < index + count; i++) lept_free(e + i)` of
`lept_erase_array_element` (leptjson.c:434-435), with `n` rounds to go. -/
def lept_erase_free_loop : Nat → Nat → List lept_value → List lept_value
  | 0, _, e => e
  | n + 1, i, e =>
    match e[i]? with
    | some x => lept_erase_free_loop n (i + 1) (e.set i (lept_free x))
    | none => e

/-- The loop `for (i = index + count; i < size; i++) e[i - count] = e[i]` of
`lept_erase_array_element` (leptjson.c:439-440), with `n` rounds to go. -/
def lept_erase_shift_loop (count : Nat) : Nat → Nat → List lept_value → List lept_value
  | 0, _, e => e
  | n + 1, i, e =>
    match e[i]? with
    | some x => lept_erase_shift_loop count n (i + 1) (e.set (i - count) x)
    | none => e

/-- Removes `count` elements from `index` on (`lept_erase_array_element`,
leptjson.c:423-450); `none` when the assertion fails. The list of the new
value is the first `new_size` slots of the buffer. -/
def lept_erase_array_element (v : lept_value) (index count : Nat) : Option lept_value :=
  match v with
  | jarray e cap =>
    if index + count ≤ e.length then
      let new_size := e.length - count
      let new_capacity := 2 * new_size + 1
      let e1 := lept_erase_free_loop count index e
      let e2 := lept_erase_shift_loop count (e.length - (index + count)) (index + count) e1
      some (jarray (e2.take new_size) (if new_capacity < cap then new_capacity else cap))
    else none
  | _ => none

/-- Removes every element (`lept_clear_array`, leptjson.c:376-384). -/
def lept_clear_array (v : lept_value) : Option lept_value :=
  match v with
  | jarray e _ => lept_erase_array_element v 0 e.length
  | _ => none

/-- Removes the last element (`lept_popback_array_element`,
leptjson.c:401-405); `none` when the assertion fails. -/
def lept_popback_array_element (v : lept_value) : Option lept_value :=
  match v with
  | jarray e cap =>
    if e.length > 0 then
      let size := e.length - 1
      match e[size]? with
      | some x => some (jarray ((e.set size (lept_free x)).take size) cap)
      | none => none
    else none
  | _ => none

/-- Exchanges two values (`lept_swap`, leptjson.c:201-209): the new `*lhs`
and the new `*rhs`. -/
def lept_swap (lhs rhs : lept_value) : lept_value × lept_value := (rhs, lhs)

/-- The call `lept_swap(e + i, e + j)` on two slots of a buffer; `none` when
a slot lies outside the elements. -/
def lept_swap_elements (e : List lept_value) (i j : Nat) : Option (List lept_value) :=
  match e[i]?, e[j]? with
  | some a, some b => some ((e.set i (lept_swap a b).1).set j (lept_swap a b).2)
  | _, _ => none

/-- The loop `for (i = size - 1; i != index; i--) lept_swap(e + i - 1, e + i)`
of `lept_insert_array_element` (leptjson.c:420-421), at `i`; `none` when `i`
would pass below 0. -/
def lept_insert_array_loop (index : Nat) : Nat → List lept_value → Option (List lept_value)
  | 0, e => if 0 ≠ index then none else some e
  | i + 1, e =>
    if i + 1 ≠ index then
      match lept_swap_elements e i (i + 1) with
      | none => none
      | some e1 => lept_insert_array_loop index i e1
    else some e

/-- Inserts a copy of `e` at `index` (`lept_insert_array_element`,
leptjson.c:406-422); `none` when the assertion fails. -/
def lept_insert_array_element (fuel : Nat) (v e : lept_value) (index : Nat) :
    Option lept_value :=
  match v with
  | jarray es _ =>
    if index ≤ es.length then
      match lept_pushback_array_element fuel v e with
      | some (jarray es1 cap1) =>
        if es1.length = 1 then some (jarray es1 cap1)
        else
          match lept_insert_array_loop index (es1.length - 1) es1 with
          | none => none
          | some es2 => some (jarray es2 cap1)
      | _ => none
    else none
  | _ => none

/-- The loop `for (i = index; i < size; i++) m[i] = m[i + 1]` of
`lept_remove_object_value_by_index` (leptjson.c:547-549), with `n` rounds to
go. -/
def lept_remove_shift_loop : Nat → Nat → List lept_member → List lept_member
  | 0, _, m => m
  | n + 1, i, m =>
    match m[i + 1]? with
    | some x => lept_remove_shift_loop n (i + 1) (m.set i x)
    | none => m

/-- Removes the member at `index` (`lept_remove_object_value_by_index`,
leptjson.c:531-559): the return code and the new `*v`. The key and the value
of the member are released, the members behind it move one slot down, and the
list of the new value is the first `size` slots of the buffer. -/
def lept_remove_object_value_by_index (v : lept_value) (index : Nat) :
    Option (lept_object_operate × lept_value) :=
  match v with
  | jobject m cap =>
    if index ≥ m.length then some (OBJECT_INDEX_WRONG, v)
    else
      let size := m.length - 1
      let new_capacity := 2 * size + 1
      match m[index]? with
      | none => none
      | some (_, x) =>
        let m1 := m.set index ([], lept_free x)
        let m2 := lept_remove_shift_loop (size - index) index m1
        some (REMOVE_OBJECT_OK,
          jobject (m2.take size) (if new_capacity < cap then new_capacity else cap))
  | _ => none

/-- The escape policy of the serializer, in the words of its description: the
text written for one byte of a string. The quote, the backslash and the
control bytes with a short escape are written as a backslash and a letter,
any other byte below `0x20` as `\u00XX` with two upper-case hex digits, and
every other byte as it is. -/
def json_escape_byte (b : Nat) : List Nat :=
  if b = 0x22 then [0x5C, 0x22]
  else if b = 0x5C then [0x5C, 0x5C]
  else if b = 0x08 then [0x5C, 0x62]
  else if b = 0x0C then [0x5C, 0x66]
  else if b = 0x0A then [0x5C, 0x6E]
  else if b = 0x0D then [0x5C, 0x72]
  else if b = 0x09 then [0x5C, 0x74]
  else if b < 0x20 then
    [0x5C, 0x75, 0x30, 0x30, hex_digit_char true (b / 16), hex_digit_char true (b % 16)]
  else [b]

/-- The macro `lept_value_init` (leptjson.h:72-75): the tag becomes
`LEPT_NULL`. -/
def lept_value_init (_v : lept_value) : lept_value := jnull

/-- Moves `src` into `dst` (`lept_move`, leptjson.c:195-200): the new `*dst`
and the new `*src`. The old content of `dst` is released, the representation
of `src` is copied over it, and `src` is initialised again. -/
def lept_move (dst src : lept_value) : lept_value × lept_value :=
  let _dst1 := lept_free dst
  let dst2 := src
  (dst2, lept_value_init src)

/-- Decoding by the bit layout of UTF-8: `0xxxxxxx`, `110xxxxx 10xxxxxx`,
`1110xxxx 10xxxxxx 10xxxxxx` and `11110xxx 10xxxxxx 10xxxxxx 10xxxxxx`; the
code point is the `x` bits in order. `none` for bytes that do not have one of
the four layouts. -/
def utf8_decode : List Nat → Option Nat
  | [b0] => if b0 &&& 0x80 = 0 then some b0 else none
  | [b0, b1] =>
    if b0 &&& 0xE0 = 0xC0 ∧ b1 &&& 0xC0 = 0x80 then
      some (((b0 &&& 0x1F) <<< 6) ||| (b1 &&& 0x3F))
    else none
  | [b0, b1, b2] =>
    if b0 &&& 0xF0 = 0xE0 ∧ b1 &&& 0xC0 = 0x80 ∧ b2 &&& 0xC0 = 0x80 then
      some ((((b0 &&& 0x0F) <<< 12) ||| ((b1 &&& 0x3F) <<< 6)) ||| (b2 &&& 0x3F))
    else none
  | [b0, b1, b2, b3] =>
    if b0 &&& 0xF8 = 0xF0 ∧ b1 &&& 0xC0 = 0x80 ∧ b2 &&& 0xC0 = 0x80 ∧ b3 &&& 0xC0 = 0x80 then
      some (((((b0 &&& 0x07) <<< 18) ||| ((b1 &&& 0x3F) <<< 12)) ||| ((b2 &&& 0x3F) <<< 6))
        ||| (b3 &&& 0x3F))
    else none
  | _ => none

/-! ## The byte stack -/

/-- The fields `size` and `top` of `lept_context` (leptjson.c:45-49); the
cursor `json` and the bytes of the stack are carried by the functions of the
parser and of the serializer. -/
structure lept_context where
  size : Nat
  top : Nat

/-- The macro `LEPT_PARSE_STACK_INIT_SIZE` (leptjson.c:14-16). -/
def LEPT_PARSE_STACK_INIT_SIZE : Nat := 256

/-- The loop `while (c->top + size >= c->size) c->size += c->size >> 1` of
`lept_context_push` (leptjson.c:654-655): the size it ends with; `need` is
`c->top + size`. -/
def lept_context_push_loop : Nat → Nat → Nat → Option Nat
  | 0, _, _ => none
  | fuel + 1, need, size =>
    if need ≥ size then lept_context_push_loop fuel need (size + (size >>> 1))
    else some size

/-- Reserves `size` bytes on the stack (`lept_context_push`,
leptjson.c:646-662): the offset of the region it returns, counted from
`c->stack`, and the new `size` and `top`; `none` when the assertion fails or
the fuel of the loop runs out. The sum `c->top + size` is taken without
wrap-around. -/
def lept_context_push (fuel : Nat) (c : lept_context) (size : Nat) :
    Option (Nat × lept_context) :=
  if size > 0 then
    if c.top + size ≥ c.size then
      match lept_context_push_loop fuel (c.top + size)
        (if c.size = 0 then LEPT_PARSE_STACK_INIT_SIZE else c.size) with
      | none => none
      | some size1 => some (c.top, ⟨size1, c.top + size⟩)
    else some (c.top, ⟨c.size, c.top + size⟩)
  else none

/-- The sequence `s -> s + floor(s / 2)` from `s0`: its element number `k`. -/
def stack_growth (s0 : Nat) : Nat → Nat
  | 0 => s0
  | k + 1 => stack_growth s0 k + stack_growth s0 k / 2

/-! ## The length that the serializer reports -/

/-- The value of `c->top` after `lept_stringify_string` (leptjson.c:1043-1096)
entered with `top`: the region of `len * 6 + 2` bytes is pushed, and the part
of it behind the bytes written is given back. -/
def lept_stringify_string_top (top : Nat) (s : List Nat) : Nat :=
  let size := s.length * 6 + 2
  let written := (lept_stringify_string s).length
  (top + size) - (size - written)

mutual

/-- The value of `c->top` after `lept_stringify_value`
(leptjson.c:1098-1139) entered with `top`: `PUTS` and `PUTC` push what they
write, and a number pushes 32 bytes and gives back those that `sprintf` did
not write. -/
def lept_stringify_value_top (sprintf : Nat → List Nat) : lept_value → Nat → Nat
  | jnull, top => top + 4
  | jfalse, top => top + 5
  | jtrue, top => top + 4
  | jnumber n, top => (top + 32) - (32 - (sprintf n).length)
  | jstring s, top => lept_stringify_string_top top s
  | jarray e _, top => lept_stringify_array_loop_top sprintf e 0 (top + 1) + 1
  | jobject m _, top => lept_stringify_object_loop_top sprintf m 0 (top + 1) + 1

/-- The value of `c->top` after the loop over the elements of an array, at
index `i`. -/
def lept_stringify_array_loop_top (sprintf : Nat → List Nat) :
    List lept_value → Nat → Nat → Nat
  | [], _, top => top
  | e :: es, i, top =>
    lept_stringify_array_loop_top sprintf es (i + 1)
      (lept_stringify_value_top sprintf e (if i > 0 then top + 1 else top))

/-- The value of `c->top` after the loop over the members of an object, at
index `i`. -/
def lept_stringify_object_loop_top (sprintf : Nat → List Nat) :
    List lept_member → Nat → Nat → Nat
  | [], _, top => top
  | (k, v) :: ms, i, top =>
    lept_stringify_object_loop_top sprintf ms (i + 1)
      (lept_stringify_value_top sprintf v
        (lept_stringify_string_top (if i > 0 then top + 1 else top) k + 1))

end

/-- The length that `lept_stringify` stores in `*length` (leptjson.c:148-149):
`c.top` after `lept_stringify_value`, entered with `c.top = 0`. -/
def lept_stringify_length (sprintf : Nat → List Nat) (v : lept_value) : Nat :=
  lept_stringify_value_top sprintf v 0

/-- A byte of JSON whitespace: space, horizontal tab, line feed or carriage
return. -/
def is_json_whitespace (b : Nat) : Prop := b = 0x20 ∨ b = 0x09 ∨ b = 0x0A ∨ b = 0x0D

mutual

/-- The strings and the keys inside a value, at any depth. -/
def lept_strings : lept_value → List (List Nat)
  | jstring s => [s]
  | jarray e _ => lept_strings_array e
  | jobject m _ => lept_strings_object m
  | _ => []

/-- The strings and the keys inside the elements of an array. -/
def lept_strings_array : List lept_value → List (List Nat)
  | [] => []
  | e :: es => lept_strings e ++ lept_strings_array es

/-- The keys of the members of an object and the strings and keys inside
their values. -/
def lept_strings_object : List lept_member → List (List Nat)
  | [] => []
  | (k, v) :: ms => k :: (lept_strings v ++ lept_strings_object ms)

end

/-- A `strtod` for texts of one digit: a text that starts with `1`, `2` or
`3` converts to `1.0`, `2.0` or `3.0`, any other to `+0`, without a range
error. -/
def strtod_small : List Nat → strtod_result := fun s =>
  if peek s = 49 then ⟨0x3FF0000000000000, false⟩
  else if peek s = 50 then ⟨0x4000000000000000, false⟩
  else if peek s = 51 then ⟨0x4008000000000000, false⟩
  else ⟨0, false⟩

/-- A `sprintf` for the doubles `1.0`, `2.0` and `3.0`: they print as `1`,
`2` and `3`, any other double as `0`. -/
def sprintf_small : Nat → List Nat := fun n =>
  if n = 0x3FF0000000000000 then [49]
  else if n = 0x4000000000000000 then [50]
  else if n = 0x4008000000000000 then [51]
  else [48]

/-! ## Termination: the parser returns on every text -/

theorem peek_nil : peek [] = 0 := rfl
theorem peek_cons (a : Nat) (l : List Nat) : peek (a :: l) = a := rfl

theorem length_of_peek_ne_zero {p : List Nat} (h : peek p ≠ 0) :
    p.length = p.tail.length + 1 := by
  cases p with
  | nil => exact absurd rfl h
  | cons a l => simp

theorem lept_parse_whitespace_length (p : List Nat) :
    (lept_parse_whitespace p).length ≤ p.length := by
  induction p with
  | nil => simp [lept_parse_whitespace]
  | cons a l ih =>
    simp only [lept_parse_whitespace]
    split
    · simp only [List.length_cons]; omega
    · simp

theorem lept_skip_digits_length (p : List Nat) : (lept_skip_digits p).length ≤ p.length := by
  induction p with
  | nil => simp [lept_skip_digits]
  | cons a l ih =>
    simp only [lept_skip_digits]
    split
    · simp only [List.length_cons]; omega
    · simp

theorem lept_parse_hex4_loop_length (n : Nat) :
    ∀ (p : List Nat) (u : Nat) (q : List Nat) (w : Nat),
      lept_parse_hex4_loop n p u = some (q, w) → q.length ≤ p.length := by
  induction n with
  | zero =>
    intro p u q w h
    simp only [lept_parse_hex4_loop, Option.some.injEq, Prod.mk.injEq] at h
    rw [h.1]
  | succ n ih =>
    intro p u q w h
    simp only [lept_parse_hex4_loop] at h
    have ht : p.tail.length ≤ p.length := by simp
    split at h
    · exact (ih _ _ _ _ h).trans ht
    · split at h
      · exact (ih _ _ _ _ h).trans ht
      · split at h
        · exact (ih _ _ _ _ h).trans ht
        · exact absurd h (by simp)

theorem lept_parse_hex4_length {p q : List Nat} {w : Nat}
    (h : lept_parse_hex4 p = some (q, w)) : q.length ≤ p.length :=
  lept_parse_hex4_loop_length 4 p 0 q w h

theorem returns_consuming_error {α : Type} (L : Nat) (ret : lept_parse_code) (a : α)
    (q : List Nat) (h : ret ≠ LEPT_PARSE_OK) : returns_consuming L (some (ret, a, q)) :=
  ⟨_, rfl, fun h1 => absurd h1 h⟩

theorem returns_consuming_ok {α : Type} (L : Nat) (ret : lept_parse_code) (a : α)
    (q : List Nat) (h : q.length < L) : returns_consuming L (some (ret, a, q)) :=
  ⟨_, rfl, fun _ => h⟩

theorem returns_consuming_mono {α : Type} {L M : Nat} {o : Option (lept_parse_code × α × List Nat)}
    (h : returns_consuming L o) (hLM : L ≤ M) : returns_consuming M o := by
  obtain ⟨r, hr, hr2⟩ := h
  exact ⟨r, hr, fun h => (hr2 h).trans_le hLM⟩

theorem returns_consuming_ite {α : Type} {L : Nat} {c : Prop} [Decidable c]
    {a b : Option (lept_parse_code × α × List Nat)}
    (ha : c → returns_consuming L a) (hb : ¬c → returns_consuming L b) :
    returns_consuming L (if c then a else b) := by
  by_cases h : c
  · rw [if_pos h]; exact ha h
  · rw [if_neg h]; exact hb h

theorem lept_parse_string_loop_some (fuel : Nat) :
    ∀ (p stack : List Nat), p.length < fuel →
      returns_consuming p.length (lept_parse_string_loop fuel p stack) := by
  induction fuel with
  | zero => intro p stack h; omega
  | succ n ih =>
    intro p stack hlen
    have key : ∀ (q st : List Nat), q.length < p.length →
        returns_consuming p.length (lept_parse_string_loop n q st) :=
      fun q st hq => returns_consuming_mono (ih q st (by omega)) (by omega)
    have ht2 : p.tail.tail.length ≤ p.tail.length := by simp
    simp only [lept_parse_string_loop]
    refine returns_consuming_ite (fun h34 => ?_) (fun h34 => ?_)
    · have hl := length_of_peek_ne_zero (p := p) (by omega)
      exact returns_consuming_ok _ _ _ _ (by omega)
    refine returns_consuming_ite (fun h92 => ?_) (fun h92 => ?_)
    · have hl := length_of_peek_ne_zero (p := p) (by omega)
      iterate 8 refine returns_consuming_ite (fun _ => key _ _ (by omega)) (fun _ => ?_)
      refine returns_consuming_ite (fun _ => ?_)
        (fun _ => returns_consuming_error _ _ _ _ (by simp))
      cases hx : lept_parse_hex4 p.tail.tail with
      | none => exact returns_consuming_error _ _ _ _ (by simp)
      | some pu =>
        obtain ⟨p2, u⟩ := pu
        have h1 := lept_parse_hex4_length hx
        have h3 : p2.tail.tail.length ≤ p2.length :=
          (List.length_tail p2.tail ▸ Nat.sub_le _ _).trans (List.length_tail p2 ▸ Nat.sub_le _ _)
        simp only []
        refine returns_consuming_ite (fun _ => ?_) (fun _ => key _ _ (by omega))
        refine returns_consuming_ite
          (fun _ => returns_consuming_error _ _ _ _ (by simp)) (fun _ => ?_)
        refine returns_consuming_ite
          (fun _ => returns_consuming_error _ _ _ _ (by simp)) (fun _ => ?_)
        cases hx2 : lept_parse_hex4 p2.tail.tail with
        | none => exact returns_consuming_error _ _ _ _ (by simp)
        | some pu2 =>
          obtain ⟨p3, u2⟩ := pu2
          have h2 := lept_parse_hex4_length hx2
          simp only []
          exact returns_consuming_ite
            (fun _ => returns_consuming_error _ _ _ _ (by simp)) (fun _ => key _ _ (by omega))
    refine returns_consuming_ite
      (fun _ => returns_consuming_error _ _ _ _ (by simp)) (fun h0 => ?_)
    have hl := length_of_peek_ne_zero (p := p) h0
    exact returns_consuming_ite
      (fun _ => returns_consuming_error _ _ _ _ (by simp)) (fun _ => key _ _ (by omega))

theorem lept_parse_string_raw_some (json : List Nat) (hq : peek json = 34) :
    returns_consuming json.length (lept_parse_string_raw json) := by
  have hl := length_of_peek_ne_zero (p := json) (by omega)
  obtain ⟨⟨ret, str, q⟩, hr, hr2⟩ :=
    lept_parse_string_loop_some (json.tail.length + 1) json.tail [] (by omega)
  simp only [lept_parse_string_raw, hr]
  by_cases hok : ret = LEPT_PARSE_OK
  · simp only [hok, if_true]
    exact returns_consuming_ok _ _ _ _ (by have := hr2 hok; simp only at this; omega)
  · simp only [hok, if_false]
    exact returns_consuming_error _ _ _ _ hok

theorem tail_length_le (p : List Nat) : p.tail.length ≤ p.length := by simp

theorem ws_tail_length_lt {p : List Nat} (h : peek p ≠ 0) :
    (lept_parse_whitespace p.tail).length < p.length := by
  have h1 := lept_parse_whitespace_length p.tail
  have h2 := length_of_peek_ne_zero h
  omega

theorem lept_parse_literal_consuming (json : List Nat) (v : lept_value) (lit : List Nat)
    (t : lept_type) (h : peek json ≠ 0) :
    returns_consuming json.length (some (lept_parse_literal json v lit t)) := by
  have hl := length_of_peek_ne_zero h
  have hloop : ∀ (ls q q1 : List Nat), lept_parse_literal_loop ls q = some q1 →
      q1.length ≤ q.length := by
    intro ls
    induction ls with
    | nil => intro q q1 hq; simp only [lept_parse_literal_loop, Option.some.injEq] at hq; rw [hq]
    | cons l ls ih =>
      intro q q1 hq
      simp only [lept_parse_literal_loop] at hq
      split at hq
      · exact absurd hq (by simp)
      · exact (ih _ _ hq).trans (tail_length_le q)
  simp only [lept_parse_literal]
  cases hq : lept_parse_literal_loop lit.tail json.tail with
  | none => exact returns_consuming_error _ _ _ _ (by simp)
  | some q1 =>
    have := hloop _ _ _ hq
    exact returns_consuming_ok _ _ _ _ (by omega)

theorem lept_number_int_length {p q : List Nat} (h : lept_number_int p = some q) :
    q.length < p.length := by
  simp only [lept_number_int] at h
  split at h
  · rename_i h48
    have hl := length_of_peek_ne_zero (p := p) (by omega)
    simp only [Option.some.injEq] at h
    rw [← h]; omega
  · split at h
    · exact absurd h (by simp)
    · rename_i h48 hd
      have hne : peek p ≠ 0 := by
        intro h0
        rw [h0] at hd
        exact hd (by decide)
      have hl := length_of_peek_ne_zero hne
      have := lept_skip_digits_length p.tail
      simp only [Option.some.injEq] at h
      rw [← h]; omega

theorem lept_number_frac_length {p q : List Nat} (h : lept_number_frac p = some q) :
    q.length ≤ p.length := by
  simp only [lept_number_frac] at h
  split at h
  · split at h
    · exact absurd h (by simp)
    · have := lept_skip_digits_length p.tail.tail
      have := tail_length_le p
      have := tail_length_le p.tail
      simp only [Option.some.injEq] at h
      rw [← h]; omega
  · simp only [Option.some.injEq] at h
    rw [h]

theorem lept_number_exp_length {p q : List Nat} (h : lept_number_exp p = some q) :
    q.length ≤ p.length := by
  simp only [lept_number_exp] at h
  have h1 := tail_length_le p
  have h2 := tail_length_le p.tail
  by_cases he : peek p = 69 ∨ peek p = 101
  · rw [if_pos he] at h
    by_cases hs : peek p.tail = 43 ∨ peek p.tail = 45
    · rw [if_pos hs] at h
      split at h
      · exact absurd h (by simp)
      · have := lept_skip_digits_length p.tail.tail.tail
        have := tail_length_le p.tail.tail
        simp only [Option.some.injEq] at h
        rw [← h]; omega
    · rw [if_neg hs] at h
      split at h
      · exact absurd h (by simp)
      · have := lept_skip_digits_length p.tail.tail
        simp only [Option.some.injEq] at h
        rw [← h]; omega
  · rw [if_neg he] at h
    simp only [Option.some.injEq] at h
    rw [h]

theorem lept_parse_number_consuming (strtod : List Nat → strtod_result) (json : List Nat)
    (v : lept_value) :
    returns_consuming json.length (some (lept_parse_number strtod json v)) := by
  simp only [lept_parse_number]
  cases h1 : lept_number_int (if peek json = 45 then json.tail else json) with
  | none => exact returns_consuming_error _ _ _ _ (by simp)
  | some p1 =>
    have hl1 := lept_number_int_length h1
    have hl0 : (if peek json = 45 then json.tail else json).length ≤ json.length := by
      split
      · exact tail_length_le json
      · exact le_refl _
    simp only []
    cases h2 : lept_number_frac p1 with
    | none => exact returns_consuming_error _ _ _ _ (by simp)
    | some p2 =>
      have hl2 := lept_number_frac_length h2
      simp only []
      cases h3 : lept_number_exp p2 with
      | none => exact returns_consuming_error _ _ _ _ (by simp)
      | some p3 =>
        have hl3 := lept_number_exp_length h3
        simp only []
        split
        · exact returns_consuming_error _ _ _ _ (by simp)
        · exact returns_consuming_ok _ _ _ _ (by omega)

theorem lept_parse_string_consuming (json : List Nat) (v : lept_value) (hq : peek json = 34) :
    returns_consuming json.length (lept_parse_string json v) := by
  obtain ⟨⟨ret, s, q⟩, hr, hr2⟩ := lept_parse_string_raw_some json hq
  simp only [lept_parse_string, hr]
  exact returns_consuming_ite (fun h => returns_consuming_ok _ _ _ _ (hr2 h))
    (fun h => returns_consuming_error _ _ _ _ h)

/-- Enough fuel: every parsing function of the mutual block returns. -/
theorem lept_parse_value_fuel (strtod : List Nat → strtod_result) (n : Nat) :
    (∀ (json : List Nat) (v : lept_value), 3 * json.length + 1 ≤ n →
      returns_consuming json.length (lept_parse_value strtod n json v)) ∧
    (∀ (json : List Nat) (v : lept_value), peek json ≠ 0 → 3 * json.length ≤ n →
      returns_consuming json.length (lept_parse_array strtod n json v)) ∧
    (∀ (json : List Nat) (stack : List lept_value) (v : lept_value), 3 * json.length + 2 ≤ n →
      returns_consuming json.length (lept_parse_array_loop strtod n json stack v)) ∧
    (∀ (json : List Nat) (v : lept_value), peek json ≠ 0 → 3 * json.length ≤ n →
      returns_consuming json.length (lept_parse_object strtod n json v)) ∧
    (∀ (json : List Nat) (stack : List lept_member) (v : lept_value), 3 * json.length + 2 ≤ n →
      returns_consuming json.length (lept_parse_object_loop strtod n json stack v)) := by
  induction n with
  | zero =>
    refine ⟨fun json v h => by omega, fun json v h0 h => ?_, fun json st v h => by omega,
      fun json v h0 h => ?_, fun json st v h => by omega⟩
    · have := length_of_peek_ne_zero h0; omega
    · have := length_of_peek_ne_zero h0; omega
  | succ n ih =>
    obtain ⟨ihv, iha, ihal, iho, ihol⟩ := ih
    refine ⟨?_, ?_, ?_, ?_, ?_⟩
    · -- lept_parse_value
      intro json v hn
      simp only [lept_parse_value]
      refine returns_consuming_ite (fun h => ?_) (fun _ => ?_)
      · exact lept_parse_literal_consuming _ _ _ _ (by omega)
      refine returns_consuming_ite (fun h => ?_) (fun _ => ?_)
      · exact lept_parse_literal_consuming _ _ _ _ (by omega)
      refine returns_consuming_ite (fun h => ?_) (fun _ => ?_)
      · exact lept_parse_literal_consuming _ _ _ _ (by omega)
      refine returns_consuming_ite (fun h => ?_) (fun _ => ?_)
      · exact lept_parse_string_consuming _ _ h
      refine returns_consuming_ite (fun h => ?_) (fun _ => ?_)
      · exact iha json v (by omega) (by omega)
      refine returns_consuming_ite (fun h => ?_) (fun _ => ?_)
      · exact iho json v (by omega) (by omega)
      refine returns_consuming_ite (fun h => ?_) (fun h => ?_)
      · exact returns_consuming_error _ _ _ _ (by simp)
      · exact lept_parse_number_consuming _ _ _
    · -- lept_parse_array
      intro json v h0 hn
      have hw := ws_tail_length_lt h0
      simp only [lept_parse_array]
      refine returns_consuming_ite (fun h => ?_) (fun _ => ?_)
      · have := tail_length_le (lept_parse_whitespace json.tail)
        exact returns_consuming_ok _ _ _ _ (by omega)
      · exact returns_consuming_mono (ihal _ _ _ (by omega)) (by omega)
    · -- lept_parse_array_loop
      intro json stack v hn
      obtain ⟨⟨ret, e, json1⟩, hr, hr2⟩ := ihv json jnull (by omega)
      simp only [lept_parse_array_loop, hr]
      refine returns_consuming_ite (fun h => ?_) (fun h => ?_)
      · exact returns_consuming_error _ _ _ _ h
      have h1 : json1.length < json.length := hr2 (not_not.mp h)
      have h2 := lept_parse_whitespace_length json1
      have h3 := tail_length_le (lept_parse_whitespace json1)
      have h4 := lept_parse_whitespace_length (lept_parse_whitespace json1).tail
      refine returns_consuming_ite (fun h => ?_) (fun _ => ?_)
      · exact returns_consuming_mono (ihal _ _ _ (by omega)) (by omega)
      refine returns_consuming_ite (fun h => ?_) (fun _ => ?_)
      · exact returns_consuming_ok _ _ _ _ (by omega)
      · exact returns_consuming_error _ _ _ _ (by simp)
    · -- lept_parse_object
      intro json v h0 hn
      have hw := ws_tail_length_lt h0
      simp only [lept_parse_object]
      refine returns_consuming_ite (fun h => ?_) (fun _ => ?_)
      · have := tail_length_le (lept_parse_whitespace json.tail)
        exact returns_consuming_ok _ _ _ _ (by omega)
      · exact returns_consuming_mono (ihol _ _ _ (by omega)) (by omega)
    · -- lept_parse_object_loop
      intro json stack v hn
      simp only [lept_parse_object_loop]
      refine returns_consuming_ite (fun h => ?_) (fun h => ?_)
      · exact returns_consuming_error _ _ _ _ (by simp)
      obtain ⟨⟨ret, str, json1⟩, hr, hr2⟩ := lept_parse_string_raw_some json (not_not.mp h)
      simp only [hr]
      refine returns_consuming_ite (fun h => ?_) (fun h => ?_)
      · exact returns_consuming_error _ _ _ _ h
      have h1 : json1.length < json.length := hr2 (not_not.mp h)
      have h2 := lept_parse_whitespace_length json1
      have h3 := tail_length_le (lept_parse_whitespace json1)
      have h4 := lept_parse_whitespace_length (lept_parse_whitespace json1).tail
      refine returns_consuming_ite (fun h => ?_) (fun h => ?_)
      · exact returns_consuming_error _ _ _ _ (by simp)
      obtain ⟨⟨ret1, mv, json3⟩, hr3, hr4⟩ :=
        ihv (lept_parse_whitespace (lept_parse_whitespace json1).tail) jnull (by omega)
      simp only [hr3]
      refine returns_consuming_ite (fun h => ?_) (fun h => ?_)
      · exact returns_consuming_error _ _ _ _ h
      have h5 : json3.length < _ := hr4 (not_not.mp h)
      have h6 := lept_parse_whitespace_length json3
      have h7 := tail_length_le (lept_parse_whitespace json3)
      have h8 := lept_parse_whitespace_length (lept_parse_whitespace json3).tail
      refine returns_consuming_ite (fun h => ?_) (fun _ => ?_)
      · exact returns_consuming_mono (ihol _ _ _ (by omega)) (by omega)
      refine returns_consuming_ite (fun h => ?_) (fun _ => ?_)
      · exact returns_consuming_ok _ _ _ _ (by omega)
      · exact returns_consuming_error _ _ _ _ (by simp)

/-- The parser returns on every text. -/
theorem lept_parse_returns (strtod : List Nat → strtod_result) (json : List Nat) :
    ∃ r, lept_parse strtod json = some r := by
  have hw := lept_parse_whitespace_length json
  obtain ⟨⟨ret, v, json1⟩, hr, -⟩ :=
    (lept_parse_value_fuel strtod (3 * json.length + 1)).1 (lept_parse_whitespace json) jnull
      (by omega)
  simp only [lept_parse, hr]
  split
  · split
    · exact ⟨_, rfl⟩
    · exact ⟨_, rfl⟩
  · exact ⟨_, rfl⟩

/-! ## The result does not depend on the fuel -/

theorem some_ite_mono {α : Type} {c : Prop} [Decidable c] {a b a1 b1 : Option α} {r : α}
    (h : (if c then a else b) = some r)
    (ha : c → a = some r → a1 = some r) (hb : ¬c → b = some r → b1 = some r) :
    (if c then a1 else b1) = some r := by
  by_cases hc : c
  · rw [if_pos hc] at h ⊢; exact ha hc h
  · rw [if_neg hc] at h ⊢; exact hb hc h

/-- More fuel does not change a result. -/
theorem lept_parse_value_fuel_mono (strtod : List Nat → strtod_result) (n : Nat) :
    (∀ (json : List Nat) (v : lept_value) (r : parse_result),
      lept_parse_value strtod n json v = some r →
      ∀ m, n ≤ m → lept_parse_value strtod m json v = some r) ∧
    (∀ (json : List Nat) (v : lept_value) (r : parse_result),
      lept_parse_array strtod n json v = some r →
      ∀ m, n ≤ m → lept_parse_array strtod m json v = some r) ∧
    (∀ (json : List Nat) (stack : List lept_value) (v : lept_value) (r : parse_result),
      lept_parse_array_loop strtod n json stack v = some r →
      ∀ m, n ≤ m → lept_parse_array_loop strtod m json stack v = some r) ∧
    (∀ (json : List Nat) (v : lept_value) (r : parse_result),
      lept_parse_object strtod n json v = some r →
      ∀ m, n ≤ m → lept_parse_object strtod m json v = some r) ∧
    (∀ (json : List Nat) (stack : List lept_member) (v : lept_value) (r : parse_result),
      lept_parse_object_loop strtod n json stack v = some r →
      ∀ m, n ≤ m → lept_parse_object_loop strtod m json stack v = some r) := by
  induction n with
  | zero =>
    refine ⟨?_, ?_, ?_, ?_, ?_⟩ <;> intros <;> rename_i h _ _ <;>
      first
        | exact absurd h (by simp [lept_parse_value])
        | exact absurd h (by simp [lept_parse_array])
        | exact absurd h (by simp [lept_parse_array_loop])
        | exact absurd h (by simp [lept_parse_object])
        | exact absurd h (by simp [lept_parse_object_loop])
  | succ n ih =>
    obtain ⟨ihv, iha, ihal, iho, ihol⟩ := ih
    refine ⟨?_, ?_, ?_, ?_, ?_⟩
    · intro json v r h m hm
      obtain ⟨k, rfl⟩ : ∃ k, m = k + 1 := ⟨m - 1, by omega⟩
      have hk : n ≤ k := by omega
      simp only [lept_parse_value] at h ⊢
      refine some_ite_mono h (fun _ h => h) (fun _ h => ?_)
      refine some_ite_mono h (fun _ h => h) (fun _ h => ?_)
      refine some_ite_mono h (fun _ h => h) (fun _ h => ?_)
      refine some_ite_mono h (fun _ h => h) (fun _ h => ?_)
      refine some_ite_mono h (fun _ h => iha _ _ _ h k hk) (fun _ h => ?_)
      refine some_ite_mono h (fun _ h => iho _ _ _ h k hk) (fun _ h => ?_)
      exact h
    · intro json v r h m hm
      obtain ⟨k, rfl⟩ : ∃ k, m = k + 1 := ⟨m - 1, by omega⟩
      have hk : n ≤ k := by omega
      simp only [lept_parse_array] at h ⊢
      exact some_ite_mono h (fun _ h => h) (fun _ h => ihal _ _ _ _ h k hk)
    · intro json stack v r h m hm
      obtain ⟨k, rfl⟩ : ∃ k, m = k + 1 := ⟨m - 1, by omega⟩
      have hk : n ≤ k := by omega
      simp only [lept_parse_array_loop] at h ⊢
      cases hx : lept_parse_value strtod n json jnull with
      | none => rw [hx] at h; exact absurd h (by simp)
      | some x =>
        obtain ⟨ret, e, json1⟩ := x
        rw [hx] at h
        rw [ihv _ _ _ hx k hk]
        simp only [] at h ⊢
        refine some_ite_mono h (fun _ h => h) (fun _ h => ?_)
        refine some_ite_mono h (fun _ h => ihal _ _ _ _ h k hk) (fun _ h => ?_)
        exact h
    · intro json v r h m hm
      obtain ⟨k, rfl⟩ : ∃ k, m = k + 1 := ⟨m - 1, by omega⟩
      have hk : n ≤ k := by omega
      simp only [lept_parse_object] at h ⊢
      exact some_ite_mono h (fun _ h => h) (fun _ h => ihol _ _ _ _ h k hk)
    · intro json stack v r h m hm
      obtain ⟨k, rfl⟩ : ∃ k, m = k + 1 := ⟨m - 1, by omega⟩
      have hk : n ≤ k := by omega
      simp only [lept_parse_object_loop] at h ⊢
      refine some_ite_mono h (fun _ h => h) (fun _ h => ?_)
      cases hs : lept_parse_string_raw json with
      | none => rw [hs] at h; exact absurd h (by simp)
      | some x =>
        obtain ⟨ret, str, json1⟩ := x
        rw [hs] at h
        simp only [] at h ⊢
        refine some_ite_mono h (fun _ h => h) (fun _ h => ?_)
        refine some_ite_mono h (fun _ h => h) (fun _ h => ?_)
        cases hx : lept_parse_value strtod n
            (lept_parse_whitespace (lept_parse_whitespace json1).tail) jnull with
        | none => rw [hx] at h; exact absurd h (by simp)
        | some x =>
          obtain ⟨ret1, mv, json3⟩ := x
          rw [hx] at h
          rw [ihv _ _ _ hx k hk]
          simp only [] at h ⊢
          refine some_ite_mono h (fun _ h => h) (fun _ h => ?_)
          refine some_ite_mono h (fun _ h => ihol _ _ _ _ h k hk) (fun _ h => ?_)
          exact h

/-- The result of `lept_parse_value` does not depend on the fuel. -/
theorem lept_parse_value_fuel_unique (strtod : List Nat → strtod_result) {n m : Nat}
    {json : List Nat} {v : lept_value} {r r1 : parse_result}
    (h : lept_parse_value strtod n json v = some r)
    (h1 : lept_parse_value strtod m json v = some r1) : r = r1 := by
  have a := (lept_parse_value_fuel_mono strtod n).1 json v r h (max n m) (le_max_left _ _)
  have b := (lept_parse_value_fuel_mono strtod m).1 json v r1 h1 (max n m) (le_max_right _ _)
  rw [a] at b
  exact Option.some.inj b

/-- What `lept_parse` returns, from the result of the root value with any
fuel. -/
theorem lept_parse_of_value (strtod : List Nat → strtod_result) (fuel : Nat)
    {json : List Nat} {ret : lept_parse_code} {v : lept_value} {json1 : List Nat}
    (h : lept_parse_value strtod fuel (lept_parse_whitespace json) jnull = some (ret, v, json1)) :
    lept_parse strtod json =
      if ret = LEPT_PARSE_OK then
        if peek (lept_parse_whitespace json1) ≠ 0 then some (LEPT_PARSE_ROOT_NOT_SINGULAR, jnull)
        else some (ret, v)
      else some (ret, v) := by
  have hw := lept_parse_whitespace_length json
  obtain ⟨r, hr, -⟩ :=
    (lept_parse_value_fuel strtod (3 * json.length + 1)).1 (lept_parse_whitespace json) jnull
      (by omega)
  have := lept_parse_value_fuel_unique strtod hr h
  subst this
  simp only [lept_parse, hr]

/-! ## C5: the root must be alone -/

/-- C5: when the root value parses and, after the whitespace that follows it,
the cursor is not at the terminating zero byte, `lept_parse` returns
`LEPT_PARSE_ROOT_NOT_SINGULAR` and the output value is `LEPT_NULL`. -/
theorem lept_parse_root_not_singular (strtod : List Nat → strtod_result) (fuel : Nat)
    (json : List Nat) (v : lept_value) (json1 : List Nat)
    (hroot : lept_parse_value strtod fuel (lept_parse_whitespace json) jnull
      = some (LEPT_PARSE_OK, v, json1))
    (hrest : peek (lept_parse_whitespace json1) ≠ 0) :
    ∃ v1, lept_parse strtod json = some (LEPT_PARSE_ROOT_NOT_SINGULAR, v1) ∧
      lept_get_type v1 = LEPT_NULL := by
  refine ⟨jnull, ?_, rfl⟩
  rw [lept_parse_of_value strtod fuel hroot, if_pos rfl, if_pos hrest]

theorem lept_parse_root_not_singular_witness :
    lept_parse_value strtod_zero 1 (lept_parse_whitespace [110, 117, 108, 108, 32, 120]) jnull
      = some (LEPT_PARSE_OK, jnull, [32, 120]) ∧
    peek (lept_parse_whitespace [32, 120]) ≠ 0 ∧
    ∃ v1, lept_parse strtod_zero [110, 117, 108, 108, 32, 120]
        = some (LEPT_PARSE_ROOT_NOT_SINGULAR, v1) ∧ lept_get_type v1 = LEPT_NULL :=
  ⟨rfl, by decide, lept_parse_root_not_singular strtod_zero 1 [110, 117, 108, 108, 32, 120]
    jnull [32, 120] rfl (by decide)⟩

/-! ## C6: the line feed is not skipped -/

/-- C6 (the code at the failing input): a line feed around `null` is not
skipped; in front of it the text is rejected with `LEPT_PARSE_INVALID_VALUE`,
behind it with `LEPT_PARSE_ROOT_NOT_SINGULAR`. -/
theorem lept_parse_line_feed_rejected (strtod : List Nat → strtod_result) :
    lept_parse strtod [110, 117, 108, 108] = some (LEPT_PARSE_OK, jnull) ∧
    lept_parse strtod ([10] ++ [110, 117, 108, 108] ++ [])
      = some (LEPT_PARSE_INVALID_VALUE, jnull) ∧
    lept_parse strtod ([] ++ [110, 117, 108, 108] ++ [10])
      = some (LEPT_PARSE_ROOT_NOT_SINGULAR, jnull) :=
  ⟨rfl, rfl, rfl⟩

/-! ## C2: an error leaves the value Null -/

theorem of_ite_eq_some {α : Type} {c : Prop} [Decidable c] {a b : Option α} {r : α} {P : Prop}
    (h : (if c then a else b) = some r)
    (ha : c → a = some r → P) (hb : ¬c → b = some r → P) : P := by
  by_cases hc : c
  · rw [if_pos hc] at h; exact ha hc h
  · rw [if_neg hc] at h; exact hb hc h

theorem lept_parse_literal_error (json : List Nat) (v : lept_value) (lit : List Nat)
    (t : lept_type) (h : (lept_parse_literal json v lit t).1 ≠ LEPT_PARSE_OK) :
    (lept_parse_literal json v lit t).2.1 = v := by
  simp only [lept_parse_literal] at h ⊢
  cases hq : lept_parse_literal_loop lit.tail json.tail with
  | none => rfl
  | some q => rw [hq] at h; exact absurd rfl h

theorem lept_set_n_type (v : lept_value) (x : Nat) :
    lept_get_type (lept_set_n v x) = lept_get_type v := by
  cases v <;> rfl

theorem lept_parse_number_error (strtod : List Nat → strtod_result) (json : List Nat)
    (v : lept_value) (h : (lept_parse_number strtod json v).1 ≠ LEPT_PARSE_OK) :
    lept_get_type (lept_parse_number strtod json v).2.1 = lept_get_type v := by
  simp only [lept_parse_number] at h ⊢
  cases h1 : lept_number_int (if peek json = 45 then json.tail else json) with
  | none => rfl
  | some p1 =>
    rw [h1] at h
    simp only [] at h ⊢
    cases h2 : lept_number_frac p1 with
    | none => rfl
    | some p2 =>
      rw [h2] at h
      simp only [] at h ⊢
      cases h3 : lept_number_exp p2 with
      | none => rfl
      | some p3 =>
        rw [h3] at h
        simp only [] at h ⊢
        split
        · exact lept_set_n_type _ _
        · rename_i hc
          rw [if_neg hc] at h
          exact absurd rfl h

theorem lept_parse_string_error {json : List Nat} {v v1 : lept_value} {ret : lept_parse_code}
    {q : List Nat} (h : lept_parse_string json v = some (ret, v1, q))
    (hne : ret ≠ LEPT_PARSE_OK) : v1 = v := by
  simp only [lept_parse_string] at h
  cases hs : lept_parse_string_raw json with
  | none => rw [hs] at h; exact absurd h (by simp)
  | some x =>
    obtain ⟨ret1, s, q1⟩ := x
    rw [hs] at h
    simp only [] at h
    refine of_ite_eq_some h (fun hc h => ?_) (fun hc h => ?_)
    · simp only [Option.some.injEq, Prod.mk.injEq] at h
      exact absurd (h.1 ▸ hc) hne
    · simp only [Option.some.injEq, Prod.mk.injEq] at h
      exact h.2.1.symm

theorem lept_parse_array_loop_error (strtod : List Nat → strtod_result) {n : Nat}
    {json : List Nat} {stack : List lept_value} {v v1 : lept_value} {ret : lept_parse_code}
    {q : List Nat} (h : lept_parse_array_loop strtod n json stack v = some (ret, v1, q))
    (hne : ret ≠ LEPT_PARSE_OK) : v1 = v := by
  induction n generalizing json stack with
  | zero => exact absurd h (by simp [lept_parse_array_loop])
  | succ n ih =>
    simp only [lept_parse_array_loop] at h
    cases hx : lept_parse_value strtod n json jnull with
    | none => rw [hx] at h; exact absurd h (by simp)
    | some x =>
      obtain ⟨ret1, e, json1⟩ := x
      rw [hx] at h
      simp only [] at h
      refine of_ite_eq_some h (fun _ h => ?_) (fun _ h => ?_)
      · simp only [Option.some.injEq, Prod.mk.injEq] at h
        exact h.2.1.symm
      refine of_ite_eq_some h (fun _ h => ih h) (fun _ h => ?_)
      refine of_ite_eq_some h (fun _ h => ?_) (fun _ h => ?_)
      · simp only [Option.some.injEq, Prod.mk.injEq] at h
        exact absurd h.1.symm hne
      · simp only [Option.some.injEq, Prod.mk.injEq] at h
        exact h.2.1.symm

theorem lept_parse_object_loop_error (strtod : List Nat → strtod_result) {n : Nat}
    {json : List Nat} {stack : List lept_member} {v v1 : lept_value} {ret : lept_parse_code}
    {q : List Nat} (h : lept_parse_object_loop strtod n json stack v = some (ret, v1, q))
    (hne : ret ≠ LEPT_PARSE_OK) : v1 = jnull := by
  induction n generalizing json stack with
  | zero => exact absurd h (by simp [lept_parse_object_loop])
  | succ n ih =>
    simp only [lept_parse_object_loop] at h
    refine of_ite_eq_some h (fun _ h => ?_) (fun _ h => ?_)
    · simp only [Option.some.injEq, Prod.mk.injEq] at h
      exact h.2.1.symm
    cases hs : lept_parse_string_raw json with
    | none => rw [hs] at h; exact absurd h (by simp)
    | some x =>
      obtain ⟨ret1, str, json1⟩ := x
      rw [hs] at h
      simp only [] at h
      refine of_ite_eq_some h (fun _ h => ?_) (fun _ h => ?_)
      · simp only [Option.some.injEq, Prod.mk.injEq] at h
        exact h.2.1.symm
      refine of_ite_eq_some h (fun _ h => ?_) (fun _ h => ?_)
      · simp only [Option.some.injEq, Prod.mk.injEq] at h
        exact h.2.1.symm
      cases hx : lept_parse_value strtod n
          (lept_parse_whitespace (lept_parse_whitespace json1).tail) jnull with
      | none => rw [hx] at h; exact absurd h (by simp)
      | some x =>
        obtain ⟨ret2, mv, json3⟩ := x
        rw [hx] at h
        simp only [] at h
        refine of_ite_eq_some h (fun _ h => ?_) (fun _ h => ?_)
        · simp only [Option.some.injEq, Prod.mk.injEq] at h
          exact h.2.1.symm
        refine of_ite_eq_some h (fun _ h => ih h) (fun _ h => ?_)
        refine of_ite_eq_some h (fun _ h => ?_) (fun _ h => ?_)
        · simp only [Option.some.injEq, Prod.mk.injEq] at h
          exact absurd h.1.symm hne
        · simp only [Option.some.injEq, Prod.mk.injEq] at h
          exact h.2.1.symm

/-- On an error `lept_parse_value` leaves the tag of `*v` as it was or sets
it to `LEPT_NULL`. -/
theorem lept_parse_value_error (strtod : List Nat → strtod_result) {n : Nat}
    {json : List Nat} {v v1 : lept_value} {ret : lept_parse_code} {q : List Nat}
    (h : lept_parse_value strtod n json v = some (ret, v1, q)) (hne : ret ≠ LEPT_PARSE_OK) :
    lept_get_type v1 = LEPT_NULL ∨ lept_get_type v1 = lept_get_type v := by
  cases n with
  | zero => exact absurd h (by simp [lept_parse_value])
  | succ n =>
    simp only [lept_parse_value] at h
    have lit : ∀ (l : List Nat) (t : lept_type),
        some (lept_parse_literal json v l t) = some (ret, v1, q) →
        lept_get_type v1 = LEPT_NULL ∨ lept_get_type v1 = lept_get_type v := by
      intro l t h
      have h1 := Option.some.inj h
      have := lept_parse_literal_error json v l t (by rw [h1]; exact hne)
      rw [h1] at this
      exact Or.inr (by rw [← this])
    refine of_ite_eq_some h (fun _ h => lit _ _ h) (fun _ h => ?_)
    refine of_ite_eq_some h (fun _ h => lit _ _ h) (fun _ h => ?_)
    refine of_ite_eq_some h (fun _ h => lit _ _ h) (fun _ h => ?_)
    refine of_ite_eq_some h (fun _ h => ?_) (fun _ h => ?_)
    · exact Or.inr (by rw [lept_parse_string_error h hne])
    refine of_ite_eq_some h (fun _ h => ?_) (fun _ h => ?_)
    · cases n with
      | zero => exact absurd h (by simp [lept_parse_array])
      | succ n =>
        simp only [lept_parse_array] at h
        refine of_ite_eq_some h (fun _ h => ?_) (fun _ h => ?_)
        · simp only [Option.some.injEq, Prod.mk.injEq] at h
          exact absurd h.1.symm hne
        · exact Or.inr (by rw [lept_parse_array_loop_error strtod h hne])
    refine of_ite_eq_some h (fun _ h => ?_) (fun _ h => ?_)
    · cases n with
      | zero => exact absurd h (by simp [lept_parse_object])
      | succ n =>
        simp only [lept_parse_object] at h
        refine of_ite_eq_some h (fun _ h => ?_) (fun _ h => ?_)
        · simp only [Option.some.injEq, Prod.mk.injEq] at h
          exact absurd h.1.symm hne
        · exact Or.inl (by rw [lept_parse_object_loop_error strtod h hne]; rfl)
    refine of_ite_eq_some h (fun _ h => ?_) (fun _ h => ?_)
    · simp only [Option.some.injEq, Prod.mk.injEq] at h
      exact Or.inr (by rw [← h.2.1])
    · have h1 := Option.some.inj h
      have := lept_parse_number_error strtod json v (by rw [h1]; exact hne)
      rw [h1] at this
      exact Or.inr this

/-- C2: `lept_parse` returns on every text, and when the code it returns is
not `LEPT_PARSE_OK` the output value has type `LEPT_NULL`. -/
theorem lept_parse_error_null (strtod : List Nat → strtod_result) (json : List Nat) :
    ∃ ret v, lept_parse strtod json = some (ret, v) ∧
      (ret ≠ LEPT_PARSE_OK → lept_get_type v = LEPT_NULL) := by
  have hw := lept_parse_whitespace_length json
  obtain ⟨⟨ret, v, json1⟩, hr, -⟩ :=
    (lept_parse_value_fuel strtod (3 * json.length + 1)).1 (lept_parse_whitespace json) jnull
      (by omega)
  rw [lept_parse_of_value strtod _ hr]
  by_cases hok : ret = LEPT_PARSE_OK
  · rw [if_pos hok]
    by_cases hz : peek (lept_parse_whitespace json1) ≠ 0
    · rw [if_pos hz]; exact ⟨_, _, rfl, fun _ => rfl⟩
    · rw [if_neg hz]; exact ⟨_, _, rfl, fun h => absurd hok h⟩
  · rw [if_neg hok]
    refine ⟨_, _, rfl, fun _ => ?_⟩
    rcases lept_parse_value_error strtod hr hok with h | h
    · exact h
    · exact h

/-! ## C10: the error kinds of a string -/

theorem lept_parse_string_loop_plain (n ch : Nat) (p st : List Nat) (h : ordinary_byte ch) :
    lept_parse_string_loop (n + 1) (ch :: p) st = lept_parse_string_loop n p (st ++ [ch]) := by
  obtain ⟨h1, h2, h3⟩ := h
  have h0 : ch ≠ 0 := by omega
  have h4 : ¬ ch < 0x20 := by omega
  simp only [lept_parse_string_loop, peek, List.headD_cons, List.tail_cons, PUTC]
  rw [if_neg h2, if_neg h3, if_neg h0, if_neg h4]

theorem lept_parse_string_loop_run (run : List Nat) :
    ∀ (n : Nat) (rest st : List Nat), (∀ b ∈ run, ordinary_byte b) →
      lept_parse_string_loop (n + run.length) (run ++ rest) st
        = lept_parse_string_loop n rest (st ++ run) := by
  induction run with
  | nil => intro n rest st _; simp
  | cons b run ih =>
    intro n rest st h
    have hb := h b (List.mem_cons_self _ _)
    have hr : ∀ x ∈ run, ordinary_byte x := fun x hx => h x (List.mem_cons_of_mem _ hx)
    rw [List.length_cons, ← Nat.add_assoc, List.cons_append,
      lept_parse_string_loop_plain _ _ _ _ hb, ih n rest (st ++ [b]) hr]
    simp

/-- The string loop on an error reports the code through
`lept_parse_string_raw`, `lept_parse_string`, `lept_parse_value` and
`lept_parse`. -/
theorem lept_parse_string_loop_error (strtod : List Nat → strtod_result) (json : List Nat)
    (ret : lept_parse_code) (s q : List Nat) (hne : ret ≠ LEPT_PARSE_OK)
    (h : lept_parse_string_loop (json.length + 1) json [] = some (ret, s, q)) :
    lept_parse strtod (34 :: json) = some (ret, jnull) := by
  have hv : lept_parse_value strtod 1 (lept_parse_whitespace (34 :: json)) jnull
      = some (ret, jnull, json) := by
    simp [lept_parse_value, lept_parse_whitespace, peek, lept_parse_string,
      lept_parse_string_raw, h, hne]
  rw [lept_parse_of_value strtod 1 hv, if_neg hne]

/-- C10: after an opening quote and a run of ordinary bytes, `lept_parse`
returns `LEPT_PARSE_MISS_QUOTATION_MARK` at the end of the input,
`LEPT_PARSE_INVALID_STRING_CHAR` at a byte in `0x01..0x1F`, and
`LEPT_PARSE_INVALID_STRING_ESCAPE` at a backslash followed by a byte that is
none of the nine escape letters. -/
theorem lept_parse_string_error_kinds (strtod : List Nat → strtod_result) (run : List Nat)
    (hrun : ∀ b ∈ run, ordinary_byte b) :
    (∀ rest, peek rest = 0 →
      lept_parse strtod (34 :: (run ++ rest)) = some (LEPT_PARSE_MISS_QUOTATION_MARK, jnull)) ∧
    (∀ b rest, 0x01 ≤ b → b ≤ 0x1F →
      lept_parse strtod (34 :: (run ++ b :: rest))
        = some (LEPT_PARSE_INVALID_STRING_CHAR, jnull)) ∧
    (∀ rest, peek rest ∉ [34, 92, 47, 98, 102, 110, 114, 116, 117] →
      lept_parse strtod (34 :: (run ++ 92 :: rest))
        = some (LEPT_PARSE_INVALID_STRING_ESCAPE, jnull)) := by
  refine ⟨fun rest h0 => ?_, fun b rest h1 h2 => ?_, fun rest he => ?_⟩
  · refine lept_parse_string_loop_error strtod _ _ [] rest.tail (by simp) ?_
    rw [List.length_append, Nat.add_assoc, Nat.add_comm, lept_parse_string_loop_run run _ _ _ hrun]
    simp [lept_parse_string_loop, h0]
  · refine lept_parse_string_loop_error strtod _ _ [] rest (by simp) ?_
    rw [List.length_append, Nat.add_assoc, Nat.add_comm, lept_parse_string_loop_run run _ _ _ hrun]
    have a1 : b ≠ 34 := by omega
    have a2 : b ≠ 92 := by omega
    have a3 : b ≠ 0 := by omega
    have a4 : b < 32 := by omega
    simp [lept_parse_string_loop, peek, a1, a2, a3, a4]
  · refine lept_parse_string_loop_error strtod _ _ [] rest.tail (by simp) ?_
    rw [List.length_append, Nat.add_assoc, Nat.add_comm, lept_parse_string_loop_run run _ _ _ hrun]
    simp only [List.mem_cons, List.mem_singleton, not_or, List.mem_nil_iff, or_false] at he
    obtain ⟨e1, e2, e3, e4, e5, e6, e7, e8, e9⟩ := he
    simp [lept_parse_string_loop, peek, e1, e2, e3, e4, e5, e6, e7, e8, e9]
    simp [peek] at e1 e2 e3 e4 e5 e6 e7 e8 e9
    simp [e1, e2, e3, e4, e5, e6, e7, e8, e9]

theorem lept_parse_string_error_kinds_witness :
    (∀ b ∈ [97, 98, 99], ordinary_byte b) ∧
    lept_parse strtod_zero [34, 97, 98, 99] = some (LEPT_PARSE_MISS_QUOTATION_MARK, jnull) ∧
    lept_parse strtod_zero [34, 97, 98, 99, 1, 34]
      = some (LEPT_PARSE_INVALID_STRING_CHAR, jnull) ∧
    lept_parse strtod_zero [34, 97, 98, 99, 92, 118, 34]
      = some (LEPT_PARSE_INVALID_STRING_ESCAPE, jnull) := by
  have hrun : ∀ b ∈ [97, 98, 99], ordinary_byte b := by
    intro b hb
    simp only [List.mem_cons, List.mem_singleton, List.mem_nil_iff, or_false] at hb
    rcases hb with h | h | h <;> subst h <;> simp [ordinary_byte]
  have h := lept_parse_string_error_kinds strtod_zero [97, 98, 99] hrun
  exact ⟨hrun, h.1 [] rfl, h.2.1 1 [34] (by decide) (by decide), h.2.2 [118, 34] (by decide)⟩

/-! ## C7: texts that break the number grammar -/

theorem lept_skip_digits_of_not_digit (r : List Nat) (h : ISDIGIT (peek r) = false) :
    lept_skip_digits r = r := by
  cases r with
  | nil => rfl
  | cons a l =>
    simp only [peek, List.headD_cons] at h
    simp [lept_skip_digits, h]

theorem lept_skip_digits_append (ds r : List Nat) (hd : ds.all ISDIGIT = true)
    (h : ISDIGIT (peek r) = false) : lept_skip_digits (ds ++ r) = r := by
  induction ds with
  | nil => exact lept_skip_digits_of_not_digit r h
  | cons d ds ih =>
    simp only [List.all_cons, Bool.and_eq_true] at hd
    simp [lept_skip_digits, hd.1, ih hd.2]

theorem lept_number_int_append (int r : List Nat) (hi : is_json_int int = true)
    (h : ISDIGIT (peek r) = false) : lept_number_int (int ++ r) = some r := by
  cases int with
  | nil => simp [is_json_int] at hi
  | cons d ds =>
    simp only [is_json_int, Bool.or_eq_true, Bool.and_eq_true, decide_eq_true_eq,
      List.isEmpty_iff] at hi
    rcases hi with ⟨h1, h2⟩ | ⟨h1, h2⟩
    · subst h1 h2
      simp [lept_number_int, peek]
    · have hd : d ≠ 48 := by
        intro h48; subst h48; simp [ISDIGIT1TO9] at h1
      simp [lept_number_int, peek, hd, h1, lept_skip_digits_append ds r h2 h]

theorem lept_number_frac_append (frac r : List Nat) (hf : is_json_frac frac = true)
    (h : ISDIGIT (peek r) = false) (hp : peek r ≠ 46) :
    lept_number_frac (frac ++ r) = some r := by
  match frac, hf with
  | [], _ => simp [lept_number_frac, hp]
  | [_], hf => simp [is_json_frac] at hf
  | c :: d :: ds, hf =>
    simp only [is_json_frac, Bool.and_eq_true, decide_eq_true_eq] at hf
    obtain ⟨⟨h1, h2⟩, h3⟩ := hf
    subst h1
    simp [lept_number_frac, peek, h2, lept_skip_digits_append ds r h3 h]

theorem peek_int_append (int r : List Nat) (hi : is_json_int int = true) :
    ISDIGIT (peek (int ++ r)) = true := by
  cases int with
  | nil => simp [is_json_int] at hi
  | cons d ds =>
    simp only [is_json_int, Bool.or_eq_true, Bool.and_eq_true, decide_eq_true_eq] at hi
    rcases hi with ⟨h1, _⟩ | ⟨h1, _⟩
    · subst h1; rfl
    · simp only [ISDIGIT1TO9, decide_eq_true_eq] at h1
      simp only [List.cons_append, peek, List.headD_cons, ISDIGIT, decide_eq_true_eq]
      omega

/-- A text that starts with `+`, `-`, `.` or a digit is handed to
`lept_parse_number`. -/
theorem lept_parse_value_number (strtod : List Nat → strtod_result) (json : List Nat)
    (h : peek json = 43 ∨ peek json = 45 ∨ peek json = 46 ∨ ISDIGIT (peek json) = true) :
    lept_parse_value strtod 1 (lept_parse_whitespace json) jnull
      = some (lept_parse_number strtod json jnull) := by
  have hc : 43 ≤ peek json ∧ peek json ≤ 57 := by
    simp only [ISDIGIT, decide_eq_true_eq] at h
    omega
  cases json with
  | nil => simp [peek] at hc
  | cons a l =>
    simp only [peek, List.headD_cons] at hc
    have hw : lept_parse_whitespace (a :: l) = a :: l := by
      simp only [lept_parse_whitespace]
      rw [if_neg (by omega)]
    rw [hw]
    simp only [lept_parse_value, peek, List.headD_cons]
    split_ifs <;> first | omega | rfl

theorem lept_parse_of_number_invalid (strtod : List Nat → strtod_result) (json : List Nat)
    (h : peek json = 43 ∨ peek json = 45 ∨ peek json = 46 ∨ ISDIGIT (peek json) = true)
    (hn : (lept_parse_number strtod json jnull) = (LEPT_PARSE_INVALID_VALUE, jnull, json)) :
    lept_parse strtod json = some (LEPT_PARSE_INVALID_VALUE, jnull) := by
  have hv := lept_parse_value_number strtod json h
  rw [hn] at hv
  rw [lept_parse_of_value strtod 1 hv, if_neg (by simp)]

theorem lept_number_frac_point_none (rest : List Nat) (hr : ISDIGIT (peek rest) = false) :
    lept_number_frac (46 :: rest) = none := by
  simp only [lept_number_frac, peek_cons, List.tail_cons, hr, if_true, Bool.not_false]

theorem lept_number_exp_none (e : Nat) (esign rest : List Nat) (he : e = 69 ∨ e = 101)
    (hes : esign = [43] ∨ esign = [45] ∨ (esign = [] ∧ peek rest ≠ 43 ∧ peek rest ≠ 45))
    (hr : ISDIGIT (peek rest) = false) : lept_number_exp (e :: (esign ++ rest)) = none := by
  have he1 : peek (e :: (esign ++ rest)) = 69 ∨ peek (e :: (esign ++ rest)) = 101 := he
  simp only [lept_number_exp, if_pos he1, List.tail_cons]
  rcases hes with rfl | rfl | ⟨rfl, h1, h2⟩
  · simp only [List.singleton_append, peek_cons, List.tail_cons, hr, Bool.not_false, if_true,
      true_or]
  · simp only [List.singleton_append, peek_cons, List.tail_cons, hr, Bool.not_false, if_true,
      or_true]
  · simp only [List.nil_append]
    rw [if_neg (not_or.mpr ⟨h1, h2⟩)]
    simp only [hr, Bool.not_false, if_true]

theorem is_json_sign_cases {sign : List Nat} (h : is_json_sign sign = true) :
    sign = [] ∨ sign = [45] := by
  simpa [is_json_sign] using h

/-- C7: a text with a leading `+`, with a `.` that has no digit before it or
no digit after it, or with an exponent marker (and optional sign) that has no
digit after it is rejected with `LEPT_PARSE_INVALID_VALUE`. -/
theorem lept_parse_number_defect (strtod : List Nat → strtod_result) (json : List Nat)
    (h : number_defect json) :
    lept_parse strtod json = some (LEPT_PARSE_INVALID_VALUE, jnull) := by
  cases h with
  | leading_plus rest =>
    exact lept_parse_of_number_invalid strtod _ (Or.inl rfl)
      (by simp [lept_parse_number, lept_number_int, peek, ISDIGIT1TO9])
  | no_digit_before_point sign rest hs =>
    rcases is_json_sign_cases hs with rfl | rfl
    · exact lept_parse_of_number_invalid strtod _ (Or.inr (Or.inr (Or.inl rfl)))
        (by simp [lept_parse_number, lept_number_int, peek, ISDIGIT1TO9])
    · exact lept_parse_of_number_invalid strtod _ (Or.inr (Or.inl rfl))
        (by simp [lept_parse_number, lept_number_int, peek, ISDIGIT1TO9])
  | no_digit_after_point sign int rest hs hi hr =>
    have h46 : ISDIGIT (peek (46 :: rest)) = false := rfl
    have hint := lept_number_int_append int (46 :: rest) hi h46
    have hpk := peek_int_append int (46 :: rest) hi
    have hne : peek (int ++ 46 :: rest) ≠ 45 := by
      intro h45; rw [h45] at hpk; exact absurd hpk (by decide)
    have hfr := lept_number_frac_point_none rest hr
    rcases is_json_sign_cases hs with rfl | rfl
    · refine lept_parse_of_number_invalid strtod _ (Or.inr (Or.inr (Or.inr hpk))) ?_
      simp only [List.nil_append, lept_parse_number, if_neg hne, hint, hfr]
    · refine lept_parse_of_number_invalid strtod _ (Or.inr (Or.inl rfl)) ?_
      simp only [List.append_assoc, List.singleton_append, List.cons_append, List.nil_append,
        lept_parse_number, peek_cons,
        if_true, List.tail_cons, hint, hfr]
  | no_digit_after_exponent sign int frac e esign rest hs hi hf he hes hr =>
    have hed : ISDIGIT (peek (e :: (esign ++ rest))) = false := by
      rcases he with rfl | rfl <;> rfl
    have hep : peek (e :: (esign ++ rest)) ≠ 46 := by
      rcases he with rfl | rfl <;> simp [peek]
    have hfd : ISDIGIT (peek (frac ++ e :: (esign ++ rest))) = false := by
      match frac, hf with
      | [], _ => exact hed
      | [_], hf => simp [is_json_frac] at hf
      | c :: d :: ds, hf =>
        simp only [is_json_frac, Bool.and_eq_true, decide_eq_true_eq] at hf
        obtain ⟨⟨h1, _⟩, _⟩ := hf
        subst h1; rfl
    have hint := lept_number_int_append int (frac ++ e :: (esign ++ rest)) hi hfd
    have hfrac := lept_number_frac_append frac (e :: (esign ++ rest)) hf hed hep
    have hexp := lept_number_exp_none e esign rest he hes hr
    have hpk := peek_int_append int (frac ++ e :: (esign ++ rest)) hi
    have hne : peek (int ++ (frac ++ e :: (esign ++ rest))) ≠ 45 := by
      intro h45; rw [h45] at hpk; exact absurd hpk (by decide)
    rcases is_json_sign_cases hs with rfl | rfl
    · refine lept_parse_of_number_invalid strtod _
        (Or.inr (Or.inr (Or.inr (by simpa using hpk)))) ?_
      simp only [List.nil_append, List.append_assoc, lept_parse_number, if_neg hne, hint, hfrac,
        hexp]
    · refine lept_parse_of_number_invalid strtod _ (Or.inr (Or.inl rfl)) ?_
      simp only [List.append_assoc, List.singleton_append, List.cons_append, List.nil_append,
        lept_parse_number, peek_cons,
        if_true, List.tail_cons, hint, hfrac, hexp]

theorem lept_parse_number_defect_witness :
    number_defect [49, 101, 43] ∧
    lept_parse strtod_one [43, 49] = some (LEPT_PARSE_INVALID_VALUE, jnull) ∧
    lept_parse strtod_one [46, 53] = some (LEPT_PARSE_INVALID_VALUE, jnull) ∧
    lept_parse strtod_one [49, 46] = some (LEPT_PARSE_INVALID_VALUE, jnull) ∧
    lept_parse strtod_one [49, 101] = some (LEPT_PARSE_INVALID_VALUE, jnull) ∧
    lept_parse strtod_one [49, 101, 43] = some (LEPT_PARSE_INVALID_VALUE, jnull) :=
  have h : number_defect [49, 101, 43] :=
    number_defect.no_digit_after_exponent [] [49] [] 101 [43] [] rfl rfl rfl (Or.inr rfl)
      (Or.inl rfl) rfl
  ⟨h,
    lept_parse_number_defect strtod_one [43, 49] (number_defect.leading_plus [49]),
    lept_parse_number_defect strtod_one [46, 53] (number_defect.no_digit_before_point [] [53] rfl),
    lept_parse_number_defect strtod_one [49, 46]
      (number_defect.no_digit_after_point [] [49] [] rfl rfl rfl),
    lept_parse_number_defect strtod_one [49, 101]
      (number_defect.no_digit_after_exponent [] [49] [] 101 [] [] rfl rfl rfl (Or.inr rfl)
        (Or.inr (Or.inr ⟨rfl, by decide, by decide⟩)) rfl),
    lept_parse_number_defect strtod_one [49, 101, 43] h⟩

/-- C7 (counterexample): the text `01` is not rejected with
`LEPT_PARSE_INVALID_VALUE`; the number parser accepts `0` and the root check
reports `LEPT_PARSE_ROOT_NOT_SINGULAR`. -/
theorem lept_parse_leading_zero_counterexample :
    lept_parse strtod_one [48, 49] = some (LEPT_PARSE_ROOT_NOT_SINGULAR, jnull) ∧
    ¬ ∃ (strtod : List Nat → strtod_result) (v : lept_value),
      lept_parse strtod [48, 49] = some (LEPT_PARSE_INVALID_VALUE, v) := by
  refine ⟨rfl, ?_⟩
  rintro ⟨strtod, v, h⟩
  have hv := lept_parse_value_number strtod [48, 49] (Or.inr (Or.inr (Or.inr rfl)))
  have hn : lept_parse_number strtod [48, 49] jnull
      = (if (strtod [48, 49]).erange && (double_eq (strtod [48, 49]).val HUGE_VAL
          || double_eq (strtod [48, 49]).val NEG_HUGE_VAL) then
          (LEPT_PARSE_NUMBER_TOO_BIG, jnull, [48, 49])
        else (LEPT_PARSE_OK, jnumber (strtod [48, 49]).val, [49])) := rfl
  rw [hn] at hv
  split at hv
  · rw [lept_parse_of_value strtod 1 hv, if_neg (by simp)] at h
    simp at h
  · rw [lept_parse_of_value strtod 1 hv, if_pos rfl, if_pos (by decide)] at h
    simp at h

/-! ## C8: a lone surrogate -/

theorem lept_parse_hex4_loop_digit (n : Nat) (c : Bool) (d : Nat) (p : List Nat) (u : Nat)
    (hd : d < 16) :
    lept_parse_hex4_loop (n + 1) (hex_digit_char c d :: p) u
      = lept_parse_hex4_loop n p (u * 16 + d) := by
  have hor : ∀ x, x = d → (u <<< 4 ||| x) = u * 16 + d := by
    intro x hx
    subst hx
    rw [Nat.shiftLeft_eq, Nat.mul_comm u (2 ^ 4)]
    exact (Nat.mul_add_lt_is_or (i := 4) (by omega) u).symm
  simp only [lept_parse_hex4_loop, peek_cons, List.tail_cons, hex_digit_char]
  by_cases h10 : d < 10
  · rw [if_pos h10, if_pos (by omega), hor _ (by omega)]
  · rw [if_neg h10]
    cases c
    · simp only [Bool.false_eq_true, if_false]
      rw [if_neg (by omega), if_neg (by omega), if_pos (by omega), hor _ (by omega)]
    · simp only [if_true]
      rw [if_neg (by omega), if_pos (by omega), hor _ (by omega)]

theorem lept_parse_hex4_text (upper : Nat → Bool) (x : Nat) (rest : List Nat)
    (hx : x < 65536) : lept_parse_hex4 (hex4_text upper x ++ rest) = some (rest, x) := by
  simp only [lept_parse_hex4, hex4_text, List.cons_append, List.nil_append]
  rw [lept_parse_hex4_loop_digit _ _ _ _ _ (Nat.mod_lt _ (by decide)),
    lept_parse_hex4_loop_digit _ _ _ _ _ (Nat.mod_lt _ (by decide)),
    lept_parse_hex4_loop_digit _ _ _ _ _ (Nat.mod_lt _ (by decide)),
    lept_parse_hex4_loop_digit _ _ _ _ _ (Nat.mod_lt _ (by decide))]
  simp only [lept_parse_hex4_loop, Option.some.injEq, Prod.mk.injEq, true_and]
  omega

theorem lept_parse_string_loop_quote (n : Nat) (p st : List Nat) :
    lept_parse_string_loop (n + 1) (34 :: p) st = some (LEPT_PARSE_OK, st, p) := by
  simp only [lept_parse_string_loop, peek_cons, List.tail_cons, if_true]

theorem lept_parse_string_loop_u (n : Nat) (p st : List Nat) :
    lept_parse_string_loop (n + 1) (92 :: 117 :: p) st =
      match lept_parse_hex4 p with
      | none => some (LEPT_PARSE_INVALID_UNICODE_HEX, [], p)
      | some (p2, u) =>
        if 0xD800 ≤ u ∧ u ≤ 0xDBFF then
          if peek p2 ≠ 92 then some (LEPT_PARSE_INVALID_UNICODE_SURROGATE, [], p2.tail)
          else if peek p2.tail ≠ 117 then
            some (LEPT_PARSE_INVALID_UNICODE_SURROGATE, [], p2.tail.tail)
          else
            match lept_parse_hex4 p2.tail.tail with
            | none => some (LEPT_PARSE_INVALID_UNICODE_HEX, [], p2.tail.tail)
            | some (p3, u2) =>
              if u2 < 0xDC00 ∨ u2 > 0xDFFF then
                some (LEPT_PARSE_INVALID_UNICODE_SURROGATE, [], p3)
              else
                lept_parse_string_loop n p3
                  (lept_encode_utf8 st ((((u - 0xD800) <<< 10) ||| (u2 - 0xDC00)) + 0x10000))
        else lept_parse_string_loop n p2 (lept_encode_utf8 st u) := by
  simp only [lept_parse_string_loop, peek_cons, List.tail_cons, Nat.reduceEqDiff, if_true,
    if_false]

/-- What `lept_parse` returns on a text that is one string, from the result
of the string loop. -/
theorem lept_parse_of_string_loop (strtod : List Nat → strtod_result) (json : List Nat)
    (s : List Nat) (q : List Nat) (hq : peek q = 0)
    (h : lept_parse_string_loop (json.length + 1) json [] = some (LEPT_PARSE_OK, s, q)) :
    lept_parse strtod (34 :: json) = some (LEPT_PARSE_OK, jstring s) := by
  have hv : lept_parse_value strtod 1 (lept_parse_whitespace (34 :: json)) jnull
      = some (LEPT_PARSE_OK, jstring s, q) := by
    simp [lept_parse_value, lept_parse_whitespace, peek, lept_parse_string,
      lept_parse_string_raw, h, lept_set_string]
  have hw : peek (lept_parse_whitespace q) = 0 := by
    cases q with
    | nil => rfl
    | cons a l =>
      simp only [peek_cons] at hq
      subst hq
      rfl
  rw [lept_parse_of_value strtod 1 hv, if_pos rfl, if_neg (by rw [hw]; simp)]

/-- C8: a lone high surrogate `\uXXXX`, `XXXX` in `D800..DBFF`, that is the
whole content of a string is rejected with
`LEPT_PARSE_INVALID_UNICODE_SURROGATE`. -/
theorem lept_parse_lone_high_surrogate (strtod : List Nat → strtod_result)
    (upper : Nat → Bool) (h : Nat) (h1 : 0xD800 ≤ h) (h2 : h ≤ 0xDBFF) :
    lept_parse strtod (34 :: 92 :: 117 :: (hex4_text upper h ++ [34]))
      = some (LEPT_PARSE_INVALID_UNICODE_SURROGATE, jnull) := by
  have hx := lept_parse_hex4_text upper h [34] (by omega)
  refine lept_parse_string_loop_error strtod _ _ [] [] (by simp) ?_
  rw [lept_parse_string_loop_u, hx]
  simp only []
  rw [if_pos ⟨h1, h2⟩, if_pos (by decide)]
  rfl

theorem lept_parse_lone_high_surrogate_witness :
    (0xD800 ≤ 0xD800 ∧ 0xD800 ≤ 0xDBFF) ∧
    lept_parse strtod_zero [34, 92, 117, 68, 56, 48, 48, 34]
      = some (LEPT_PARSE_INVALID_UNICODE_SURROGATE, jnull) :=
  ⟨by decide, lept_parse_lone_high_surrogate strtod_zero (fun _ => true) 0xD800 (by decide)
    (by decide)⟩

/-- C8 (counterexample): the lone low surrogate `"\uDC00"` is not rejected;
it parses to a string of the three bytes `ED B0 80`. -/
theorem lept_parse_lone_low_surrogate_counterexample :
    lept_parse strtod_zero [34, 92, 117, 68, 67, 48, 48, 34]
      = some (LEPT_PARSE_OK, jstring [0xED, 0xB0, 0x80]) := by
  rfl

/-! ## C9: a surrogate pair -/

theorem or_0x80_mod (x : Nat) : (0x80 ||| (x &&& 0x3F)) % 256 = 0x80 ||| (x &&& 0x3F) := by
  apply Nat.mod_eq_of_lt
  have h1 : x &&& 0x3F < 2 ^ 8 := lt_of_le_of_lt Nat.and_le_right (by decide)
  exact Nat.or_lt_two_pow (n := 8) (by decide) h1

/-- The four bytes that `lept_encode_utf8` pushes for a code point above
`0xFFFF`. -/
theorem lept_encode_utf8_four (st : List Nat) (u : Nat) (h1 : 0xFFFF < u) (h2 : u ≤ 0x10FFFF) :
    lept_encode_utf8 st u = st ++ [0xF0 ||| (u >>> 18), 0x80 ||| ((u >>> 12) &&& 0x3F),
      0x80 ||| ((u >>> 6) &&& 0x3F), 0x80 ||| (u &&& 0x3F)] := by
  have hk : u >>> 18 ≤ 4 := by
    rw [Nat.shiftRight_eq_div_pow]
    have : u / 2 ^ 18 < 5 := Nat.div_lt_of_lt_mul (by omega)
    omega
  have h18 : (0xF0 ||| ((u >>> 18) &&& 0xFF)) % 256 = 0xF0 ||| (u >>> 18) := by
    generalize u >>> 18 = k at hk
    interval_cases k <;> rfl
  simp only [lept_encode_utf8, PUTC]
  rw [if_neg (by omega), if_neg (by omega), if_neg (by omega), h18, or_0x80_mod, or_0x80_mod,
    or_0x80_mod]
  simp

theorem surrogate_code_point_bounds (h l : Nat) (h1 : 0xD800 ≤ h) (h2 : h ≤ 0xDBFF)
    (l1 : 0xDC00 ≤ l) (l2 : l ≤ 0xDFFF) :
    0xFFFF < (((h - 0xD800) <<< 10) ||| (l - 0xDC00)) + 0x10000 ∧
      (((h - 0xD800) <<< 10) ||| (l - 0xDC00)) + 0x10000 ≤ 0x10FFFF := by
  have e : ((h - 0xD800) <<< 10) ||| (l - 0xDC00) = 2 ^ 10 * (h - 0xD800) + (l - 0xDC00) := by
    rw [Nat.shiftLeft_eq, Nat.mul_comm]
    exact (Nat.mul_add_lt_is_or (i := 10) (by omega) _).symm
  rw [e]
  omega

/-- C9: the escapes `\uHHHH\uLLLL` of a high surrogate `h` and a low
surrogate `l`, as the whole content of a string, parse to the four UTF-8
bytes of the code point `0x10000 + (((h - 0xD800) << 10) | (l - 0xDC00))`. -/
theorem lept_parse_surrogate_pair (strtod : List Nat → strtod_result)
    (upper1 upper2 : Nat → Bool) (h l : Nat) (h1 : 0xD800 ≤ h) (h2 : h ≤ 0xDBFF)
    (l1 : 0xDC00 ≤ l) (l2 : l ≤ 0xDFFF) :
    lept_parse strtod
        (34 :: 92 :: 117 :: (hex4_text upper1 h ++ 92 :: 117 :: (hex4_text upper2 l ++ [34])))
      = some (LEPT_PARSE_OK, jstring
          [0xF0 ||| ((0x10000 + (((h - 0xD800) <<< 10) ||| (l - 0xDC00))) >>> 18),
           0x80 ||| (((0x10000 + (((h - 0xD800) <<< 10) ||| (l - 0xDC00))) >>> 12) &&& 0x3F),
           0x80 ||| (((0x10000 + (((h - 0xD800) <<< 10) ||| (l - 0xDC00))) >>> 6) &&& 0x3F),
           0x80 ||| ((0x10000 + (((h - 0xD800) <<< 10) ||| (l - 0xDC00))) &&& 0x3F)]) := by
  have hx1 := lept_parse_hex4_text upper1 h (92 :: 117 :: (hex4_text upper2 l ++ [34]))
    (by omega)
  have hx2 := lept_parse_hex4_text upper2 l [34] (by omega)
  obtain ⟨b1, b2⟩ := surrogate_code_point_bounds h l h1 h2 l1 l2
  refine lept_parse_of_string_loop strtod _ _ [] rfl ?_
  have hlen : (92 :: 117 :: (hex4_text upper1 h ++ 92 :: 117 :: (hex4_text upper2 l ++ [34]))).length
      = 12 + 1 := by simp [hex4_text]
  rw [lept_parse_string_loop_u, hx1]
  simp only []
  rw [if_pos ⟨h1, h2⟩, if_neg (by simp [peek]), if_neg (by simp [peek])]
  simp only [List.tail_cons]
  rw [hx2]
  simp only []
  rw [if_neg (by omega), hlen, lept_parse_string_loop_quote, lept_encode_utf8_four _ _ b1 b2,
    Nat.add_comm _ 0x10000]
  rfl

theorem lept_parse_surrogate_pair_witness :
    (0xD800 ≤ 0xD834 ∧ 0xD834 ≤ 0xDBFF ∧ 0xDC00 ≤ 0xDD1E ∧ 0xDD1E ≤ 0xDFFF) ∧
    lept_parse strtod_zero [34, 92, 117, 68, 56, 51, 52, 92, 117, 68, 68, 49, 69, 34]
      = some (LEPT_PARSE_OK, jstring [0xF0, 0x9D, 0x84, 0x9E]) :=
  ⟨by decide, lept_parse_surrogate_pair strtod_zero (fun _ => true) (fun _ => true) 0xD834 0xDD1E
    (by decide) (by decide) (by decide) (by decide)⟩

/-! ## C3: reflexivity of equality -/

theorem double_eq_self (n : Nat) (h : double_is_finite n = true) : double_eq n n = true := by
  simp only [double_is_finite, decide_eq_true_eq] at h
  have hn : double_is_nan n = false := by
    simp only [double_is_nan, decide_eq_false_iff_not, not_and]
    intro h1
    exact absurd h1 h
  simp [double_eq, hn]

theorem memcmp_eq_self (s : List Nat) (n : Nat) : memcmp_eq s s n = true := by
  simp [memcmp_eq]

theorem memcmp_eq_iff (a b : List Nat) (h : a.length = b.length) :
    memcmp_eq a b b.length = true ↔ a = b := by
  simp only [memcmp_eq, decide_eq_true_eq]
  rw [List.take_length, ← h, List.take_length]

/-- In an object with distinct keys, a member is found under its key at its
own index. -/
theorem lept_find_object_index_loop_of_mem (m : List lept_member) :
    ∀ (i0 : Nat) (k : List Nat) (v : lept_value), (k, v) ∈ m → (m.map Prod.fst).Nodup →
      ∃ j, lept_find_object_index_loop m k i0 = some (i0 + j) ∧ m[j]? = some (k, v) := by
  induction m with
  | nil => intro i0 k v h; exact absurd h (List.not_mem_nil _)
  | cons a ms ih =>
    intro i0 k v hmem hnd
    obtain ⟨k1, v1⟩ := a
    simp only [List.map_cons, List.nodup_cons] at hnd
    simp only [lept_find_object_index_loop]
    by_cases hk : k1 = k
    · subst hk
      have hv : v = v1 := by
        rcases List.mem_cons.mp hmem with h | h
        · exact (Prod.mk.inj h).2
        · exact absurd (List.mem_map_of_mem Prod.fst h) hnd.1
      subst hv
      refine ⟨0, ?_, by simp⟩
      rw [if_pos ⟨rfl, memcmp_eq_self _ _⟩]
      rfl
    · have hmem1 : (k, v) ∈ ms := by
        rcases List.mem_cons.mp hmem with h | h
        · exact absurd (Prod.mk.inj h).1.symm hk
        · exact h
      obtain ⟨j, hj1, hj2⟩ := ih (i0 + 1) k v hmem1 hnd.2
      refine ⟨j + 1, ?_, ?_⟩
      · rw [if_neg, hj1]
        · congr 1; omega
        · rintro ⟨hl, hc⟩
          exact hk ((memcmp_eq_iff k1 k hl).mp hc)
      · simpa using hj2

theorem lept_find_object_index_of_mem (m : List lept_member) (k : List Nat) (v : lept_value)
    (hmem : (k, v) ∈ m) (hnd : (m.map Prod.fst).Nodup) :
    ∃ j, lept_find_object_index m k = some j ∧ m[j]? = some (k, v) := by
  obtain ⟨j, h1, h2⟩ := lept_find_object_index_loop_of_mem m 0 k v hmem hnd
  exact ⟨j, by rw [lept_find_object_index, h1, Nat.zero_add], h2⟩

mutual

/-- A value with distinct keys and finite numbers is equal to itself. -/
theorem lept_is_equal_self : ∀ (v : lept_value), lept_keys_distinct v →
    (∀ n ∈ lept_numbers v, double_is_finite n = true) → lept_is_equal v v = true
  | jnull, _, _ => rfl
  | jfalse, _, _ => rfl
  | jtrue, _, _ => rfl
  | jnumber n, _, hn => by
    simp only [lept_is_equal]
    exact double_eq_self n (hn n (by simp [lept_numbers]))
  | jstring s, _, _ => by
    simp [lept_is_equal, memcmp_eq_self]
  | jarray e _, hd, hn => by
    simp only [lept_is_equal, ne_eq, not_true_eq_false, if_false]
    exact lept_is_equal_array_loop_self e (by simpa [lept_keys_distinct] using hd)
      (by simpa [lept_numbers] using hn)
  | jobject m _, hd, hn => by
    simp only [lept_is_equal, ne_eq, not_true_eq_false, if_false]
    simp only [lept_keys_distinct] at hd
    exact lept_is_equal_object_loop_self m m hd.2 (by simpa [lept_numbers] using hn)
      (fun k v hkv => lept_find_object_index_of_mem m k v hkv hd.1)

/-- The array loop on two copies of the same elements. -/
theorem lept_is_equal_array_loop_self : ∀ (e : List lept_value), lept_keys_distinct_array e →
    (∀ n ∈ lept_numbers_array e, double_is_finite n = true) →
    lept_is_equal_array_loop e e = true
  | [], _, _ => rfl
  | a :: l, hd, hn => by
    simp only [lept_keys_distinct_array] at hd
    simp only [lept_numbers_array, List.mem_append] at hn
    simp only [lept_is_equal_array_loop]
    rw [lept_is_equal_self a hd.1 (fun n h => hn n (Or.inl h))]
    simp only [Bool.not_true, Bool.false_eq_true, if_false]
    exact lept_is_equal_array_loop_self l hd.2 (fun n h => hn n (Or.inr h))

/-- The object loop over left members that are found in the right object at
their own place. -/
theorem lept_is_equal_object_loop_self : ∀ (l m2 : List lept_member),
    lept_keys_distinct_object l →
    (∀ n ∈ lept_numbers_object l, double_is_finite n = true) →
    (∀ k v, (k, v) ∈ l → ∃ j, lept_find_object_index m2 k = some j ∧ m2[j]? = some (k, v)) →
    lept_is_equal_object_loop l m2 = true
  | [], _, _, _, _ => rfl
  | (k, v) :: l, m2, hd, hn, hf => by
    simp only [lept_keys_distinct_object] at hd
    simp only [lept_numbers_object, List.mem_append] at hn
    obtain ⟨j, hj1, hj2⟩ := hf k v (List.mem_cons_self _ _)
    simp only [lept_is_equal_object_loop, hj1, hj2]
    rw [lept_is_equal_self v hd.1 (fun n h => hn n (Or.inl h))]
    simp only [Bool.not_true, Bool.false_eq_true, if_false]
    exact lept_is_equal_object_loop_self l m2 hd.2 (fun n h => hn n (Or.inr h))
      (fun k1 v1 h => hf k1 v1 (List.mem_cons_of_mem _ h))

end

/-- C3: a value in which no object has two members with the same key, and
whose numbers are finite, is equal to itself. -/
theorem lept_is_equal_reflexive (v : lept_value) (hd : lept_keys_distinct v)
    (hn : ∀ n ∈ lept_numbers v, double_is_finite n = true) : lept_is_equal v v = true :=
  lept_is_equal_self v hd hn

theorem lept_is_equal_reflexive_witness :
    lept_parse strtod_digit [123, 34, 97, 34, 58, 49, 44, 34, 98, 34, 58, 91, 50, 44, 34, 120, 34,
        93, 125]
      = some (LEPT_PARSE_OK, jobject [([97], jnumber 0x3FF0000000000000),
          ([98], jarray [jnumber 0x4000000000000000, jstring [120]] 2)] 2) ∧
    lept_is_equal
      (jobject [([97], jnumber 0x3FF0000000000000),
          ([98], jarray [jnumber 0x4000000000000000, jstring [120]] 2)] 2)
      (jobject [([97], jnumber 0x3FF0000000000000),
          ([98], jarray [jnumber 0x4000000000000000, jstring [120]] 2)] 2) = true :=
  ⟨rfl, lept_is_equal_reflexive _
    (by simp [lept_keys_distinct, lept_keys_distinct_object, lept_keys_distinct_array])
    (by simp [lept_numbers, lept_numbers_object, lept_numbers_array, double_is_finite])⟩

/-- C3 (counterexample): the value parsed from `{"a":1,"a":2}` is not equal
to itself; the second member is compared with the first one, which
`lept_find_object_index` finds under the same key. -/
theorem lept_is_equal_duplicate_keys_counterexample :
    lept_parse strtod_digit [123, 34, 97, 34, 58, 49, 44, 34, 97, 34, 58, 50, 125]
      = some (LEPT_PARSE_OK, jobject [([97], jnumber 0x3FF0000000000000),
          ([97], jnumber 0x4000000000000000)] 2) ∧
    double_is_finite 0x3FF0000000000000 = true ∧ double_is_finite 0x4000000000000000 = true ∧
    lept_is_equal
      (jobject [([97], jnumber 0x3FF0000000000000), ([97], jnumber 0x4000000000000000)] 2)
      (jobject [([97], jnumber 0x3FF0000000000000), ([97], jnumber 0x4000000000000000)] 2)
      = false :=
  ⟨rfl, rfl, rfl, rfl⟩

/-! ## C1: the round trip through the text -/

theorem lept_parse_string_loop_escape (n e x : Nat) (p st : List Nat)
    (h : (e, x) ∈ [(34, 34), (92, 92), (47, 47), (98, 8), (102, 12), (110, 10), (114, 13),
      (116, 9)]) :
    lept_parse_string_loop (n + 1) (92 :: e :: p) st = lept_parse_string_loop n p (st ++ [x]) := by
  simp only [List.mem_cons, Prod.mk.injEq, List.mem_singleton, List.mem_nil_iff, or_false] at h
  rcases h with h | h | h | h | h | h | h | h <;> obtain ⟨he, hx⟩ := h <;> subst he hx <;>
  simp only [lept_parse_string_loop, peek_cons, List.tail_cons, Nat.reduceEqDiff, if_true,
    if_false, PUTC]

theorem lept_parse_hex4_control (ch : Nat) (rest : List Nat) (h : ch < 0x20) :
    lept_parse_hex4 (48 :: 48 :: hex_digits.getD (ch >>> 4) 0 :: hex_digits.getD (ch &&& 15) 0
      :: rest) = some (rest, ch) := by
  have e : [48, 48, hex_digits.getD (ch >>> 4) 0, hex_digits.getD (ch &&& 15) 0]
      = hex4_text (fun _ => true) ch := by
    interval_cases ch <;> decide
  have := lept_parse_hex4_text (fun _ => true) ch rest (by omega)
  rw [← e] at this
  exact this

theorem lept_encode_utf8_one (st : List Nat) (u : Nat) (h : u ≤ 0x7F) :
    lept_encode_utf8 st u = st ++ [u] := by
  simp only [lept_encode_utf8, if_pos h, PUTC]
  have h1 : u &&& 0xFF = u := by
    have := Nat.and_pow_two_sub_one_eq_mod u 8
    simp only [Nat.reducePow, Nat.reduceSub] at this
    rw [this]
    exact Nat.mod_eq_of_lt (by omega)
  rw [h1, Nat.mod_eq_of_lt (by omega)]

theorem lept_parse_string_loop_control (n ch : Nat) (p st : List Nat) (h : ch < 0x20) :
    lept_parse_string_loop (n + 1)
      (92 :: 117 :: 48 :: 48 :: hex_digits.getD (ch >>> 4) 0 :: hex_digits.getD (ch &&& 15) 0
        :: p) st = lept_parse_string_loop n p (st ++ [ch]) := by
  rw [lept_parse_string_loop_u, lept_parse_hex4_control ch p h]
  simp only []
  rw [if_neg (by omega), lept_encode_utf8_one _ _ (by omega)]

/-- The string loop reads back what `lept_stringify_string` wrote. -/
theorem lept_parse_string_loop_stringify (s : List Nat) :
    ∀ (n : Nat) (st rest : List Nat), s.length < n →
      lept_parse_string_loop n (lept_stringify_string_loop s ++ 34 :: rest) st
        = some (LEPT_PARSE_OK, st ++ s, rest) := by
  induction s with
  | nil =>
    intro n st rest hn
    obtain ⟨k, rfl⟩ : ∃ k, n = k + 1 := ⟨n - 1, by simp at hn; omega⟩
    simp only [lept_stringify_string_loop, List.nil_append, lept_parse_string_loop_quote,
      List.append_nil]
  | cons ch s ih =>
    intro n st rest hn
    obtain ⟨k, rfl⟩ : ∃ k, n = k + 1 := ⟨n - 1, by simp at hn; omega⟩
    have hk : s.length < k := by simp at hn; omega
    have hfin : lept_parse_string_loop k (lept_stringify_string_loop s ++ 34 :: rest)
        (st ++ [ch]) = some (LEPT_PARSE_OK, st ++ ch :: s, rest) := by
      rw [ih k (st ++ [ch]) rest hk]
      simp
    simp only [lept_stringify_string_loop]
    by_cases h34 : ch = 34
    · rw [if_pos h34]; subst h34
      exact (lept_parse_string_loop_escape k 34 34 _ st (by simp)).trans hfin
    rw [if_neg h34]
    by_cases h92 : ch = 92
    · rw [if_pos h92]; subst h92
      exact (lept_parse_string_loop_escape k 92 92 _ st (by simp)).trans hfin
    rw [if_neg h92]
    by_cases h8 : ch = 8
    · rw [if_pos h8]; subst h8
      exact (lept_parse_string_loop_escape k 98 8 _ st (by simp)).trans hfin
    rw [if_neg h8]
    by_cases h12 : ch = 12
    · rw [if_pos h12]; subst h12
      exact (lept_parse_string_loop_escape k 102 12 _ st (by simp)).trans hfin
    rw [if_neg h12]
    by_cases h10 : ch = 10
    · rw [if_pos h10]; subst h10
      exact (lept_parse_string_loop_escape k 110 10 _ st (by simp)).trans hfin
    rw [if_neg h10]
    by_cases h13 : ch = 13
    · rw [if_pos h13]; subst h13
      exact (lept_parse_string_loop_escape k 114 13 _ st (by simp)).trans hfin
    rw [if_neg h13]
    by_cases h9 : ch = 9
    · rw [if_pos h9]; subst h9
      exact (lept_parse_string_loop_escape k 116 9 _ st (by simp)).trans hfin
    rw [if_neg h9]
    by_cases hc : ch < 0x20
    · rw [if_pos hc]
      exact (lept_parse_string_loop_control k ch _ st hc).trans hfin
    · rw [if_neg hc]
      exact (lept_parse_string_loop_plain k ch _ st ⟨by omega, h34, h92⟩).trans hfin

theorem lept_stringify_string_loop_length (s : List Nat) :
    s.length ≤ (lept_stringify_string_loop s).length := by
  induction s with
  | nil => simp [lept_stringify_string_loop]
  | cons ch s ih =>
    simp only [lept_stringify_string_loop, List.length_append, List.length_cons]
    have : 1 ≤ (if ch = 34 then [92, 34]
     else if ch = 92 then [92, 92]
     else if ch = 8 then [92, 98]
     else if ch = 12 then [92, 102]
     else if ch = 10 then [92, 110]
     else if ch = 13 then [92, 114]
     else if ch = 9 then [92, 116]
     else if ch < 0x20 then
       [92, 117, 48, 48, hex_digits.getD (ch >>> 4) 0, hex_digits.getD (ch &&& 15) 0]
     else [ch]).length := by
      repeat' split
      all_goals simp
    omega

/-- The raw string parser reads back the text of `lept_stringify_string`. -/
theorem lept_parse_string_raw_stringify (s rest : List Nat) :
    lept_parse_string_raw (lept_stringify_string s ++ rest) = some (LEPT_PARSE_OK, s, rest) := by
  have hl := lept_stringify_string_loop_length s
  have h := lept_parse_string_loop_stringify s
    ((lept_stringify_string_loop s ++ 34 :: rest).length + 1) [] rest
    (by simp only [List.length_append, List.length_cons]; omega)
  simp only [lept_parse_string_raw, lept_stringify_string, List.cons_append, List.nil_append,
    List.append_assoc, List.tail_cons, List.singleton_append]
  rw [h]
  simp

theorem is_delimiter_not_digit {c : Nat} (h : is_delimiter c) : ISDIGIT c = false := by
  rcases h with rfl | rfl | rfl | rfl <;> rfl

theorem lept_number_exp_append (exp r : List Nat) (he : is_json_exp exp = true)
    (h : is_delimiter (peek r)) : lept_number_exp (exp ++ r) = some r := by
  have hd := is_delimiter_not_digit h
  match exp, he with
  | [], _ =>
    simp only [List.nil_append, lept_number_exp]
    rw [if_neg]
    rcases h with h | h | h | h <;> rw [h] <;> decide
  | [_], he => simp [is_json_exp] at he
  | e :: s :: t, he =>
    simp only [is_json_exp, Bool.and_eq_true, decide_eq_true_eq] at he
    obtain ⟨he1, he2⟩ := he
    simp only [lept_number_exp, List.cons_append, List.tail_cons, peek_cons, if_pos he1]
    by_cases hs : s = 43 ∨ s = 45
    · rw [if_pos hs] at he2
      rw [if_pos hs]
      match t, he2 with
      | [], he2 => simp [is_json_digits] at he2
      | d :: ds, he2 =>
        simp only [is_json_digits, Bool.and_eq_true] at he2
        simp only [List.cons_append, peek_cons, he2.1, Bool.not_true, Bool.false_eq_true,
          if_false, List.tail_cons, lept_skip_digits_append ds r he2.2 hd]
    · rw [if_neg hs] at he2
      rw [if_neg hs]
      simp only [is_json_digits, Bool.and_eq_true] at he2
      simp only [peek_cons, he2.1, Bool.not_true, Bool.false_eq_true, if_false, List.tail_cons,
        lept_skip_digits_append t r he2.2 hd]

theorem peek_append_of_ne_nil {a : List Nat} (r : List Nat) (h : a ≠ []) :
    peek (a ++ r) = peek a := by
  cases a with
  | nil => exact absurd rfl h
  | cons x l => rfl

theorem peek_frac_exp_rest (frac exp r : List Nat) (hf : is_json_frac frac = true)
    (he : is_json_exp exp = true) (h : is_delimiter (peek r)) :
    ISDIGIT (peek (frac ++ (exp ++ r))) = false ∧
      ISDIGIT (peek (exp ++ r)) = false ∧ peek (exp ++ r) ≠ 46 := by
  have hd := is_delimiter_not_digit h
  have h46 : peek r ≠ 46 := by rcases h with h | h | h | h <;> rw [h] <;> decide
  have hexp : ISDIGIT (peek (exp ++ r)) = false ∧ peek (exp ++ r) ≠ 46 := by
    match exp, he with
    | [], _ => exact ⟨hd, h46⟩
    | [_], he => simp [is_json_exp] at he
    | e :: s :: t, he =>
      simp only [is_json_exp, Bool.and_eq_true, decide_eq_true_eq] at he
      rcases he.1 with rfl | rfl <;> exact ⟨rfl, by simp [peek]⟩
  refine ⟨?_, hexp⟩
  match frac, hf with
  | [], _ => exact hexp.1
  | [_], hf => simp [is_json_frac] at hf
  | c :: d :: ds, hf =>
    simp only [is_json_frac, Bool.and_eq_true, decide_eq_true_eq] at hf
    obtain ⟨⟨h1, _⟩, _⟩ := hf
    subst h1; rfl

/-- The validating pass of `lept_parse_number` accepts a number of the
grammar that is followed by a delimiter, and stops behind it. -/
theorem lept_parse_number_of_json_number (strtod : List Nat → strtod_result) (t rest : List Nat)
    (v : lept_value) (ht : is_json_number t) (h : is_delimiter (peek rest)) :
    (peek (t ++ rest) = 45 ∨ ISDIGIT (peek (t ++ rest)) = true) ∧
    lept_parse_number strtod (t ++ rest) v =
      if (strtod (t ++ rest)).erange && (double_eq (strtod (t ++ rest)).val HUGE_VAL
          || double_eq (strtod (t ++ rest)).val NEG_HUGE_VAL) then
        (LEPT_PARSE_NUMBER_TOO_BIG, lept_set_n v (strtod (t ++ rest)).val, t ++ rest)
      else (LEPT_PARSE_OK, jnumber (strtod (t ++ rest)).val, rest) := by
  obtain ⟨sign, int, frac, exp, rfl, hs, hi, hf, he⟩ := ht
  obtain ⟨p1, p2, p3⟩ := peek_frac_exp_rest frac exp rest hf he h
  have hint := lept_number_int_append int (frac ++ (exp ++ rest)) hi p1
  have hfrac := lept_number_frac_append frac (exp ++ rest) hf p2 p3
  have hexp := lept_number_exp_append exp rest he h
  have hpk := peek_int_append int (frac ++ (exp ++ rest)) hi
  have hne : peek (int ++ (frac ++ (exp ++ rest))) ≠ 45 := by
    intro h45; rw [h45] at hpk; exact absurd hpk (by decide)
  rcases is_json_sign_cases hs with rfl | rfl
  · refine ⟨Or.inr (by simpa using hpk), ?_⟩
    simp only [List.nil_append, List.append_assoc, lept_parse_number, if_neg hne, hint, hfrac,
      hexp]
  · refine ⟨Or.inl rfl, ?_⟩
    simp only [List.append_assoc, List.singleton_append, List.cons_append, List.nil_append,
      lept_parse_number, peek_cons, if_true, List.tail_cons, hint, hfrac, hexp]

theorem double_eq_huge_of_finite (n : Nat) (h : double_is_finite n = true) :
    double_eq n HUGE_VAL = false ∧ double_eq n NEG_HUGE_VAL = false := by
  simp only [double_is_finite, decide_eq_true_eq] at h
  have h1 : n ≠ HUGE_VAL := by
    intro e; rw [e] at h; exact h (by decide)
  have h2 : n ≠ NEG_HUGE_VAL := by
    intro e; rw [e] at h; exact h (by decide)
  have z1 : double_is_zero HUGE_VAL = false := by decide
  have z2 : double_is_zero NEG_HUGE_VAL = false := by decide
  simp [double_eq, h1, h2, z1, z2]

/-- A number whose conversions round-trip parses back from its text. -/
theorem lept_parse_number_round_trip (strtod : List Nat → strtod_result)
    (sprintf : Nat → List Nat) (n : Nat) (rest : List Nat) (v : lept_value)
    (hn : number_round_trips strtod sprintf n) (h : is_delimiter (peek rest)) :
    (peek (sprintf n ++ rest) = 45 ∨ ISDIGIT (peek (sprintf n ++ rest)) = true) ∧
    lept_parse_number strtod (sprintf n ++ rest) v = (LEPT_PARSE_OK, jnumber n, rest) := by
  obtain ⟨hfin, hnum, hval⟩ := hn
  obtain ⟨a, b⟩ := lept_parse_number_of_json_number strtod (sprintf n) rest v hnum h
  refine ⟨a, ?_⟩
  obtain ⟨c, d⟩ := double_eq_huge_of_finite n hfin
  rw [b, hval rest h, c, d]
  simp

theorem lept_parse_whitespace_of_peek {p : List Nat} (h1 : peek p ≠ 32) (h2 : peek p ≠ 9)
    (h3 : peek p ≠ 13) : lept_parse_whitespace p = p := by
  cases p with
  | nil => rfl
  | cons a l =>
    simp only [peek_cons] at h1 h2 h3
    simp only [lept_parse_whitespace]
    rw [if_neg (by omega)]

theorem is_value_start_bounds {c : Nat} (h : is_value_start c) :
    c ≠ 32 ∧ c ≠ 9 ∧ c ≠ 13 ∧ c ≠ 0 ∧ c ≠ 44 ∧ c ≠ 93 ∧ c ≠ 125 ∧ c ≠ 58 := by
  simp only [is_value_start, ISDIGIT, decide_eq_true_eq] at h
  omega

theorem lept_parse_whitespace_of_value_start {p : List Nat} (h : is_value_start (peek p)) :
    lept_parse_whitespace p = p := by
  have := is_value_start_bounds h
  exact lept_parse_whitespace_of_peek this.1 this.2.1 this.2.2.1

theorem lept_stringify_array_loop_zero (sprintf : Nat → List Nat) (L : List lept_value) :
    lept_stringify_array_loop sprintf L 0 = lept_stringify_array_tail sprintf L 0 := by
  cases L with
  | nil => rfl
  | cons e es => simp [lept_stringify_array_loop, lept_stringify_array_tail]

theorem lept_stringify_array_loop_succ (sprintf : Nat → List Nat) (e : lept_value)
    (es : List lept_value) (i : Nat) :
    lept_stringify_array_loop sprintf (e :: es) (i + 1)
      = 44 :: lept_stringify_array_tail sprintf (e :: es) (i + 1) := by
  simp [lept_stringify_array_loop, lept_stringify_array_tail]

theorem lept_stringify_object_loop_zero (sprintf : Nat → List Nat) (L : List lept_member) :
    lept_stringify_object_loop sprintf L 0 = lept_stringify_object_tail sprintf L 0 := by
  cases L with
  | nil => rfl
  | cons a ms =>
    obtain ⟨k, v⟩ := a
    simp [lept_stringify_object_loop, lept_stringify_object_tail]

theorem lept_stringify_object_loop_succ (sprintf : Nat → List Nat) (a : lept_member)
    (ms : List lept_member) (i : Nat) :
    lept_stringify_object_loop sprintf (a :: ms) (i + 1)
      = 44 :: lept_stringify_object_tail sprintf (a :: ms) (i + 1) := by
  obtain ⟨k, v⟩ := a
  simp [lept_stringify_object_loop, lept_stringify_object_tail]

/-- The text of a value starts with a byte that starts a value. -/
theorem lept_stringify_value_start (strtod : List Nat → strtod_result)
    (sprintf : Nat → List Nat) (V : lept_value) (r : List Nat)
    (hn : ∀ n ∈ lept_numbers V, number_round_trips strtod sprintf n) :
    is_value_start (peek (lept_stringify_value sprintf V ++ r)) := by
  cases V with
  | jnull => exact Or.inl rfl
  | jfalse => exact Or.inr (Or.inl rfl)
  | jtrue => exact Or.inr (Or.inr (Or.inl rfl))
  | jnumber n =>
    have h := hn n (by simp [lept_numbers])
    obtain ⟨sign, int, frac, exp, e, hs, hi, hf, he⟩ := h.2.1
    simp only [lept_stringify_value, e, List.append_assoc]
    have hpk := peek_int_append int (frac ++ (exp ++ r)) hi
    rcases is_json_sign_cases hs with rfl | rfl
    · exact Or.inr (Or.inr (Or.inr (Or.inr (Or.inr (Or.inr (Or.inr (by simpa using hpk)))))))
    · exact Or.inr (Or.inr (Or.inr (Or.inr (Or.inr (Or.inr (Or.inl rfl))))))
  | jstring s => exact Or.inr (Or.inr (Or.inr (Or.inl rfl)))
  | jarray e c => exact Or.inr (Or.inr (Or.inr (Or.inr (Or.inl rfl))))
  | jobject m c => exact Or.inr (Or.inr (Or.inr (Or.inr (Or.inr (Or.inl rfl)))))

theorem lept_parse_value_literals (strtod : List Nat → strtod_result) (k : Nat)
    (rest : List Nat) (v : lept_value) :
    lept_parse_value strtod (k + 1) (110 :: 117 :: 108 :: 108 :: rest) v
      = some (LEPT_PARSE_OK, jnull, rest) ∧
    lept_parse_value strtod (k + 1) (102 :: 97 :: 108 :: 115 :: 101 :: rest) v
      = some (LEPT_PARSE_OK, jfalse, rest) ∧
    lept_parse_value strtod (k + 1) (116 :: 114 :: 117 :: 101 :: rest) v
      = some (LEPT_PARSE_OK, jtrue, rest) :=
  ⟨rfl, rfl, rfl⟩

theorem lept_parse_value_string (strtod : List Nat → strtod_result) (k : Nat)
    (s rest : List Nat) (v : lept_value) :
    lept_parse_value strtod (k + 1) (lept_stringify_string s ++ rest) v
      = some (LEPT_PARSE_OK, jstring s, rest) := by
  have h := lept_parse_string_raw_stringify s rest
  have hp : peek (lept_stringify_string s ++ rest) = 34 := rfl
  simp only [lept_parse_value, hp, Nat.reduceEqDiff, if_false, if_true, lept_parse_string, h,
    lept_set_string]

theorem lept_parse_value_of_number_start (strtod : List Nat → strtod_result) (k : Nat)
    (json : List Nat) (v : lept_value)
    (h : peek json = 45 ∨ ISDIGIT (peek json) = true) :
    lept_parse_value strtod (k + 1) json v = some (lept_parse_number strtod json v) := by
  have hc : 45 ≤ peek json ∧ peek json ≤ 57 := by
    simp only [ISDIGIT, decide_eq_true_eq] at h
    omega
  simp only [lept_parse_value]
  split_ifs <;> first | omega | rfl

theorem lept_parse_value_array (strtod : List Nat → strtod_result) (k : Nat)
    (json : List Nat) (v : lept_value) :
    lept_parse_value strtod (k + 1) (91 :: json) v = lept_parse_array strtod k (91 :: json) v := by
  simp only [lept_parse_value, peek_cons, Nat.reduceEqDiff, if_false, if_true]

theorem lept_parse_value_object (strtod : List Nat → strtod_result) (k : Nat)
    (json : List Nat) (v : lept_value) :
    lept_parse_value strtod (k + 1) (123 :: json) v
      = lept_parse_object strtod k (123 :: json) v := by
  simp only [lept_parse_value, peek_cons, Nat.reduceEqDiff, if_false, if_true]

theorem lept_parse_array_loop_last (strtod : List Nat → strtod_result) (f : Nat)
    (json rest : List Nat) (stack : List lept_value) (v x : lept_value)
    (h : lept_parse_value strtod f json jnull = some (LEPT_PARSE_OK, x, 93 :: rest)) :
    lept_parse_array_loop strtod (f + 1) json stack v
      = some (LEPT_PARSE_OK, jarray (stack ++ [x]) (stack.length + 1), rest) := by
  have hw : lept_parse_whitespace (93 :: rest) = 93 :: rest :=
    lept_parse_whitespace_of_peek (by simp [peek]) (by simp [peek]) (by simp [peek])
  simp only [lept_parse_array_loop, h, ne_eq, not_true_eq_false, if_false, hw, peek_cons,
    Nat.reduceEqDiff, if_true, List.tail_cons, List.length_append, List.length_singleton]

theorem lept_parse_array_loop_more (strtod : List Nat → strtod_result) (f : Nat)
    (json json2 : List Nat) (stack : List lept_value) (v x : lept_value)
    (h : lept_parse_value strtod f json jnull = some (LEPT_PARSE_OK, x, 44 :: json2))
    (h2 : is_value_start (peek json2)) :
    lept_parse_array_loop strtod (f + 1) json stack v
      = lept_parse_array_loop strtod f json2 (stack ++ [x]) v := by
  have hw : lept_parse_whitespace (44 :: json2) = 44 :: json2 :=
    lept_parse_whitespace_of_peek (by simp [peek]) (by simp [peek]) (by simp [peek])
  simp only [lept_parse_array_loop, h, ne_eq, not_true_eq_false, if_false, hw, peek_cons,
    if_true, List.tail_cons, lept_parse_whitespace_of_value_start h2]

theorem lept_parse_object_loop_last (strtod : List Nat → strtod_result) (f : Nat)
    (k json rest : List Nat) (stack : List lept_member) (v x : lept_value)
    (h : lept_parse_value strtod f json jnull = some (LEPT_PARSE_OK, x, 125 :: rest))
    (h2 : is_value_start (peek json)) :
    lept_parse_object_loop strtod (f + 1) (lept_stringify_string k ++ 58 :: json) stack v
      = some (LEPT_PARSE_OK, jobject (stack ++ [(k, x)]) (stack.length + 1), rest) := by
  have hw : lept_parse_whitespace (125 :: rest) = 125 :: rest :=
    lept_parse_whitespace_of_peek (by simp [peek]) (by simp [peek]) (by simp [peek])
  have hw2 : lept_parse_whitespace (58 :: json) = 58 :: json :=
    lept_parse_whitespace_of_peek (by simp [peek]) (by simp [peek]) (by simp [peek])
  have hp : peek (lept_stringify_string k ++ 58 :: json) = 34 := rfl
  simp only [lept_parse_object_loop, hp, ne_eq, not_true_eq_false, if_false,
    lept_parse_string_raw_stringify, hw2, peek_cons, List.tail_cons,
    lept_parse_whitespace_of_value_start h2, h, hw, Nat.reduceEqDiff, if_true,
    List.length_append, List.length_singleton]

theorem lept_parse_object_loop_more (strtod : List Nat → strtod_result) (f : Nat)
    (k json json2 : List Nat) (stack : List lept_member) (v x : lept_value)
    (h : lept_parse_value strtod f json jnull = some (LEPT_PARSE_OK, x, 44 :: json2))
    (h2 : is_value_start (peek json)) (h3 : peek json2 = 34) :
    lept_parse_object_loop strtod (f + 1) (lept_stringify_string k ++ 58 :: json) stack v
      = lept_parse_object_loop strtod f json2 (stack ++ [(k, x)]) v := by
  have hw : lept_parse_whitespace (44 :: json2) = 44 :: json2 :=
    lept_parse_whitespace_of_peek (by simp [peek]) (by simp [peek]) (by simp [peek])
  have hw2 : lept_parse_whitespace (58 :: json) = 58 :: json :=
    lept_parse_whitespace_of_peek (by simp [peek]) (by simp [peek]) (by simp [peek])
  have hw3 : lept_parse_whitespace json2 = json2 :=
    lept_parse_whitespace_of_peek (by rw [h3]; decide) (by rw [h3]; decide) (by rw [h3]; decide)
  have hp : peek (lept_stringify_string k ++ 58 :: json) = 34 := rfl
  simp only [lept_parse_object_loop, hp, ne_eq, not_true_eq_false, if_false,
    lept_parse_string_raw_stringify, hw2, peek_cons, List.tail_cons,
    lept_parse_whitespace_of_value_start h2, h, hw, if_true, hw3]

theorem lept_normalize_array_length (L : List lept_value) :
    (lept_normalize_array L).length = L.length := by
  induction L with
  | nil => rfl
  | cons e es ih => simp [lept_normalize_array, ih]

theorem lept_normalize_object_length (L : List lept_member) :
    (lept_normalize_object L).length = L.length := by
  induction L with
  | nil => rfl
  | cons a ms ih =>
    obtain ⟨k, v⟩ := a
    simp [lept_normalize_object, ih]

mutual

/-- The parser reads back the text of a value whose numbers round-trip. -/
theorem lept_parse_value_stringify (strtod : List Nat → strtod_result)
    (sprintf : Nat → List Nat) : ∀ (V : lept_value),
    (∀ n ∈ lept_numbers V, number_round_trips strtod sprintf n) →
    ∀ (rest : List Nat) (v0 : lept_value), is_delimiter (peek rest) →
    ∃ fuel, lept_parse_value strtod fuel (lept_stringify_value sprintf V ++ rest) v0
      = some (LEPT_PARSE_OK, lept_normalize V, rest)
  | jnull, _, rest, v0, _ => ⟨1, (lept_parse_value_literals strtod 0 rest v0).1⟩
  | jfalse, _, rest, v0, _ => ⟨1, (lept_parse_value_literals strtod 0 rest v0).2.1⟩
  | jtrue, _, rest, v0, _ => ⟨1, (lept_parse_value_literals strtod 0 rest v0).2.2⟩
  | jnumber n, hn, rest, v0, hd => by
    obtain ⟨a, b⟩ := lept_parse_number_round_trip strtod sprintf n rest v0
      (hn n (by simp [lept_numbers])) hd
    exact ⟨1, by
      simp only [lept_stringify_value, lept_normalize]
      rw [lept_parse_value_of_number_start strtod 0 _ v0 a, b]⟩
  | jstring s, _, rest, v0, _ => ⟨1, lept_parse_value_string strtod 0 s rest v0⟩
  | jarray [] c, _, rest, v0, _ => ⟨2, rfl⟩
  | jarray (e :: es) c, hn, rest, v0, _ => by
    obtain ⟨f, hf⟩ := lept_parse_array_loop_stringify strtod sprintf (e :: es)
      (by simpa [lept_numbers] using hn) 0 [] rest v0 (by simp)
    refine ⟨f + 2, ?_⟩
    have hs := lept_stringify_value_start strtod sprintf e
      (lept_stringify_array_loop sprintf es 1 ++ 93 :: rest)
      (fun n h => hn n (by simp [lept_numbers, lept_numbers_array, h]))
    have hb := is_value_start_bounds hs
    simp only [lept_stringify_value, lept_normalize, List.cons_append, List.nil_append,
      List.append_assoc, lept_stringify_array_loop_zero]
    rw [lept_parse_value_array]
    simp only [lept_parse_array, List.tail_cons]
    simp only [lept_stringify_array_tail, List.append_assoc, List.nil_append] at hf ⊢
    rw [lept_parse_whitespace_of_value_start hs, if_neg hb.2.2.2.2.2.1, hf]
    simp [lept_normalize_array]
  | jobject [] c, _, rest, v0, _ => ⟨2, rfl⟩
  | jobject ((k, v) :: ms) c, hn, rest, v0, _ => by
    obtain ⟨f, hf⟩ := lept_parse_object_loop_stringify strtod sprintf ((k, v) :: ms)
      (by simpa [lept_numbers] using hn) 0 [] rest v0 (by simp)
    refine ⟨f + 2, ?_⟩
    have hp : peek (lept_stringify_string k ++ ([58] ++ (lept_stringify_value sprintf v ++
        (lept_stringify_object_loop sprintf ms 1 ++ 125 :: rest)))) = 34 := rfl
    simp only [lept_stringify_value, lept_normalize, List.cons_append, List.nil_append,
      List.append_assoc, lept_stringify_object_loop_zero]
    rw [lept_parse_value_object]
    simp only [lept_parse_object, List.tail_cons]
    simp only [lept_stringify_object_tail, List.append_assoc, List.nil_append] at hf ⊢
    rw [lept_parse_whitespace_of_peek (by rw [hp]; decide) (by rw [hp]; decide)
      (by rw [hp]; decide), if_neg (by rw [hp]; decide), hf]
    simp [lept_normalize_object]

/-- The array loop reads back the text of the elements. -/
theorem lept_parse_array_loop_stringify (strtod : List Nat → strtod_result)
    (sprintf : Nat → List Nat) : ∀ (L : List lept_value),
    (∀ n ∈ lept_numbers_array L, number_round_trips strtod sprintf n) →
    ∀ (i : Nat) (stack : List lept_value) (rest : List Nat) (v0 : lept_value), L ≠ [] →
    ∃ fuel, lept_parse_array_loop strtod fuel
        (lept_stringify_array_tail sprintf L i ++ 93 :: rest) stack v0
      = some (LEPT_PARSE_OK, jarray (stack ++ lept_normalize_array L) (stack.length + L.length),
          rest)
  | [], _, _, _, _, _, h => absurd rfl h
  | [e], hn, i, stack, rest, v0, _ => by
    obtain ⟨f, hf⟩ := lept_parse_value_stringify strtod sprintf e
      (fun n h => hn n (by simp [lept_numbers_array, h])) (93 :: rest) jnull
      (Or.inr (Or.inr (Or.inl rfl)))
    refine ⟨f + 1, ?_⟩
    simp only [lept_stringify_array_tail, lept_stringify_array_loop, List.append_nil]
    rw [lept_parse_array_loop_last strtod f _ rest stack v0 _ hf]
    simp [lept_normalize_array]
  | e :: e1 :: es, hn, i, stack, rest, v0, _ => by
    obtain ⟨f1, hf1⟩ := lept_parse_value_stringify strtod sprintf e
      (fun n h => hn n (by simp [lept_numbers_array, h]))
      (44 :: (lept_stringify_array_tail sprintf (e1 :: es) (i + 1) ++ 93 :: rest)) jnull
      (Or.inr (Or.inl rfl))
    obtain ⟨f2, hf2⟩ := lept_parse_array_loop_stringify strtod sprintf (e1 :: es)
      (fun n h => hn n (by
        simp only [lept_numbers_array, List.mem_append] at h ⊢
        exact Or.inr h))
      (i + 1) (stack ++ [lept_normalize e]) rest v0 (by simp)
    have hs := lept_stringify_value_start strtod sprintf e1
      (lept_stringify_array_loop sprintf es (i + 1 + 1) ++ 93 :: rest)
      (fun n h => hn n (by simp [lept_numbers_array, h]))
    refine ⟨max f1 f2 + 1, ?_⟩
    have g1 := (lept_parse_value_fuel_mono strtod f1).1 _ _ _ hf1 (max f1 f2) (le_max_left _ _)
    have g2 := (lept_parse_value_fuel_mono strtod f2).2.2.1 _ _ _ _ hf2 (max f1 f2)
      (le_max_right _ _)
    have e0 : lept_stringify_array_tail sprintf (e :: e1 :: es) i ++ 93 :: rest
        = lept_stringify_value sprintf e ++
          44 :: (lept_stringify_array_tail sprintf (e1 :: es) (i + 1) ++ 93 :: rest) := by
      simp [lept_stringify_array_tail, lept_stringify_array_loop]
    rw [e0, lept_parse_array_loop_more strtod _ _ _ stack v0 _ g1
      (by simpa [lept_stringify_array_tail] using hs), g2]
    simp [lept_normalize_array]
    omega

/-- The object loop reads back the text of the members. -/
theorem lept_parse_object_loop_stringify (strtod : List Nat → strtod_result)
    (sprintf : Nat → List Nat) : ∀ (L : List lept_member),
    (∀ n ∈ lept_numbers_object L, number_round_trips strtod sprintf n) →
    ∀ (i : Nat) (stack : List lept_member) (rest : List Nat) (v0 : lept_value), L ≠ [] →
    ∃ fuel, lept_parse_object_loop strtod fuel
        (lept_stringify_object_tail sprintf L i ++ 125 :: rest) stack v0
      = some (LEPT_PARSE_OK,
          jobject (stack ++ lept_normalize_object L) (stack.length + L.length), rest)
  | [], _, _, _, _, _, h => absurd rfl h
  | [(k, v)], hn, i, stack, rest, v0, _ => by
    obtain ⟨f, hf⟩ := lept_parse_value_stringify strtod sprintf v
      (fun n h => hn n (by simp [lept_numbers_object, h])) (125 :: rest) jnull
      (Or.inr (Or.inr (Or.inr rfl)))
    have hs := lept_stringify_value_start strtod sprintf v (125 :: rest)
      (fun n h => hn n (by simp [lept_numbers_object, h]))
    refine ⟨f + 1, ?_⟩
    have e0 : lept_stringify_object_tail sprintf [(k, v)] i ++ 125 :: rest
        = lept_stringify_string k ++ 58 :: (lept_stringify_value sprintf v ++ 125 :: rest) := by
      simp [lept_stringify_object_tail, lept_stringify_object_loop]
    rw [e0, lept_parse_object_loop_last strtod f k _ rest stack v0 _ hf hs]
    simp [lept_normalize_object]
  | (k, v) :: (k1, v1) :: ms, hn, i, stack, rest, v0, _ => by
    obtain ⟨f1, hf1⟩ := lept_parse_value_stringify strtod sprintf v
      (fun n h => hn n (by simp [lept_numbers_object, h]))
      (44 :: (lept_stringify_object_tail sprintf ((k1, v1) :: ms) (i + 1) ++ 125 :: rest)) jnull
      (Or.inr (Or.inl rfl))
    obtain ⟨f2, hf2⟩ := lept_parse_object_loop_stringify strtod sprintf ((k1, v1) :: ms)
      (fun n h => hn n (by
        simp only [lept_numbers_object, List.mem_append] at h ⊢
        exact Or.inr h))
      (i + 1) (stack ++ [(k, lept_normalize v)]) rest v0 (by simp)
    have hs := lept_stringify_value_start strtod sprintf v
      (44 :: (lept_stringify_object_tail sprintf ((k1, v1) :: ms) (i + 1) ++ 125 :: rest))
      (fun n h => hn n (by simp [lept_numbers_object, h]))
    refine ⟨max f1 f2 + 1, ?_⟩
    have g1 := (lept_parse_value_fuel_mono strtod f1).1 _ _ _ hf1 (max f1 f2) (le_max_left _ _)
    have g2 := (lept_parse_value_fuel_mono strtod f2).2.2.2.2 _ _ _ _ hf2 (max f1 f2)
      (le_max_right _ _)
    have e0 : lept_stringify_object_tail sprintf ((k, v) :: (k1, v1) :: ms) i ++ 125 :: rest
        = lept_stringify_string k ++ 58 :: (lept_stringify_value sprintf v ++
          44 :: (lept_stringify_object_tail sprintf ((k1, v1) :: ms) (i + 1) ++ 125 :: rest)) := by
      simp [lept_stringify_object_tail, lept_stringify_object_loop]
    rw [e0, lept_parse_object_loop_more strtod _ k _ _ stack v0 _ g1 hs rfl, g2]
    simp [lept_normalize_object]
    omega

end

theorem lept_find_object_index_loop_normalize (m : List lept_member) :
    ∀ (key : List Nat) (i : Nat),
      lept_find_object_index_loop (lept_normalize_object m) key i
        = lept_find_object_index_loop m key i := by
  induction m with
  | nil => intro key i; rfl
  | cons a ms ih =>
    intro key i
    obtain ⟨k, v⟩ := a
    simp only [lept_normalize_object, lept_find_object_index_loop, ih]

theorem lept_normalize_object_getElem? (m : List lept_member) :
    ∀ (j : Nat), (lept_normalize_object m)[j]?
      = (m[j]?).map (fun a => (a.1, lept_normalize a.2)) := by
  induction m with
  | nil => intro j; simp [lept_normalize_object]
  | cons a ms ih =>
    intro j
    obtain ⟨k, v⟩ := a
    cases j with
    | zero => simp [lept_normalize_object]
    | succ j => simpa [lept_normalize_object] using ih j

mutual

/-- Equality does not look at the capacities of its right operand. -/
theorem lept_is_equal_normalize : ∀ (a b : lept_value),
    lept_is_equal a (lept_normalize b) = lept_is_equal a b
  | jnull, b => by cases b <;> rfl
  | jfalse, b => by cases b <;> rfl
  | jtrue, b => by cases b <;> rfl
  | jnumber _, b => by cases b <;> rfl
  | jstring _, b => by cases b <;> rfl
  | jarray e1 _, b => by
    cases b with
    | jarray e2 c2 =>
      simp only [lept_normalize, lept_is_equal, lept_normalize_array_length,
        lept_is_equal_array_loop_normalize e1 e2]
    | _ => rfl
  | jobject m1 _, b => by
    cases b with
    | jobject m2 c2 =>
      simp only [lept_normalize, lept_is_equal, lept_normalize_object_length,
        lept_is_equal_object_loop_normalize m1 m2]
    | _ => rfl

/-- The array loop with a normalized right operand. -/
theorem lept_is_equal_array_loop_normalize : ∀ (l r : List lept_value),
    lept_is_equal_array_loop l (lept_normalize_array r) = lept_is_equal_array_loop l r
  | [], r => by cases r <;> rfl
  | a :: l, [] => rfl
  | a :: l, b :: r => by
    simp only [lept_normalize_array, lept_is_equal_array_loop, lept_is_equal_normalize a b,
      lept_is_equal_array_loop_normalize l r]

/-- The object loop with a normalized right operand. -/
theorem lept_is_equal_object_loop_normalize : ∀ (l m2 : List lept_member),
    lept_is_equal_object_loop l (lept_normalize_object m2) = lept_is_equal_object_loop l m2
  | [], m2 => rfl
  | (k, v) :: l, m2 => by
    simp only [lept_is_equal_object_loop, lept_find_object_index,
      lept_find_object_index_loop_normalize, lept_normalize_object_getElem?]
    cases lept_find_object_index_loop m2 k 0 with
    | none => rfl
    | some index =>
      simp only []
      cases m2[index]? with
      | none => rfl
      | some a =>
        obtain ⟨k2, v2⟩ := a
        simp only [Option.map_some', lept_is_equal_normalize v v2,
          lept_is_equal_object_loop_normalize l m2]

end

/-- The text of a value with distinct keys, whose numbers round-trip, parses
to a value equal to it. -/
theorem lept_parse_stringify_value (strtod : List Nat → strtod_result)
    (sprintf : Nat → List Nat) (V : lept_value) (hkeys : lept_keys_distinct V)
    (hnum : ∀ n ∈ lept_numbers V, number_round_trips strtod sprintf n) :
    lept_parse strtod (lept_stringify sprintf V).1 = some (LEPT_PARSE_OK, lept_normalize V) ∧
      lept_is_equal V (lept_normalize V) = true := by
  constructor
  · obtain ⟨f, hf⟩ := lept_parse_value_stringify strtod sprintf V hnum [] jnull (Or.inl rfl)
    have hs := lept_stringify_value_start strtod sprintf V [] hnum
    simp only [List.append_nil] at hf hs
    have hv : lept_parse_value strtod f
        (lept_parse_whitespace (lept_stringify sprintf V).1) jnull
        = some (LEPT_PARSE_OK, lept_normalize V, []) := by
      simp only [lept_stringify]
      rw [lept_parse_whitespace_of_value_start hs, hf]
    rw [lept_parse_of_value strtod f hv, if_pos rfl, if_neg (by simp [lept_parse_whitespace, peek])]
  · rw [lept_is_equal_normalize]
    exact lept_is_equal_self V hkeys (fun n h => (hnum n h).1)

/-- C1: for a text that parses to a value `V` in which no object has two
members with the same key, the conversions of the numbers of `V` being a
round-tripping pair, the text of `V` parses with `LEPT_PARSE_OK` to a value
equal to `V`. -/
theorem lept_parse_stringify_round_trip (strtod : List Nat → strtod_result)
    (sprintf : Nat → List Nat) (T : List Nat) (V : lept_value)
    (_hT : lept_parse strtod T = some (LEPT_PARSE_OK, V))
    (hkeys : lept_keys_distinct V)
    (hnum : ∀ n ∈ lept_numbers V, number_round_trips strtod sprintf n) :
    ∃ V1, lept_parse strtod (lept_stringify sprintf V).1 = some (LEPT_PARSE_OK, V1) ∧
      lept_is_equal V V1 = true :=
  ⟨lept_normalize V, lept_parse_stringify_value strtod sprintf V hkeys hnum⟩

theorem number_round_trips_digit :
    number_round_trips strtod_digit sprintf_digit 0x3FF0000000000000 ∧
    number_round_trips strtod_digit sprintf_digit 0x4000000000000000 :=
  ⟨⟨by decide, ⟨[], [49], [], [], rfl, rfl, rfl, rfl, rfl⟩, fun _ _ => rfl⟩,
    ⟨by decide, ⟨[], [50], [], [], rfl, rfl, rfl, rfl, rfl⟩, fun _ _ => rfl⟩⟩

theorem lept_parse_stringify_round_trip_witness :
    lept_parse strtod_digit [123, 34, 97, 34, 58, 91, 49, 44, 34, 120, 92, 110, 34, 93, 44, 34,
        98, 34, 58, 110, 117, 108, 108, 125]
      = some (LEPT_PARSE_OK, jobject [([97], jarray [jnumber 0x3FF0000000000000,
          jstring [120, 10]] 2), ([98], jnull)] 2) ∧
    ∃ V1, lept_parse strtod_digit (lept_stringify sprintf_digit
        (jobject [([97], jarray [jnumber 0x3FF0000000000000, jstring [120, 10]] 2),
          ([98], jnull)] 2)).1 = some (LEPT_PARSE_OK, V1) ∧
      lept_is_equal (jobject [([97], jarray [jnumber 0x3FF0000000000000,
          jstring [120, 10]] 2), ([98], jnull)] 2) V1 = true :=
  ⟨rfl, lept_parse_stringify_round_trip strtod_digit sprintf_digit
    [123, 34, 97, 34, 58, 91, 49, 44, 34, 120, 92, 110, 34, 93, 44, 34, 98, 34, 58, 110, 117,
      108, 108, 125] _ rfl
    (by simp [lept_keys_distinct, lept_keys_distinct_object, lept_keys_distinct_array])
    (by
      intro n hn
      have : n = 0x3FF0000000000000 := by
        simpa [lept_numbers, lept_numbers_object, lept_numbers_array] using hn
      rw [this]
      exact number_round_trips_digit.1)⟩

/-- C1 (counterexample): the text `{"a":1,"a":2}` parses to a value whose
text is `{"a":1,"a":2}` again; that text parses to the same value, and the
value is not equal to itself under `lept_is_equal`. -/
theorem lept_parse_stringify_duplicate_keys_counterexample :
    lept_parse strtod_digit [123, 34, 97, 34, 58, 49, 44, 34, 97, 34, 58, 50, 125]
      = some (LEPT_PARSE_OK, jobject [([97], jnumber 0x3FF0000000000000),
          ([97], jnumber 0x4000000000000000)] 2) ∧
    (lept_stringify sprintf_digit (jobject [([97], jnumber 0x3FF0000000000000),
          ([97], jnumber 0x4000000000000000)] 2)).1
      = [123, 34, 97, 34, 58, 49, 44, 34, 97, 34, 58, 50, 125] ∧
    (∀ n ∈ lept_numbers (jobject [([97], jnumber 0x3FF0000000000000),
          ([97], jnumber 0x4000000000000000)] 2), number_round_trips strtod_digit sprintf_digit n) ∧
    ¬ ∃ V1, lept_parse strtod_digit (lept_stringify sprintf_digit
        (jobject [([97], jnumber 0x3FF0000000000000),
          ([97], jnumber 0x4000000000000000)] 2)).1 = some (LEPT_PARSE_OK, V1) ∧
      lept_is_equal (jobject [([97], jnumber 0x3FF0000000000000),
          ([97], jnumber 0x4000000000000000)] 2) V1 = true := by
  refine ⟨rfl, rfl, ?_, ?_⟩
  · intro n hn
    have : n = 0x3FF0000000000000 ∨ n = 0x4000000000000000 := by
      simpa [lept_numbers, lept_numbers_object] using hn
    rcases this with h | h <;> rw [h]
    · exact number_round_trips_digit.1
    · exact number_round_trips_digit.2
  · rintro ⟨V1, h1, h2⟩
    have e : lept_parse strtod_digit (lept_stringify sprintf_digit
        (jobject [([97], jnumber 0x3FF0000000000000),
          ([97], jnumber 0x4000000000000000)] 2)).1
        = some (LEPT_PARSE_OK, jobject [([97], jnumber 0x3FF0000000000000),
          ([97], jnumber 0x4000000000000000)] 2) := rfl
    rw [e] at h1
    have e1 := (Prod.mk.inj (Option.some.inj h1)).2
    rw [← e1] at h2
    exact absurd h2 (by decide)

/-! ## C4: the deep copy -/

theorem lept_depth_array_of_mem {x : lept_value} {e : List lept_value} (h : x ∈ e) :
    lept_depth x ≤ lept_depth_array e := by
  induction e with
  | nil => exact absurd h (List.not_mem_nil _)
  | cons a l ih =>
    simp only [lept_depth_array]
    rcases List.mem_cons.mp h with rfl | h1
    · exact le_max_left _ _
    · exact (ih h1).trans (le_max_right _ _)

theorem lept_depth_object_of_mem {a : lept_member} {m : List lept_member} (h : a ∈ m) :
    lept_depth a.2 ≤ lept_depth_object m := by
  induction m with
  | nil => exact absurd h (List.not_mem_nil _)
  | cons b l ih =>
    obtain ⟨k, v⟩ := b
    simp only [lept_depth_object]
    rcases List.mem_cons.mp h with rfl | h1
    · exact le_max_left _ _
    · exact (ih h1).trans (le_max_right _ _)

theorem lept_keys_distinct_array_of_mem {x : lept_value} {e : List lept_value}
    (hd : lept_keys_distinct_array e) (h : x ∈ e) : lept_keys_distinct x := by
  induction e with
  | nil => exact absurd h (List.not_mem_nil _)
  | cons a l ih =>
    simp only [lept_keys_distinct_array] at hd
    rcases List.mem_cons.mp h with rfl | h1
    · exact hd.1
    · exact ih hd.2 h1

theorem lept_keys_distinct_object_of_mem {a : lept_member} {m : List lept_member}
    (hd : lept_keys_distinct_object m) (h : a ∈ m) : lept_keys_distinct a.2 := by
  induction m with
  | nil => exact absurd h (List.not_mem_nil _)
  | cons b l ih =>
    obtain ⟨k, v⟩ := b
    simp only [lept_keys_distinct_object] at hd
    rcases List.mem_cons.mp h with rfl | h1
    · exact hd.1
    · exact ih hd.2 h1

theorem lept_size_le_capacity_array_of_mem {x : lept_value} {e : List lept_value}
    (hd : lept_size_le_capacity_array e) (h : x ∈ e) : lept_size_le_capacity x := by
  induction e with
  | nil => exact absurd h (List.not_mem_nil _)
  | cons a l ih =>
    simp only [lept_size_le_capacity_array] at hd
    rcases List.mem_cons.mp h with rfl | h1
    · exact hd.1
    · exact ih hd.2 h1

theorem lept_size_le_capacity_object_of_mem {a : lept_member} {m : List lept_member}
    (hd : lept_size_le_capacity_object m) (h : a ∈ m) : lept_size_le_capacity a.2 := by
  induction m with
  | nil => exact absurd h (List.not_mem_nil _)
  | cons b l ih =>
    obtain ⟨k, v⟩ := b
    simp only [lept_size_le_capacity_object] at hd
    rcases List.mem_cons.mp h with rfl | h1
    · exact hd.1
    · exact ih hd.2 h1

/-- A key that no member has is not found. -/
theorem lept_find_object_index_loop_none (m : List lept_member) :
    ∀ (key : List Nat) (i : Nat), key ∉ m.map Prod.fst →
      lept_find_object_index_loop m key i = none := by
  induction m with
  | nil => intro key i _; rfl
  | cons a ms ih =>
    intro key i h
    obtain ⟨k, v⟩ := a
    simp only [List.map_cons, List.mem_cons, not_or] at h
    simp only [lept_find_object_index_loop]
    rw [if_neg, ih key (i + 1) h.2]
    rintro ⟨hl, hc⟩
    exact h.1 ((memcmp_eq_iff k key hl).mp hc).symm

/-- The array loop of `lept_copy` appends the elements when each of them is
copied as it is and the capacity has room for them. -/
theorem lept_copy_array_loop_faithful (copy : lept_value → lept_value → Option lept_value)
    (cap : Nat) : ∀ (es done : List lept_value), done.length + es.length ≤ cap →
      (∀ x ∈ es, copy jnull x = some x) →
      lept_copy_array_loop copy (jarray done cap) es = some (jarray (done ++ es) cap) := by
  intro es
  induction es with
  | nil => intro done _ _; simp [lept_copy_array_loop]
  | cons e es ih =>
    intro done hlen hc
    simp only [List.length_cons] at hlen
    have hne : done.length ≠ cap := by omega
    simp only [lept_copy_array_loop, lept_pushback_array_element_rec, if_neg hne,
      hc e (List.mem_cons_self _ _)]
    rw [ih (done ++ [e]) (by simp only [List.length_append, List.length_singleton]; omega)
      (fun x hx => hc x (List.mem_cons_of_mem _ hx))]
    simp

/-- The object loop of `lept_copy` appends the members when their keys are
new, each value is copied as it is and the capacity has room for them. -/
theorem lept_copy_object_loop_faithful (copy : lept_value → lept_value → Option lept_value)
    (cap : Nat) : ∀ (ms done : List lept_member), done.length + ms.length ≤ cap →
      ((done ++ ms).map Prod.fst).Nodup →
      (∀ a ∈ ms, copy jnull a.2 = some a.2) →
      lept_copy_object_loop copy (jobject done cap) ms = some (jobject (done ++ ms) cap) := by
  intro ms
  induction ms with
  | nil => intro done _ _ _; simp [lept_copy_object_loop]
  | cons a ms ih =>
    intro done hlen hnd hc
    obtain ⟨k, v⟩ := a
    simp only [List.length_cons] at hlen
    have hne : done.length ≠ cap := by omega
    have hk : k ∉ done.map Prod.fst := by
      simp only [List.map_append, List.map_cons] at hnd
      have := (List.nodup_append.mp hnd).2.2
      intro hmem
      exact this hmem (List.mem_cons_self _ _)
    have hv := hc (k, v) (List.mem_cons_self _ _)
    simp only at hv
    simp only [lept_copy_object_loop, hv, lept_set_object_value_by_key_rec,
      lept_find_object_index, lept_find_object_index_loop_none done k 0 hk, if_neg hne]
    rw [ih (done ++ [(k, v)]) (by simp only [List.length_append, List.length_singleton]; omega)
      (by simpa using hnd) (fun x hx => hc x (List.mem_cons_of_mem _ hx))]
    simp

/-- With fuel above the depth of nesting, the copy of a value with distinct
keys and sizes within the capacities is the value itself. -/
theorem lept_copy_faithful (fuel : Nat) : ∀ (src dst : lept_value), lept_depth src < fuel →
    lept_size_le_capacity src → lept_keys_distinct src → lept_copy fuel dst src = some src := by
  induction fuel with
  | zero => intro src dst h; omega
  | succ n ih =>
    intro src dst hdepth hsize hkeys
    cases src with
    | jnull => rfl
    | jfalse => rfl
    | jtrue => rfl
    | jnumber x => rfl
    | jstring s => rfl
    | jarray e cap =>
      simp only [lept_depth] at hdepth
      simp only [lept_size_le_capacity] at hsize
      simp only [lept_keys_distinct] at hkeys
      simp only [lept_copy, lept_set_array]
      rw [lept_copy_array_loop_faithful (lept_copy n) cap e [] (by simpa using hsize.1)
        (fun x hx => ih x jnull (by have := lept_depth_array_of_mem hx; omega)
          (lept_size_le_capacity_array_of_mem hsize.2 hx)
          (lept_keys_distinct_array_of_mem hkeys hx))]
      simp
    | jobject m cap =>
      simp only [lept_depth] at hdepth
      simp only [lept_size_le_capacity] at hsize
      simp only [lept_keys_distinct] at hkeys
      simp only [lept_copy, lept_set_object]
      rw [lept_copy_object_loop_faithful (lept_copy n) cap m [] (by simpa using hsize.1)
        (by simpa using hkeys.1)
        (fun a ha => ih a.2 jnull (by have := lept_depth_object_of_mem ha; omega)
          (lept_size_le_capacity_object_of_mem hsize.2 ha)
          (lept_keys_distinct_object_of_mem hkeys.2 ha))]
      simp

/-- C4: the deep copy of a well-formed value (every size within its capacity,
numbers finite) in which no object has two members with the same key is the
value itself, with its type, content, order and counts, and it is equal to
its source. -/
theorem lept_copy_distinct_keys (fuel : Nat) (dst src : lept_value)
    (hfuel : lept_depth src < fuel) (hsize : lept_size_le_capacity src)
    (hkeys : lept_keys_distinct src)
    (hnum : ∀ n ∈ lept_numbers src, double_is_finite n = true) :
    ∃ dst1, lept_copy fuel dst src = some dst1 ∧ dst1 = src ∧ lept_is_equal dst1 src = true :=
  ⟨src, lept_copy_faithful fuel src dst hfuel hsize hkeys, rfl, lept_is_equal_self src hkeys hnum⟩

theorem lept_copy_distinct_keys_witness :
    ∃ dst1, lept_copy 3 (jstring [120])
        (jobject [([97], jarray [jnumber 0x3FF0000000000000, jstring [120, 10]] 2),
          ([98], jnull)] 2) = some dst1 ∧
      dst1 = jobject [([97], jarray [jnumber 0x3FF0000000000000, jstring [120, 10]] 2),
          ([98], jnull)] 2 ∧
      lept_is_equal dst1
        (jobject [([97], jarray [jnumber 0x3FF0000000000000, jstring [120, 10]] 2),
          ([98], jnull)] 2) = true :=
  lept_copy_distinct_keys 3 (jstring [120]) _ (by decide)
    (by simp [lept_size_le_capacity, lept_size_le_capacity_object, lept_size_le_capacity_array])
    (by simp [lept_keys_distinct, lept_keys_distinct_object, lept_keys_distinct_array])
    (by simp [lept_numbers, lept_numbers_object, lept_numbers_array, double_is_finite])

/-- C4 (counterexample): the copy of the value parsed from `{"a":1,"a":2}`
has one member, `"a":2`, and is not equal to its source. -/
theorem lept_copy_duplicate_keys_counterexample :
    lept_parse strtod_digit [123, 34, 97, 34, 58, 49, 44, 34, 97, 34, 58, 50, 125]
      = some (LEPT_PARSE_OK, jobject [([97], jnumber 0x3FF0000000000000),
          ([97], jnumber 0x4000000000000000)] 2) ∧
    (∀ (fuel : Nat) (dst : lept_value), lept_copy (fuel + 2) dst
      (jobject [([97], jnumber 0x3FF0000000000000), ([97], jnumber 0x4000000000000000)] 2)
      = some (jobject [([97], jnumber 0x4000000000000000)] 2)) ∧
    lept_is_equal (jobject [([97], jnumber 0x4000000000000000)] 2)
      (jobject [([97], jnumber 0x3FF0000000000000), ([97], jnumber 0x4000000000000000)] 2)
      = false :=
  ⟨rfl, fun _ _ => rfl, rfl⟩

/-! ## C12: the index of a key -/

/-- The test of the scan holds for a member exactly when its key is the key
looked for. -/
theorem lept_find_object_index_test (k key : List Nat) :
    (k.length = key.length ∧ memcmp_eq k key key.length = true) ↔ k = key := by
  constructor
  · rintro ⟨hl, hc⟩
    exact (memcmp_eq_iff k key hl).mp hc
  · rintro rfl
    exact ⟨rfl, memcmp_eq_self _ _⟩

/-- The scan from index `i0` returns `i0 + i` for the first position `i` of
the key, and nothing when no member has the key. -/
theorem lept_find_object_index_loop_first (m : List lept_member) :
    ∀ (key : List Nat) (i0 : Nat),
      (∀ r, lept_find_object_index_loop m key i0 = some r →
        ∃ i v, r = i0 + i ∧ m[i]? = some (key, v) ∧
          ∀ j a, j < i → m[j]? = some a → a.1 ≠ key) ∧
      (lept_find_object_index_loop m key i0 = none ↔ ∀ a ∈ m, a.1 ≠ key) := by
  induction m with
  | nil =>
    intro key i0
    refine ⟨fun r h => ?_, ?_⟩
    · simp [lept_find_object_index_loop] at h
    · simp [lept_find_object_index_loop]
  | cons a ms ih =>
    intro key i0
    obtain ⟨k, v⟩ := a
    simp only [lept_find_object_index_loop]
    by_cases hk : k = key
    · rw [if_pos ((lept_find_object_index_test k key).mpr hk)]
      subst hk
      refine ⟨fun r h => ⟨0, v, ?_, by simp, fun j a hj => absurd hj (Nat.not_lt_zero j)⟩, ?_⟩
      · exact (Option.some.inj h).symm
      · simp
    · rw [if_neg (fun h => hk ((lept_find_object_index_test k key).mp h))]
      obtain ⟨ih1, ih2⟩ := ih key (i0 + 1)
      refine ⟨fun r h => ?_, ?_⟩
      · obtain ⟨i, w, hr, hi, hmin⟩ := ih1 r h
        refine ⟨i + 1, w, by omega, by simpa using hi, ?_⟩
        intro j a hj hja
        cases j with
        | zero =>
          simp only [List.getElem?_cons_zero, Option.some.injEq] at hja
          subst hja
          exact hk
        | succ j =>
          simp only [List.getElem?_cons_succ] at hja
          exact hmin j a (by omega) hja
      · rw [ih2]
        simp [hk]

/-- C12: for an object whose size is a `size_t`, `lept_find_object_index`
returns the smallest index whose member has the key (the same length and the
same bytes), and `LEPT_KEY_NOT_EXIST`, which is no index of the object,
exactly when no member has the key. -/
theorem lept_find_object_index_smallest (m : List lept_member) (key : List Nat)
    (hsize : m.length < 2 ^ 64) :
    (∀ i, lept_find_object_index m key = some i →
      i < m.length ∧ lept_find_object_index_size_t m key = i ∧ i ≠ LEPT_KEY_NOT_EXIST ∧
      (∃ v, m[i]? = some (key, v)) ∧ ∀ j a, j < i → m[j]? = some a → a.1 ≠ key) ∧
    ((∃ a ∈ m, a.1 = key) → ∃ i, lept_find_object_index m key = some i) ∧
    (lept_find_object_index_size_t m key = LEPT_KEY_NOT_EXIST ↔ ∀ a ∈ m, a.1 ≠ key) := by
  obtain ⟨h1, h2⟩ := lept_find_object_index_loop_first m key 0
  have hsome : ∀ i, lept_find_object_index m key = some i →
      i < m.length ∧ (∃ v, m[i]? = some (key, v)) ∧
        ∀ j a, j < i → m[j]? = some a → a.1 ≠ key := by
    intro i hi
    obtain ⟨i1, v, hr, hv, hmin⟩ := h1 i hi
    rw [Nat.zero_add] at hr
    subst hr
    exact ⟨(List.getElem?_eq_some_iff.mp hv).1, ⟨v, hv⟩, hmin⟩
  refine ⟨fun i hi => ?_, ?_, ?_⟩
  · obtain ⟨a, b, c⟩ := hsome i hi
    refine ⟨a, by simp [lept_find_object_index_size_t, hi], ?_, b, c⟩
    simp only [LEPT_KEY_NOT_EXIST]
    omega
  · rintro ⟨a, ha, hk⟩
    cases hf : lept_find_object_index m key with
    | some i => exact ⟨i, rfl⟩
    | none => exact absurd hk ((h2.mp hf) a ha)
  · cases hf : lept_find_object_index m key with
    | some i =>
      obtain ⟨a, ⟨v, hv⟩, -⟩ := hsome i hf
      simp only [lept_find_object_index_size_t, hf]
      constructor
      · intro h
        simp only [LEPT_KEY_NOT_EXIST] at h
        omega
      · intro h
        exact absurd rfl (h (key, v) (List.getElem?_mem hv))
    | none =>
      simp only [lept_find_object_index_size_t, hf, true_iff]
      exact h2.mp hf

theorem lept_find_object_index_smallest_witness :
    (∀ i, lept_find_object_index [([110], jnull), ([97], jtrue), ([97], jfalse)] [97] = some i →
      i < [(([110] : List Nat), jnull), ([97], jtrue), ([97], jfalse)].length ∧
      lept_find_object_index_size_t [([110], jnull), ([97], jtrue), ([97], jfalse)] [97] = i ∧
      i ≠ LEPT_KEY_NOT_EXIST ∧
      (∃ v, [(([110] : List Nat), jnull), ([97], jtrue), ([97], jfalse)][i]? = some ([97], v)) ∧
      ∀ j a, j < i → [(([110] : List Nat), jnull), ([97], jtrue), ([97], jfalse)][j]? = some a →
        a.1 ≠ [97]) ∧
    ((∃ a ∈ [(([110] : List Nat), jnull), ([97], jtrue), ([97], jfalse)], a.1 = [97]) →
      ∃ i, lept_find_object_index [([110], jnull), ([97], jtrue), ([97], jfalse)] [97] = some i) ∧
    (lept_find_object_index_size_t [([110], jnull), ([97], jtrue), ([97], jfalse)] [97]
      = LEPT_KEY_NOT_EXIST ↔
      ∀ a ∈ [(([110] : List Nat), jnull), ([97], jtrue), ([97], jfalse)], a.1 ≠ [97]) :=
  lept_find_object_index_smallest [([110], jnull), ([97], jtrue), ([97], jfalse)] [97]
    (by decide)

/-! ## C11: the members of an object text -/

theorem lept_parse_whitespace_run (w rest : List Nat) (hw : is_whitespace_run w) :
    lept_parse_whitespace (w ++ rest) = lept_parse_whitespace rest := by
  induction w with
  | nil => rfl
  | cons a l ih =>
    have ha := hw a (List.mem_cons_self _ _)
    simp only [List.cons_append, lept_parse_whitespace]
    rw [if_pos ha]
    exact ih (fun b hb => hw b (List.mem_cons_of_mem _ hb))

theorem peek_whitespace_run (w rest : List Nat) (hw : is_whitespace_run w)
    (hr : is_member_end (peek rest)) : is_member_end (peek (w ++ rest)) := by
  cases w with
  | nil => exact hr
  | cons a l =>
    have ha := hw a (List.mem_cons_self _ _)
    simp only [List.cons_append, peek_cons, is_member_end]
    omega

/-- A value does not start with a byte of whitespace. -/
theorem lept_parse_value_ok_peek {strtod : List Nat → strtod_result} {fuel : Nat}
    {json : List Nat} {v0 v : lept_value} {rest : List Nat}
    (h : lept_parse_value strtod fuel json v0 = some (LEPT_PARSE_OK, v, rest)) :
    peek json ≠ 32 ∧ peek json ≠ 9 ∧ peek json ≠ 13 := by
  cases fuel with
  | zero => simp [lept_parse_value] at h
  | succ n =>
    by_contra hc
    have hp : peek json = 32 ∨ peek json = 9 ∨ peek json = 13 := by omega
    have hnum : lept_parse_value strtod (n + 1) json v0
        = some (lept_parse_number strtod json v0) := by
      simp only [lept_parse_value]
      split_ifs <;> first | omega | rfl
    have hint : lept_number_int json = none := by
      simp only [lept_number_int, ISDIGIT1TO9]
      rw [if_neg (by omega), if_pos]
      simp only [Bool.not_eq_true', decide_eq_false_iff_not]
      omega
    rw [hnum] at h
    simp only [lept_parse_number, if_neg (show peek json ≠ 45 by omega), hint] at h
    simp at h

/-- One round of the object loop over a member text that is followed by a
comma or by the closing brace. -/
theorem lept_parse_object_loop_member (strtod : List Nat → strtod_result) (f : Nat)
    (t : member_text) (after : List Nat) (stack : List lept_member) (v : lept_value)
    (ht : is_member_text strtod t) (ha : peek after = 44 ∨ peek after = 125)
    (hv : lept_parse_value strtod f (t.value_text ++ (t.ws_end ++ after)) jnull
      = some (LEPT_PARSE_OK, t.value, t.ws_end ++ after)) :
    lept_parse_object_loop strtod (f + 1)
        (lept_parse_whitespace (member_text_bytes t ++ after)) stack v
      = if peek after = 44 then
          lept_parse_object_loop strtod f (lept_parse_whitespace after.tail)
            (stack ++ [(t.key, t.value)]) v
        else some (LEPT_PARSE_OK, jobject (stack ++ [(t.key, t.value)]) (stack.length + 1),
          after.tail) := by
  obtain ⟨h1, ⟨hq, hkey⟩, h2, h3, -, h5⟩ := ht
  have hafter : lept_parse_whitespace after = after :=
    lept_parse_whitespace_of_peek (by omega) (by omega) (by omega)
  have hpk : peek (t.key_text ++ (t.ws_colon ++ 58 :: (t.ws_value ++ (t.value_text ++
      (t.ws_end ++ after))))) = 34 := by
    cases hk : t.key_text with
    | nil => rw [hk] at hq; simp [peek] at hq
    | cons a l => rw [hk] at hq; simpa using hq
  have hw1 : lept_parse_whitespace (member_text_bytes t ++ after)
      = t.key_text ++ (t.ws_colon ++ 58 :: (t.ws_value ++ (t.value_text ++
        (t.ws_end ++ after)))) := by
    simp only [member_text_bytes, List.append_assoc, List.cons_append]
    rw [lept_parse_whitespace_run _ _ h1]
    exact lept_parse_whitespace_of_peek (by rw [hpk]; decide) (by rw [hpk]; decide)
      (by rw [hpk]; decide)
  have hw2 : lept_parse_whitespace (t.ws_colon ++ 58 :: (t.ws_value ++ (t.value_text ++
      (t.ws_end ++ after)))) = 58 :: (t.ws_value ++ (t.value_text ++ (t.ws_end ++ after))) := by
    rw [lept_parse_whitespace_run _ _ h2]
    exact lept_parse_whitespace_of_peek (by simp [peek]) (by simp [peek]) (by simp [peek])
  have hw3 : lept_parse_whitespace (t.ws_value ++ (t.value_text ++ (t.ws_end ++ after)))
      = t.value_text ++ (t.ws_end ++ after) := by
    rw [lept_parse_whitespace_run _ _ h3]
    obtain ⟨a, b, c⟩ := lept_parse_value_ok_peek hv
    exact lept_parse_whitespace_of_peek a b c
  have hw4 : lept_parse_whitespace (t.ws_end ++ after) = after := by
    rw [lept_parse_whitespace_run _ _ h5, hafter]
  rw [hw1]
  simp only [lept_parse_object_loop, hpk, ne_eq, not_true_eq_false, if_false, hkey, hw2,
    peek_cons, List.tail_cons, hw3, hv, hw4]
  by_cases hc : peek after = 44
  · rw [if_pos hc, if_pos hc]
  · have hb : peek after = 125 := by omega
    rw [if_neg hc, if_neg hc, if_pos hb]
    simp

/-- With enough fuel the object loop stages every member of the text, in the
order of the text, and returns the object at the closing brace. -/
theorem lept_parse_object_loop_members (strtod : List Nat → strtod_result)
    (v : lept_value) (rest : List Nat) :
    ∀ (ts : List member_text) (t : member_text) (stack : List lept_member),
      (∀ x ∈ t :: ts, is_member_text strtod x) →
      ∃ fuel, lept_parse_object_loop strtod fuel
          (lept_parse_whitespace (members_text_bytes (t :: ts) ++ 125 :: rest)) stack v
        = some (LEPT_PARSE_OK,
            jobject (stack ++ (t :: ts).map (fun x => (x.key, x.value)))
              (stack.length + (ts.length + 1)), rest) := by
  intro ts
  induction ts with
  | nil =>
    intro t stack hts
    have ht := hts t (List.mem_cons_self _ _)
    obtain ⟨f, hf⟩ := ht.2.2.2.2.1 (t.ws_end ++ 125 :: rest)
      (peek_whitespace_run _ _ ht.2.2.2.2.2 (Or.inr (Or.inr (Or.inr (Or.inr rfl)))))
    refine ⟨f + 1, ?_⟩
    simp only [members_text_bytes]
    rw [lept_parse_object_loop_member strtod f t (125 :: rest) stack v ht (Or.inr rfl) hf]
    simp [peek]
  | cons t1 ts ih =>
    intro t stack hts
    have ht := hts t (List.mem_cons_self _ _)
    obtain ⟨f, hf⟩ := ht.2.2.2.2.1
      (t.ws_end ++ 44 :: (members_text_bytes (t1 :: ts) ++ 125 :: rest))
      (peek_whitespace_run _ _ ht.2.2.2.2.2 (Or.inr (Or.inr (Or.inr (Or.inl rfl)))))
    obtain ⟨g, hg⟩ := ih t1 (stack ++ [(t.key, t.value)])
      (fun x hx => hts x (List.mem_cons_of_mem _ hx))
    refine ⟨max f g + 1, ?_⟩
    have hf1 := (lept_parse_value_fuel_mono strtod f).1 _ _ _ hf (max f g) (le_max_left _ _)
    have hg1 := (lept_parse_value_fuel_mono strtod g).2.2.2.2 _ _ _ _ hg (max f g)
      (le_max_right _ _)
    simp only [members_text_bytes, List.append_assoc, List.cons_append]
    rw [lept_parse_object_loop_member strtod (max f g) t
      (44 :: (members_text_bytes (t1 :: ts) ++ 125 :: rest)) stack v ht (Or.inl rfl) hf1]
    simp only [peek_cons, if_true, List.tail_cons]
    rw [hg1]
    simp only [List.map_cons, List.append_assoc, List.singleton_append, List.length_append,
      List.length_cons, List.length_nil]
    have e : stack.length + (0 + 1) + (ts.length + 1) = stack.length + (ts.length + 1 + 1) := by
      omega
    rw [e]

/-- What `lept_parse` returns for an object text between whitespace. -/
theorem lept_parse_object_text (strtod : List Nat → strtod_result) (w0 w w1 : List Nat)
    (ts : List member_text) (hw0 : is_whitespace_run w0) (hw : is_whitespace_run w)
    (hw1 : is_whitespace_run w1) (hts : ∀ t ∈ ts, is_member_text strtod t) :
    lept_parse strtod (w0 ++ (object_text w ts ++ w1))
      = some (LEPT_PARSE_OK, jobject (ts.map (fun t => (t.key, t.value))) ts.length) := by
  have hend : peek (lept_parse_whitespace w1) = 0 := by
    have := lept_parse_whitespace_run w1 [] hw1
    rw [List.append_nil] at this
    rw [this]
    rfl
  have hstart : lept_parse_whitespace (w0 ++ (object_text w ts ++ w1)) = object_text w ts ++ w1 := by
    rw [lept_parse_whitespace_run _ _ hw0]
    cases ts <;> rfl
  cases ts with
  | nil =>
    have hroot : lept_parse_value strtod 2 (lept_parse_whitespace (w0 ++ (object_text w [] ++ w1)))
        jnull = some (LEPT_PARSE_OK, jobject [] 0, w1) := by
      rw [hstart]
      have h125 : lept_parse_whitespace (w ++ 125 :: w1) = 125 :: w1 := by
        rw [lept_parse_whitespace_run _ _ hw]
        exact lept_parse_whitespace_of_peek (by simp [peek]) (by simp [peek]) (by simp [peek])
      simp only [object_text, List.cons_append, List.append_assoc, List.singleton_append,
        List.nil_append, lept_parse_value_object, lept_parse_object, List.tail_cons, h125,
        peek_cons, if_true, lept_set_object]
    rw [lept_parse_of_value strtod 2 hroot, if_pos rfl, if_neg (by simp [hend])]
    rfl
  | cons t ts =>
    obtain ⟨f, hf⟩ := lept_parse_object_loop_members strtod jnull w1 ts t [] hts
    have hpk : peek (lept_parse_whitespace (members_text_bytes (t :: ts) ++ 125 :: w1)) ≠ 125 := by
      intro h
      cases f with
      | zero => simp [lept_parse_object_loop] at hf
      | succ n =>
        simp only [lept_parse_object_loop, h] at hf
        simp at hf
    have hroot : lept_parse_value strtod (f + 2)
        (lept_parse_whitespace (w0 ++ (object_text w (t :: ts) ++ w1))) jnull
        = some (LEPT_PARSE_OK, jobject ((t :: ts).map (fun t => (t.key, t.value)))
            (ts.length + 1), w1) := by
      rw [hstart]
      simp only [object_text, List.cons_append, List.append_assoc, List.singleton_append,
        lept_parse_value_object, lept_parse_object, List.tail_cons, if_neg hpk, hf,
        List.nil_append, List.length_nil, Nat.zero_add]
    rw [lept_parse_of_value strtod (f + 2) hroot, if_pos rfl, if_neg (by simp [hend])]
    rfl

/-- The text `lept_stringify_string` writes for a key is a text of the key. -/
theorem is_key_text_stringify (k : List Nat) : is_key_text (lept_stringify_string k) k :=
  ⟨rfl, fun rest => lept_parse_string_raw_stringify k rest⟩

/-- A digit from `1` to `9` is the text of the number `strtod` reads from
it. -/
theorem is_value_text_digit (strtod : List Nat → strtod_result) (d x : Nat)
    (hd : ISDIGIT1TO9 d = true) (hx : ∀ rest, strtod (d :: rest) = ⟨x, false⟩) :
    is_value_text strtod [d] (jnumber x) := by
  intro rest hrest
  refine ⟨1, ?_⟩
  have hd1 : 49 ≤ d ∧ d ≤ 57 := by simpa [ISDIGIT1TO9] using hd
  have hnd : ISDIGIT (peek rest) = false := by
    simp only [is_member_end] at hrest
    simp only [ISDIGIT, decide_eq_false_iff_not]
    omega
  have h46 : peek rest ≠ 46 ∧ peek rest ≠ 69 ∧ peek rest ≠ 101 := by
    simp only [is_member_end] at hrest
    omega
  rw [List.singleton_append, lept_parse_value_of_number_start strtod 0 (d :: rest) jnull
    (Or.inr (by simp only [peek_cons, ISDIGIT, decide_eq_true_eq]; omega))]
  simp only [lept_parse_number, peek_cons, if_neg (show d ≠ 45 by omega), lept_number_int,
    if_neg (show d ≠ 48 by omega), hd, Bool.not_true, Bool.false_eq_true, if_false,
    List.tail_cons, lept_skip_digits_of_not_digit rest hnd, lept_number_frac, if_neg h46.1,
    lept_number_exp, h46.2.1, h46.2.2, or_self, hx rest, Bool.false_and]

/-- C11: an object text with `n` members, each of them a key text, a colon
and a value text, with whitespace of space, tab and carriage return around the
tokens, parses with `LEPT_PARSE_OK` to an object of size `n` whose members are
the keys and values of the text in the order of the text, repeated keys
included; and `lept_find_object_index` for the key of a member returns the
index of the first member with that key. -/
theorem lept_parse_object_retains_duplicates (strtod : List Nat → strtod_result)
    (w0 w w1 : List Nat) (ts : List member_text) (hw0 : is_whitespace_run w0)
    (hw : is_whitespace_run w) (hw1 : is_whitespace_run w1)
    (hts : ∀ t ∈ ts, is_member_text strtod t) :
    ∃ m, lept_parse strtod (w0 ++ (object_text w ts ++ w1))
        = some (LEPT_PARSE_OK, jobject m ts.length) ∧
      m.length = ts.length ∧ m = ts.map (fun t => (t.key, t.value)) ∧
      ∀ i t, ts[i]? = some t →
        ∃ j, lept_find_object_index m t.key = some j ∧ j ≤ i ∧
          (∃ x, m[j]? = some (t.key, x)) ∧ ∀ l a, l < j → m[l]? = some a → a.1 ≠ t.key := by
  refine ⟨ts.map (fun t => (t.key, t.value)),
    lept_parse_object_text strtod w0 w w1 ts hw0 hw hw1 hts, by simp, rfl, ?_⟩
  intro i t hi
  have hmi : (ts.map (fun t => (t.key, t.value)))[i]? = some (t.key, t.value) := by
    simp [List.getElem?_map, hi]
  obtain ⟨h1, h2⟩ :=
    lept_find_object_index_loop_first (ts.map (fun t => (t.key, t.value))) t.key 0
  cases hf : lept_find_object_index (ts.map (fun t => (t.key, t.value))) t.key with
  | none =>
    exact absurd rfl ((h2.mp hf) (t.key, t.value) (List.getElem?_mem hmi))
  | some j =>
    obtain ⟨j1, x, hr, hx, hmin⟩ := h1 j hf
    rw [Nat.zero_add] at hr
    subst hr
    refine ⟨j, rfl, ?_, ⟨x, hx⟩, hmin⟩
    by_contra hlt
    exact hmin i (t.key, t.value) (by omega) hmi rfl

/-- A member text whose key text is written by `lept_stringify_string` and
whose value text is one digit from `1` to `9`. -/
theorem is_member_text_digit (strtod : List Nat → strtod_result) (w1 w2 w3 w4 k : List Nat)
    (d x : Nat) (h1 : is_whitespace_run w1) (h2 : is_whitespace_run w2)
    (h3 : is_whitespace_run w3) (h4 : is_whitespace_run w4) (hd : ISDIGIT1TO9 d = true)
    (hx : ∀ rest, strtod (d :: rest) = ⟨x, false⟩) :
    is_member_text strtod ⟨w1, lept_stringify_string k, w2, w3, [d], w4, k, jnumber x⟩ :=
  ⟨h1, is_key_text_stringify k, h2, h3, is_value_text_digit strtod d x hd hx, h4⟩

theorem lept_parse_object_retains_duplicates_witness :
    lept_find_object_index [([97], jnumber 0x3FF0000000000000),
      ([97], jnumber 0x4000000000000000)] [97] = some 0 ∧
    lept_parse strtod_digit [32, 123, 32, 34, 97, 34, 32, 58, 9, 49, 32, 44, 13, 34, 97, 34, 58,
        50, 32, 125, 32]
      = some (LEPT_PARSE_OK, jobject [([97], jnumber 0x3FF0000000000000),
          ([97], jnumber 0x4000000000000000)] 2) ∧
    ∃ m, lept_parse strtod_digit [123, 34, 97, 34, 58, 49, 44, 34, 97, 34, 58, 50, 125]
        = some (LEPT_PARSE_OK, jobject m 2) ∧
      m.length = 2 ∧
      m = [([97], jnumber 0x3FF0000000000000), ([97], jnumber 0x4000000000000000)] ∧
      ∀ i t, [(⟨[], [34, 97, 34], [], [], [49], [], [97], jnumber 0x3FF0000000000000⟩ :
            member_text),
          ⟨[], [34, 97, 34], [], [], [50], [], [97], jnumber 0x4000000000000000⟩][i]? = some t →
        ∃ j, lept_find_object_index m t.key = some j ∧ j ≤ i ∧
          (∃ x, m[j]? = some (t.key, x)) ∧ ∀ l a, l < j → m[l]? = some a → a.1 ≠ t.key := by
  have hws : ∀ b, is_whitespace_run [b] ↔ (b = 32 ∨ b = 9 ∨ b = 13) := by
    intro b
    simp [is_whitespace_run]
  have hnil : is_whitespace_run [] := fun b hb => absurd hb (List.not_mem_nil _)
  refine ⟨by decide, ?_, ?_⟩
  · obtain ⟨m, h1, -, h3, -⟩ := lept_parse_object_retains_duplicates strtod_digit [32] [] [32]
      [⟨[32], [34, 97, 34], [32], [9], [49], [32], [97], jnumber 0x3FF0000000000000⟩,
        ⟨[13], [34, 97, 34], [], [], [50], [32], [97], jnumber 0x4000000000000000⟩]
      ((hws 32).mpr (by decide)) hnil ((hws 32).mpr (by decide))
      (by
        intro t ht
        simp only [List.mem_cons, List.mem_singleton, List.not_mem_nil, or_false] at ht
        rcases ht with rfl | rfl
        · exact is_member_text_digit strtod_digit [32] [32] [9] [32] [97] 49 _
            ((hws 32).mpr (by decide)) ((hws 32).mpr (by decide)) ((hws 9).mpr (by decide))
            ((hws 32).mpr (by decide)) (by decide) (fun _ => rfl)
        · exact is_member_text_digit strtod_digit [13] [] [] [32] [97] 50 _
            ((hws 13).mpr (by decide)) hnil hnil ((hws 32).mpr (by decide)) (by decide)
            (fun _ => rfl))
    rw [h3] at h1
    exact h1
  · exact lept_parse_object_retains_duplicates strtod_digit [] [] []
      [⟨[], [34, 97, 34], [], [], [49], [], [97], jnumber 0x3FF0000000000000⟩,
        ⟨[], [34, 97, 34], [], [], [50], [], [97], jnumber 0x4000000000000000⟩] hnil hnil hnil
      (by
        intro t ht
        simp only [List.mem_cons, List.mem_singleton, List.not_mem_nil, or_false] at ht
        rcases ht with rfl | rfl
        · exact is_member_text_digit strtod_digit [] [] [] [] [97] 49 _ hnil hnil hnil hnil
            (by decide) (fun _ => rfl)
        · exact is_member_text_digit strtod_digit [] [] [] [] [97] 50 _ hnil hnil hnil hnil
            (by decide) (fun _ => rfl))

/-! ## The deep copy returns -/

/-- The old content of the destination does not matter to `lept_copy`. -/
theorem lept_copy_dst (fuel : Nat) (dst dst1 src : lept_value) :
    lept_copy fuel dst src = lept_copy fuel dst1 src := by
  cases fuel with
  | zero => rfl
  | succ n => cases src <;> rfl

theorem lept_depth_array_le {D : Nat} {r : List lept_value}
    (h : ∀ y ∈ r, lept_depth y ≤ D) : lept_depth_array r ≤ D := by
  induction r with
  | nil => exact Nat.zero_le _
  | cons a l ih =>
    simp only [lept_depth_array]
    exact max_le (h a (List.mem_cons_self _ _)) (ih (fun y hy => h y (List.mem_cons_of_mem _ hy)))

theorem lept_depth_object_le {D : Nat} {r : List lept_member}
    (h : ∀ a ∈ r, lept_depth a.2 ≤ D) : lept_depth_object r ≤ D := by
  induction r with
  | nil => exact Nat.zero_le _
  | cons a l ih =>
    obtain ⟨k, v⟩ := a
    simp only [lept_depth_object]
    exact max_le (h (k, v) (List.mem_cons_self _ _))
      (ih (fun y hy => h y (List.mem_cons_of_mem _ hy)))

theorem lept_size_le_capacity_array_of_forall {r : List lept_value}
    (h : ∀ y ∈ r, lept_size_le_capacity y) : lept_size_le_capacity_array r := by
  induction r with
  | nil => exact trivial
  | cons a l ih =>
    simp only [lept_size_le_capacity_array]
    exact ⟨h a (List.mem_cons_self _ _), ih (fun y hy => h y (List.mem_cons_of_mem _ hy))⟩

theorem lept_size_le_capacity_object_of_forall {r : List lept_member}
    (h : ∀ a ∈ r, lept_size_le_capacity a.2) : lept_size_le_capacity_object r := by
  induction r with
  | nil => exact trivial
  | cons a l ih =>
    obtain ⟨k, v⟩ := a
    simp only [lept_size_le_capacity_object]
    exact ⟨h (k, v) (List.mem_cons_self _ _), ih (fun y hy => h y (List.mem_cons_of_mem _ hy))⟩

/-- What `lept_pushback_array_element` does when the copy of the element
returns `x`. -/
theorem lept_pushback_array_element_rec_eq
    (copy : lept_value → lept_value → Option lept_value) (es : List lept_value) (cap : Nat)
    (e x : lept_value) (h : copy jnull e = some x) :
    lept_pushback_array_element_rec copy (jarray es cap) e
      = some (jarray (es ++ [x])
          (if es.length = cap then (if cap = 0 then 1 else cap * 2) else cap)) := by
  simp only [lept_pushback_array_element_rec, lept_reserve_array, h]
  by_cases hc : es.length = cap
  · simp only [if_pos hc]
    by_cases h0 : cap = 0
    · simp [h0]
    · rw [if_neg h0, if_pos (by omega)]
  · simp only [if_neg hc]

/-- What `lept_set_object_value_by_key` does for a key that no member has,
when the copy of the value returns `x`. -/
theorem lept_set_object_value_by_key_rec_insert
    (copy : lept_value → lept_value → Option lept_value) (m : List lept_member) (cap : Nat)
    (key : List Nat) (s x : lept_value) (hf : lept_find_object_index m key = none)
    (h : copy jnull s = some x) :
    lept_set_object_value_by_key_rec copy (jobject m cap) key s
      = some (INSERT_OBJECT_OK, jobject (m ++ [(key, x)])
          (if m.length = cap then (if cap = 0 then 1 else cap * 2) else cap)) := by
  simp only [lept_set_object_value_by_key_rec, hf, lept_reserve_object, h]
  by_cases hc : m.length = cap
  · simp only [if_pos hc]
    by_cases h0 : cap = 0
    · simp [h0]
    · rw [if_neg h0, if_pos (by omega)]
  · simp only [if_neg hc]

/-- What `lept_set_object_value_by_key` does for a key found at `index`, when
the copy of the value returns `x`. -/
theorem lept_set_object_value_by_key_rec_modify
    (copy : lept_value → lept_value → Option lept_value) (m : List lept_member) (cap : Nat)
    (key : List Nat) (s x : lept_value) (index : Nat) (k : List Nat) (old : lept_value)
    (hf : lept_find_object_index m key = some index) (hm : m[index]? = some (k, old))
    (h : copy old s = some x) :
    lept_set_object_value_by_key_rec copy (jobject m cap) key s
      = some (MODIFY_OBJECT_OK, jobject (m.set index (k, x)) cap) := by
  have hlt : index < m.length := (List.getElem?_eq_some_iff.mp hm).1
  simp only [lept_set_object_value_by_key_rec, hf, lept_set_object_value_by_index_rec,
    if_neg (show ¬ index ≥ m.length by omega), hm, h]

/-- The array loop of `lept_copy` returns an array whose elements have the
property `P` of the copies, with the size within the capacity. -/
theorem lept_copy_array_loop_all (copy : lept_value → lept_value → Option lept_value)
    (P : lept_value → Prop) :
    ∀ (es done : List lept_value) (cap : Nat),
      (∀ x ∈ es, ∃ y, copy jnull x = some y ∧ P y) → (∀ y ∈ done, P y) → done.length ≤ cap →
      ∃ r c, lept_copy_array_loop copy (jarray done cap) es = some (jarray r c) ∧
        (∀ y ∈ r, P y) ∧ r.length ≤ c := by
  intro es
  induction es with
  | nil =>
    intro done cap _ hd hl
    exact ⟨done, cap, rfl, hd, hl⟩
  | cons e es ih =>
    intro done cap hc hd hl
    obtain ⟨x, hx, hpx⟩ := hc e (List.mem_cons_self _ _)
    simp only [lept_copy_array_loop, lept_pushback_array_element_rec_eq copy done cap e x hx]
    refine ih (done ++ [x]) _ (fun y hy => hc y (List.mem_cons_of_mem _ hy)) ?_ ?_
    · intro y hy
      rcases List.mem_append.mp hy with h | h
      · exact hd y h
      · rw [List.mem_singleton.mp h]; exact hpx
    · simp only [List.length_append, List.length_singleton]
      split_ifs <;> omega

/-- One call of `lept_set_object_value_by_key` in the object loop keeps the
property `P` of the member values and the size within the capacity. -/
theorem lept_set_object_value_by_key_rec_all
    (copy : lept_value → lept_value → Option lept_value) (P : lept_value → Prop)
    (m : List lept_member) (cap : Nat) (key : List Nat) (s : lept_value)
    (hcopy : ∀ dst, ∃ x, copy dst s = some x ∧ P x) (hm : ∀ a ∈ m, P a.2)
    (hlen : m.length ≤ cap) :
    ∃ r m1 c1, lept_set_object_value_by_key_rec copy (jobject m cap) key s
        = some (r, jobject m1 c1) ∧ (∀ a ∈ m1, P a.2) ∧ m1.length ≤ c1 := by
  cases hf : lept_find_object_index m key with
  | none =>
    obtain ⟨x, hx, hpx⟩ := hcopy jnull
    refine ⟨_, _, _, lept_set_object_value_by_key_rec_insert copy m cap key s x hf hx, ?_, ?_⟩
    · intro a ha
      rcases List.mem_append.mp ha with h | h
      · exact hm a h
      · rw [List.mem_singleton.mp h]; exact hpx
    · simp only [List.length_append, List.length_singleton]
      split_ifs <;> omega
  | some index =>
    obtain ⟨i, v, hr, hv, -⟩ := (lept_find_object_index_loop_first m key 0).1 index hf
    rw [Nat.zero_add] at hr
    subst hr
    obtain ⟨x, hx, hpx⟩ := hcopy v
    refine ⟨_, _, _, lept_set_object_value_by_key_rec_modify copy m cap key s x index key v hf hv hx,
      ?_, ?_⟩
    · intro a ha
      rcases List.mem_or_eq_of_mem_set ha with h | h
      · exact hm a h
      · rw [h]; exact hpx
    · rw [List.length_set]; exact hlen

/-- The object loop of `lept_copy` returns an object whose member values
have the property `P` of the copies, with the size within the capacity. -/
theorem lept_copy_object_loop_all (copy : lept_value → lept_value → Option lept_value)
    (P : lept_value → Prop) :
    ∀ (ms done : List lept_member) (cap : Nat),
      (∀ a ∈ ms, ∃ val, copy jnull a.2 = some val ∧
        ∀ dst, ∃ x, copy dst val = some x ∧ P x) →
      (∀ a ∈ done, P a.2) → done.length ≤ cap →
      ∃ r c, lept_copy_object_loop copy (jobject done cap) ms = some (jobject r c) ∧
        (∀ a ∈ r, P a.2) ∧ r.length ≤ c := by
  intro ms
  induction ms with
  | nil =>
    intro done cap _ hd hl
    exact ⟨done, cap, rfl, hd, hl⟩
  | cons a ms ih =>
    intro done cap hc hd hl
    obtain ⟨k, mv⟩ := a
    obtain ⟨val, hval, hcopy⟩ := hc (k, mv) (List.mem_cons_self _ _)
    obtain ⟨r, m1, c1, hset, hm1, hl1⟩ :=
      lept_set_object_value_by_key_rec_all copy P done cap k val hcopy hd hl
    simp only at hval
    simp only [lept_copy_object_loop, hval, hset]
    exact ih m1 c1 (fun y hy => hc y (List.mem_cons_of_mem _ hy)) hm1 hl1

/-- With fuel above the depth of nesting of the source, `lept_copy` returns;
the copy is not deeper than the source, and every array and object in it has
its size within its capacity. -/
theorem lept_copy_returns (fuel : Nat) : ∀ (src dst : lept_value), lept_depth src < fuel →
    ∃ x, lept_copy fuel dst src = some x ∧ lept_depth x ≤ lept_depth src ∧
      lept_size_le_capacity x := by
  induction fuel with
  | zero => intro src dst h; omega
  | succ n ih =>
    intro src dst hdepth
    cases src with
    | jnull => exact ⟨jnull, rfl, le_refl _, trivial⟩
    | jfalse => exact ⟨jfalse, rfl, le_refl _, trivial⟩
    | jtrue => exact ⟨jtrue, rfl, le_refl _, trivial⟩
    | jnumber x => exact ⟨jnumber x, rfl, le_refl _, trivial⟩
    | jstring s => exact ⟨jstring s, rfl, le_refl _, trivial⟩
    | jarray e cap =>
      simp only [lept_depth] at hdepth
      obtain ⟨r, c, hr, hp, hl⟩ := lept_copy_array_loop_all (lept_copy n)
        (fun y => lept_depth y ≤ lept_depth_array e ∧ lept_size_le_capacity y) e [] cap
        (fun x hx => by
          have hx1 := lept_depth_array_of_mem hx
          obtain ⟨y, hy, hd, hs⟩ := ih x jnull (by omega)
          exact ⟨y, hy, by omega, hs⟩)
        (fun y hy => absurd hy (List.not_mem_nil _)) (Nat.zero_le _)
      refine ⟨jarray r c, ?_, ?_, ?_⟩
      · simp only [lept_copy, lept_set_array, hr]
      · simp only [lept_depth]
        have := lept_depth_array_le (fun y hy => (hp y hy).1)
        omega
      · simp only [lept_size_le_capacity]
        exact ⟨hl, lept_size_le_capacity_array_of_forall (fun y hy => (hp y hy).2)⟩
    | jobject m cap =>
      simp only [lept_depth] at hdepth
      obtain ⟨r, c, hr, hp, hl⟩ := lept_copy_object_loop_all (lept_copy n)
        (fun y => lept_depth y ≤ lept_depth_object m ∧ lept_size_le_capacity y) m [] cap
        (fun a ha => by
          have ha1 := lept_depth_object_of_mem ha
          obtain ⟨val, hval, hd, -⟩ := ih a.2 jnull (by omega)
          refine ⟨val, hval, fun dst => ?_⟩
          obtain ⟨x, hx, hdx, hsx⟩ := ih val dst (by omega)
          exact ⟨x, hx, by omega, hsx⟩)
        (fun y hy => absurd hy (List.not_mem_nil _)) (Nat.zero_le _)
      refine ⟨jobject r c, ?_, ?_, ?_⟩
      · simp only [lept_copy, lept_set_object, hr]
      · simp only [lept_depth]
        have := lept_depth_object_le (fun y hy => (hp y hy).1)
        omega
      · simp only [lept_size_le_capacity]
        exact ⟨hl, lept_size_le_capacity_object_of_forall (fun y hy => (hp y hy).2)⟩

/-! ## C13: setting a value by key -/

/-- The scan looks at the keys only. -/
theorem lept_find_object_index_loop_keys (m : List lept_member) :
    ∀ (m1 : List lept_member) (key : List Nat) (i0 : Nat), m.map Prod.fst = m1.map Prod.fst →
      lept_find_object_index_loop m key i0 = lept_find_object_index_loop m1 key i0 := by
  induction m with
  | nil =>
    intro m1 key i0 h
    cases m1 with
    | nil => rfl
    | cons b l => simp at h
  | cons a ms ih =>
    intro m1 key i0 h
    cases m1 with
    | nil => simp at h
    | cons b l =>
      obtain ⟨k, v⟩ := a
      obtain ⟨k1, v1⟩ := b
      simp only [List.map_cons, List.cons.injEq] at h
      obtain ⟨hk, hl⟩ := h
      subst hk
      simp only [lept_find_object_index_loop, ih l key (i0 + 1) hl]

/-- A key that no member has is found, once appended, at the old size. -/
theorem lept_find_object_index_loop_append (m : List lept_member) :
    ∀ (key : List Nat) (x : lept_value) (i0 : Nat),
      lept_find_object_index_loop m key i0 = none →
      lept_find_object_index_loop (m ++ [(key, x)]) key i0 = some (i0 + m.length) := by
  induction m with
  | nil =>
    intro key x i0 _
    simp [lept_find_object_index_loop, memcmp_eq_self]
  | cons a ms ih =>
    intro key x i0 h
    obtain ⟨k, v⟩ := a
    simp only [lept_find_object_index_loop] at h
    by_cases hc : k.length = key.length ∧ memcmp_eq k key key.length = true
    · rw [if_pos hc] at h
      simp at h
    · rw [if_neg hc] at h
      have e : i0 + 1 + ms.length = i0 + (ms.length + 1) := by omega
      rw [List.cons_append, lept_find_object_index_loop, if_neg hc, ih key x (i0 + 1) h,
        List.length_cons, e]

theorem set_map_fst (m : List lept_member) (i : Nat) (key : List Nat) (old x : lept_value)
    (h : m[i]? = some (key, old)) : (m.set i (key, x)).map Prod.fst = m.map Prod.fst := by
  apply List.ext_getElem?
  intro j
  simp only [List.getElem?_map, List.getElem?_set]
  by_cases hj : i = j
  · subst hj
    rw [if_pos rfl, if_pos (List.getElem?_eq_some_iff.mp h).1, h]
    rfl
  · rw [if_neg hj]

/-- C13: `lept_set_object_value_by_key` stores the copy `x` of `s`. For a key
present with first index `i` it returns `MODIFY_OBJECT_OK`, the size, the
capacity and every key are as before, the value of member `i` is `x` and
every other member is as before. For a key that is absent it returns
`INSERT_OBJECT_OK`, the size grows by one, the new last member is `(key, x)`
and the earlier members are as before. In both cases
`lept_find_object_value` then yields `x`; and `x` is `s` itself, and equal to
`s`, when `s` is well-formed (sizes within capacities, numbers finite) and no
object in `s` has two members with the same key. -/
theorem lept_set_object_value_by_key_sets (fuel : Nat) (m : List lept_member)
    (capacity : Nat) (key : List Nat) (s : lept_value) (hfuel : lept_depth s < fuel) :
    ∃ x, lept_copy fuel jnull s = some x ∧
      (∀ i, lept_find_object_index m key = some i →
        ∃ m1, lept_set_object_value_by_key fuel (jobject m capacity) key s
            = some (MODIFY_OBJECT_OK, jobject m1 capacity) ∧
          m1.length = m.length ∧ m1.map Prod.fst = m.map Prod.fst ∧
          m1[i]? = some (key, x) ∧ (∀ j, j ≠ i → m1[j]? = m[j]?) ∧
          lept_find_object_value m1 key = some x) ∧
      (lept_find_object_index m key = none →
        ∃ m1 c1, lept_set_object_value_by_key fuel (jobject m capacity) key s
            = some (INSERT_OBJECT_OK, jobject m1 c1) ∧
          m1.length = m.length + 1 ∧ m1 = m ++ [(key, x)] ∧
          lept_find_object_value m1 key = some x) ∧
      (lept_size_le_capacity s → lept_keys_distinct s →
        (∀ n ∈ lept_numbers s, double_is_finite n = true) →
        x = s ∧ lept_is_equal x s = true) := by
  obtain ⟨x, hx, -, -⟩ := lept_copy_returns fuel s jnull hfuel
  refine ⟨x, hx, ?_, ?_, ?_⟩
  · intro i hi
    obtain ⟨i1, old, hr, hold, -⟩ := (lept_find_object_index_loop_first m key 0).1 i hi
    rw [Nat.zero_add] at hr
    subst hr
    have hlt : i < m.length := (List.getElem?_eq_some_iff.mp hold).1
    have hkeys := set_map_fst m i key old x hold
    have hi1 : lept_find_object_index (m.set i (key, x)) key = some i := by
      rw [lept_find_object_index, lept_find_object_index_loop_keys _ m key 0 hkeys]
      exact hi
    refine ⟨m.set i (key, x), ?_, List.length_set _ _ _, hkeys,
      List.getElem?_set_self hlt, fun j hj => List.getElem?_set_ne (Ne.symm hj), ?_⟩
    · exact lept_set_object_value_by_key_rec_modify (lept_copy fuel) m capacity key s x i key
        old hi hold (by rw [lept_copy_dst fuel old jnull s, hx])
    · simp only [lept_find_object_value, hi1, List.getElem?_set_self hlt]
  · intro hnone
    refine ⟨m ++ [(key, x)], _, lept_set_object_value_by_key_rec_insert (lept_copy fuel) m
      capacity key s x hnone hx, by simp, rfl, ?_⟩
    have := lept_find_object_index_loop_append m key x 0 hnone
    rw [Nat.zero_add] at this
    simp only [lept_find_object_value, lept_find_object_index, this]
    simp
  · intro hsize hkeys hnum
    have hs := lept_copy_faithful fuel s jnull hfuel hsize hkeys
    rw [hx] at hs
    have hxs : x = s := Option.some.inj hs
    subst hxs
    exact ⟨rfl, lept_is_equal_self x hkeys hnum⟩

theorem lept_set_object_value_by_key_sets_witness :
    lept_set_object_value_by_key 2 (jobject [([97], jnull), ([98], jfalse)] 2) [98]
        (jarray [jtrue] 1)
      = some (MODIFY_OBJECT_OK, jobject [([97], jnull), ([98], jarray [jtrue] 1)] 2) ∧
    lept_set_object_value_by_key 2 (jobject [([97], jnull), ([98], jfalse)] 2) [99]
        (jarray [jtrue] 1)
      = some (INSERT_OBJECT_OK,
          jobject [([97], jnull), ([98], jfalse), ([99], jarray [jtrue] 1)] 4) ∧
    ∃ x, lept_copy 2 jnull (jarray [jtrue] 1) = some x ∧
      (∀ i, lept_find_object_index [([97], jnull), ([98], jfalse)] [98] = some i →
        ∃ m1, lept_set_object_value_by_key 2 (jobject [([97], jnull), ([98], jfalse)] 2) [98]
              (jarray [jtrue] 1)
            = some (MODIFY_OBJECT_OK, jobject m1 2) ∧
          m1.length = [(([97] : List Nat), jnull), ([98], jfalse)].length ∧
          m1.map Prod.fst = [(([97] : List Nat), jnull), ([98], jfalse)].map Prod.fst ∧
          m1[i]? = some ([98], x) ∧
          (∀ j, j ≠ i → m1[j]? = [(([97] : List Nat), jnull), ([98], jfalse)][j]?) ∧
          lept_find_object_value m1 [98] = some x) ∧
      (lept_find_object_index [([97], jnull), ([98], jfalse)] [98] = none →
        ∃ m1 c1, lept_set_object_value_by_key 2 (jobject [([97], jnull), ([98], jfalse)] 2)
              [98] (jarray [jtrue] 1)
            = some (INSERT_OBJECT_OK, jobject m1 c1) ∧
          m1.length = [(([97] : List Nat), jnull), ([98], jfalse)].length + 1 ∧
          m1 = [([97], jnull), ([98], jfalse)] ++ [([98], x)] ∧
          lept_find_object_value m1 [98] = some x) ∧
      (lept_size_le_capacity (jarray [jtrue] 1) → lept_keys_distinct (jarray [jtrue] 1) →
        (∀ n ∈ lept_numbers (jarray [jtrue] 1), double_is_finite n = true) →
        x = jarray [jtrue] 1 ∧ lept_is_equal x (jarray [jtrue] 1) = true) :=
  ⟨rfl, rfl, lept_set_object_value_by_key_sets 2 [([97], jnull), ([98], jfalse)] 2 [98]
    (jarray [jtrue] 1) (by decide)⟩

/-- C13 (counterexample): the value of `{"a":1,"a":2}` set under a new key
`k` of an empty object is stored as an object with the single member `"a":2`;
`lept_find_object_value` yields that object, and it is not equal to the value
that was set. -/
theorem lept_set_object_value_by_key_duplicate_keys_counterexample :
    lept_parse strtod_digit [123, 34, 97, 34, 58, 49, 44, 34, 97, 34, 58, 50, 125]
      = some (LEPT_PARSE_OK, jobject [([97], jnumber 0x3FF0000000000000),
          ([97], jnumber 0x4000000000000000)] 2) ∧
    lept_set_object_value_by_key 2 (jobject [] 0) [107]
        (jobject [([97], jnumber 0x3FF0000000000000), ([97], jnumber 0x4000000000000000)] 2)
      = some (INSERT_OBJECT_OK,
          jobject [([107], jobject [([97], jnumber 0x4000000000000000)] 2)] 1) ∧
    lept_find_object_value [([107], jobject [([97], jnumber 0x4000000000000000)] 2)] [107]
      = some (jobject [([97], jnumber 0x4000000000000000)] 2) ∧
    lept_is_equal (jobject [([97], jnumber 0x4000000000000000)] 2)
      (jobject [([97], jnumber 0x3FF0000000000000), ([97], jnumber 0x4000000000000000)] 2)
      = false ∧
    lept_is_equal
      (jobject [([97], jnumber 0x3FF0000000000000), ([97], jnumber 0x4000000000000000)] 2)
      (jobject [([97], jnumber 0x4000000000000000)] 2) = false :=
  ⟨rfl, rfl, rfl, rfl, rfl⟩

/-! ## C14: removing a member -/

/-- The shift loop of `lept_remove_object_value_by_index`, run from `i` to
the last slot, leaves the slots below `i` and moves every later slot one
place down. -/
theorem lept_remove_shift_loop_spec (n : Nat) :
    ∀ (i : Nat) (m : List lept_member), i + n + 1 = m.length →
      (lept_remove_shift_loop n i m).length = m.length ∧
      ∀ j, (j < i → (lept_remove_shift_loop n i m)[j]? = m[j]?) ∧
        (i ≤ j → j + 1 < m.length → (lept_remove_shift_loop n i m)[j]? = m[j + 1]?) := by
  induction n with
  | zero =>
    intro i m h
    refine ⟨rfl, fun j => ⟨fun _ => rfl, fun h1 h2 => ?_⟩⟩
    omega
  | succ n ih =>
    intro i m h
    have hlt : i + 1 < m.length := by omega
    obtain ⟨x, hx⟩ : ∃ x, m[i + 1]? = some x := ⟨m[i + 1], List.getElem?_eq_getElem hlt⟩
    simp only [lept_remove_shift_loop, hx]
    obtain ⟨hl, hj⟩ := ih (i + 1) (m.set i x) (by rw [List.length_set]; omega)
    rw [List.length_set] at hl
    refine ⟨hl, fun j => ⟨fun h1 => ?_, fun h1 h2 => ?_⟩⟩
    · rw [(hj j).1 (by omega), List.getElem?_set_ne (by omega)]
    · by_cases hji : j = i
      · subst hji
        rw [(hj j).1 (by omega), List.getElem?_set_self (by omega), hx]
      · rw [(hj j).2 (by omega) (by rw [List.length_set]; omega),
          List.getElem?_set_ne (by omega)]

/-- C14: `lept_remove_object_value_by_index` returns `OBJECT_INDEX_WRONG`
exactly when `index >= size`, and then leaves the object as it is; otherwise
it returns `REMOVE_OBJECT_OK`, the members are the old members without the
one at `index`, in the old order, and the capacity is `2 * new_size + 1` if
that is strictly smaller than the old capacity and the old capacity
otherwise. -/
theorem lept_remove_object_value_by_index_removes (m : List lept_member) (capacity : Nat)
    (index : Nat) :
    ∃ r v1, lept_remove_object_value_by_index (jobject m capacity) index = some (r, v1) ∧
      (r = OBJECT_INDEX_WRONG ↔ index ≥ m.length) ∧
      (index ≥ m.length → v1 = jobject m capacity) ∧
      (index < m.length → r = REMOVE_OBJECT_OK ∧
        ∃ m1 c1, v1 = jobject m1 c1 ∧ m1.length = m.length - 1 ∧
          m1 = m.take index ++ m.drop (index + 1) ∧
          (∀ j, m1[j]? = if j < index then m[j]? else m[j + 1]?) ∧
          c1 = if 2 * (m.length - 1) + 1 < capacity then 2 * (m.length - 1) + 1
            else capacity) := by
  by_cases hi : index ≥ m.length
  · refine ⟨OBJECT_INDEX_WRONG, jobject m capacity, ?_, ?_, fun _ => rfl, fun h => ?_⟩
    · simp only [lept_remove_object_value_by_index, if_pos hi]
    · simp [hi]
    · omega
  · have hlt : index < m.length := by omega
    obtain ⟨a, ha⟩ : ∃ a, m[index]? = some a := ⟨m[index], List.getElem?_eq_getElem hlt⟩
    obtain ⟨k, x⟩ := a
    obtain ⟨hl, hj⟩ := lept_remove_shift_loop_spec (m.length - 1 - index) index
      (m.set index ([], lept_free x)) (by rw [List.length_set]; omega)
    rw [List.length_set] at hl
    have hget : ∀ j, ((lept_remove_shift_loop (m.length - 1 - index) index
        (m.set index ([], lept_free x))).take (m.length - 1))[j]?
        = if j < index then m[j]? else m[j + 1]? := by
      intro j
      rw [List.getElem?_take]
      by_cases hj1 : j < m.length - 1
      · rw [if_pos hj1]
        by_cases hj2 : j < index
        · rw [if_pos hj2, (hj j).1 hj2, List.getElem?_set_ne (by omega)]
        · rw [if_neg hj2, (hj j).2 (by omega) (by rw [List.length_set]; omega),
            List.getElem?_set_ne (by omega)]
      · rw [if_neg hj1, if_neg (by omega), List.getElem?_eq_none (by omega)]
    have heq : (lept_remove_shift_loop (m.length - 1 - index) index
        (m.set index ([], lept_free x))).take (m.length - 1)
        = m.take index ++ m.drop (index + 1) := by
      apply List.ext_getElem?
      intro j
      rw [hget j, List.getElem?_append, List.length_take, List.getElem?_take,
        List.getElem?_drop]
      by_cases hj2 : j < index
      · rw [if_pos hj2, if_pos (by omega), if_pos hj2]
      · rw [if_neg hj2, if_neg (by omega)]
        congr 1
        omega
    refine ⟨REMOVE_OBJECT_OK, _, ?_, ?_, fun h => absurd h hi, fun _ => ⟨rfl, _, _, rfl, ?_,
      heq, hget, rfl⟩⟩
    · simp only [lept_remove_object_value_by_index, if_neg hi, ha]
    · simp [hi]
    · rw [List.length_take, hl]
      omega

/-! ## Erasing elements of an array -/

/-- The release loop of `lept_erase_array_element` keeps the length of the
buffer and every slot outside the range it runs over. -/
theorem lept_erase_free_loop_spec (n : Nat) :
    ∀ (i : Nat) (e : List lept_value), i + n ≤ e.length →
      (lept_erase_free_loop n i e).length = e.length ∧
      ∀ j, (j < i ∨ i + n ≤ j) → (lept_erase_free_loop n i e)[j]? = e[j]? := by
  induction n with
  | zero => intro i e _; exact ⟨rfl, fun _ _ => rfl⟩
  | succ n ih =>
    intro i e h
    obtain ⟨x, hx⟩ : ∃ x, e[i]? = some x := ⟨e[i], List.getElem?_eq_getElem (by omega)⟩
    simp only [lept_erase_free_loop, hx]
    obtain ⟨hl, hj⟩ := ih (i + 1) (e.set i (lept_free x)) (by rw [List.length_set]; omega)
    rw [List.length_set] at hl
    refine ⟨hl, fun j h1 => ?_⟩
    rw [hj j (by omega), List.getElem?_set_ne (by omega)]

/-- The shift loop of `lept_erase_array_element`, run from `i` to the end of
the buffer, leaves the slots below `i - count` and moves every later slot
`count` places down. -/
theorem lept_erase_shift_loop_spec (count n : Nat) :
    ∀ (i : Nat) (e : List lept_value), count ≤ i → i + n = e.length →
      (lept_erase_shift_loop count n i e).length = e.length ∧
      ∀ j, (j + count < i → (lept_erase_shift_loop count n i e)[j]? = e[j]?) ∧
        (i ≤ j + count → j + count < e.length →
          (lept_erase_shift_loop count n i e)[j]? = e[j + count]?) := by
  induction n with
  | zero =>
    intro i e _ h
    refine ⟨rfl, fun j => ⟨fun _ => rfl, fun h1 h2 => ?_⟩⟩
    omega
  | succ n ih =>
    intro i e hc h
    obtain ⟨x, hx⟩ : ∃ x, e[i]? = some x := ⟨e[i], List.getElem?_eq_getElem (by omega)⟩
    simp only [lept_erase_shift_loop, hx]
    obtain ⟨hl, hj⟩ := ih (i + 1) (e.set (i - count) x) (by omega)
      (by rw [List.length_set]; omega)
    rw [List.length_set] at hl
    refine ⟨hl, fun j => ⟨fun h1 => ?_, fun h1 h2 => ?_⟩⟩
    · rw [(hj j).1 (by omega), List.getElem?_set_ne (by omega)]
    · by_cases hji : j + count = i
      · have e1 : i - count = j := by omega
        rw [(hj j).1 (by omega), e1, List.getElem?_set_self (by omega), hji, hx]
      · rw [(hj j).2 (by omega) (by rw [List.length_set]; omega),
          List.getElem?_set_ne (by omega)]

/-- What `lept_erase_array_element` returns within its asserted
precondition. -/
theorem lept_erase_array_element_eq (e : List lept_value) (cap index count : Nat)
    (h : index + count ≤ e.length) :
    lept_erase_array_element (jarray e cap) index count
      = some (jarray (e.take index ++ e.drop (index + count))
          (if 2 * (e.length - count) + 1 < cap then 2 * (e.length - count) + 1 else cap)) := by
  obtain ⟨hl1, hj1⟩ := lept_erase_free_loop_spec count index e h
  obtain ⟨hl2, hj2⟩ := lept_erase_shift_loop_spec count (e.length - (index + count))
    (index + count) (lept_erase_free_loop count index e) (by omega) (by rw [hl1]; omega)
  rw [hl1] at hl2
  simp only [lept_erase_array_element, if_pos h]
  congr 2
  apply List.ext_getElem?
  intro j
  rw [List.getElem?_take, List.getElem?_append, List.length_take, List.getElem?_take,
    List.getElem?_drop]
  by_cases hj : j < e.length - count
  · rw [if_pos hj]
    by_cases hji : j < index
    · rw [if_pos (by omega), if_pos hji, (hj2 j).1 (by omega), hj1 j (Or.inl hji)]
    · rw [if_neg (by omega), (hj2 j).2 (by omega) (by rw [hl1]; omega),
        hj1 (j + count) (Or.inr (by omega))]
      congr 1
      omega
  · rw [if_neg hj]
    by_cases hji : j < index
    · omega
    · rw [if_neg (by omega), List.getElem?_eq_none (by omega)]

/-! ## C18: erasing a range -/

/-- C18: for `index + count <= n`, `lept_erase_array_element` leaves an array
of size `n - count` whose elements are the old elements `0..index-1` followed
by the old elements `index+count..n-1`, in order, and whose capacity is
`2 * (n - count) + 1` if that is strictly smaller than the old capacity and
the old capacity otherwise. -/
theorem lept_erase_array_element_erases (e : List lept_value) (capacity index count : Nat)
    (h : index + count ≤ e.length) :
    ∃ e1 c1, lept_erase_array_element (jarray e capacity) index count = some (jarray e1 c1) ∧
      e1.length = e.length - count ∧
      e1 = e.take index ++ e.drop (index + count) ∧
      (∀ j, e1[j]? = if j < index then e[j]? else e[j + count]?) ∧
      c1 = if 2 * (e.length - count) + 1 < capacity then 2 * (e.length - count) + 1
        else capacity := by
  refine ⟨_, _, lept_erase_array_element_eq e capacity index count h, ?_, rfl, ?_, rfl⟩
  · rw [List.length_append, List.length_take, List.length_drop]
    omega
  · intro j
    rw [List.getElem?_append, List.length_take, List.getElem?_take, List.getElem?_drop]
    by_cases hji : j < index
    · rw [if_pos (by omega), if_pos hji, if_pos hji]
    · rw [if_neg (by omega), if_neg hji]
      congr 1
      omega

theorem lept_erase_array_element_erases_witness :
    ∃ e1 c1, lept_erase_array_element
        (jarray [jnull, jtrue, jfalse, jnumber 0, jstring [120]] 8) 1 2 = some (jarray e1 c1) ∧
      e1.length = [jnull, jtrue, jfalse, jnumber 0, jstring [120]].length - 2 ∧
      e1 = [jnull, jtrue, jfalse, jnumber 0, jstring [120]].take 1
        ++ [jnull, jtrue, jfalse, jnumber 0, jstring [120]].drop (1 + 2) ∧
      (∀ j, e1[j]? = if j < 1 then [jnull, jtrue, jfalse, jnumber 0, jstring [120]][j]?
        else [jnull, jtrue, jfalse, jnumber 0, jstring [120]][j + 2]?) ∧
      c1 = if 2 * ([jnull, jtrue, jfalse, jnumber 0, jstring [120]].length - 2) + 1 < 8
        then 2 * ([jnull, jtrue, jfalse, jnumber 0, jstring [120]].length - 2) + 1 else 8 :=
  lept_erase_array_element_erases [jnull, jtrue, jfalse, jnumber 0, jstring [120]] 8 1 2
    (by decide)

/-! ## C15: clearing an array -/

/-- C15 (the code): `lept_clear_array` leaves the size 0, and the capacity 1
whenever the capacity was above 1; the array parsed from `[1,2]`, of capacity
2, has capacity 1 after the call. -/
theorem lept_clear_array_capacity (e : List lept_value) (capacity : Nat) :
    lept_clear_array (jarray e capacity)
      = some (jarray [] (if 1 < capacity then 1 else capacity)) ∧
    lept_parse strtod_digit [91, 49, 44, 50, 93]
      = some (LEPT_PARSE_OK, jarray [jnumber 0x3FF0000000000000, jnumber 0x4000000000000000] 2) ∧
    lept_clear_array (jarray [jnumber 0x3FF0000000000000, jnumber 0x4000000000000000] 2)
      = some (jarray [] 1) := by
  refine ⟨?_, rfl, rfl⟩
  simp only [lept_clear_array]
  rw [lept_erase_array_element_eq e capacity 0 e.length (by omega)]
  simp

/-! ## C19: appending an element -/

/-- C19: for an array of size `n` and capacity `c`,
`lept_pushback_array_element` stores the copy `x` of `e` at index `n`; the
size is then `n + 1`, the elements `0..n-1` are as before, and the capacity is
1 if `n = c = 0`, `2 * c` if `n = c > 0`, and `c` otherwise. The copy `x` is
`e` itself, and equal to `e`, when `e` is well-formed (sizes within
capacities, numbers finite) and no object in `e` has two members with the
same key. -/
theorem lept_pushback_array_element_appends (fuel : Nat) (es : List lept_value) (c : Nat)
    (e : lept_value) (hfuel : lept_depth e < fuel) :
    ∃ x, lept_copy fuel jnull e = some x ∧
      (∃ es1 c1, lept_pushback_array_element fuel (jarray es c) e = some (jarray es1 c1) ∧
        es1.length = es.length + 1 ∧ es1[es.length]? = some x ∧
        (∀ j, j < es.length → es1[j]? = es[j]?) ∧
        c1 = if es.length = c then (if c = 0 then 1 else 2 * c) else c) ∧
      (lept_size_le_capacity e → lept_keys_distinct e →
        (∀ n ∈ lept_numbers e, double_is_finite n = true) →
        x = e ∧ lept_is_equal x e = true) := by
  obtain ⟨x, hx, -, -⟩ := lept_copy_returns fuel e jnull hfuel
  refine ⟨x, hx, ⟨es ++ [x], _,
    lept_pushback_array_element_rec_eq (lept_copy fuel) es c e x hx, by simp, by simp,
    fun j hj => List.getElem?_append_left hj, ?_⟩, ?_⟩
  · rw [Nat.mul_comm]
  · intro hsize hkeys hnum
    have hs := lept_copy_faithful fuel e jnull hfuel hsize hkeys
    rw [hx] at hs
    have hxs : x = e := Option.some.inj hs
    subst hxs
    exact ⟨rfl, lept_is_equal_self x hkeys hnum⟩

theorem lept_pushback_array_element_appends_witness :
    lept_pushback_array_element 2 (jarray [jnull] 1) (jarray [jtrue] 1)
      = some (jarray [jnull, jarray [jtrue] 1] 2) ∧
    ∃ x, lept_copy 2 jnull (jarray [jtrue] 1) = some x ∧
      (∃ es1 c1, lept_pushback_array_element 2 (jarray [jnull] 1) (jarray [jtrue] 1)
          = some (jarray es1 c1) ∧
        es1.length = [jnull].length + 1 ∧ es1[[jnull].length]? = some x ∧
        (∀ j, j < [jnull].length → es1[j]? = [jnull][j]?) ∧
        c1 = if [jnull].length = 1 then (if 1 = 0 then 1 else 2 * 1) else 1) ∧
      (lept_size_le_capacity (jarray [jtrue] 1) → lept_keys_distinct (jarray [jtrue] 1) →
        (∀ n ∈ lept_numbers (jarray [jtrue] 1), double_is_finite n = true) →
        x = jarray [jtrue] 1 ∧ lept_is_equal x (jarray [jtrue] 1) = true) :=
  ⟨rfl, lept_pushback_array_element_appends 2 [jnull] 1 (jarray [jtrue] 1) (by decide)⟩

/-- C19 (counterexample): the value of `{"a":1,"a":2}` pushed on an empty
array is stored as an object with the single member `"a":2`, which is not
equal to the value that was pushed. -/
theorem lept_pushback_array_element_duplicate_keys_counterexample :
    lept_parse strtod_digit [123, 34, 97, 34, 58, 49, 44, 34, 97, 34, 58, 50, 125]
      = some (LEPT_PARSE_OK, jobject [([97], jnumber 0x3FF0000000000000),
          ([97], jnumber 0x4000000000000000)] 2) ∧
    lept_pushback_array_element 2 (jarray [] 0)
        (jobject [([97], jnumber 0x3FF0000000000000), ([97], jnumber 0x4000000000000000)] 2)
      = some (jarray [jobject [([97], jnumber 0x4000000000000000)] 2] 1) ∧
    lept_is_equal (jobject [([97], jnumber 0x4000000000000000)] 2)
      (jobject [([97], jnumber 0x3FF0000000000000), ([97], jnumber 0x4000000000000000)] 2)
      = false ∧
    lept_is_equal
      (jobject [([97], jnumber 0x3FF0000000000000), ([97], jnumber 0x4000000000000000)] 2)
      (jobject [([97], jnumber 0x4000000000000000)] 2) = false :=
  ⟨rfl, rfl, rfl, rfl⟩

/-! ## C17: inserting an element -/

/-- The swap loop of `lept_insert_array_element`, entered at `i` with
`index ≤ i`, moves the element at `i` to `index` and every element from
`index` to `i - 1` one place up. -/
theorem lept_insert_array_loop_spec (index : Nat) :
    ∀ (i : Nat) (e : List lept_value), index ≤ i → i < e.length →
      ∃ r, lept_insert_array_loop index i e = some r ∧ r.length = e.length ∧
        r[index]? = e[i]? ∧
        ∀ j, ((j < index ∨ i < j) → r[j]? = e[j]?) ∧
          (index ≤ j → j < i → r[j + 1]? = e[j]?) := by
  intro i
  induction i with
  | zero =>
    intro e hi _
    have h0 : index = 0 := by omega
    subst h0
    refine ⟨e, by simp [lept_insert_array_loop], rfl, rfl, fun j => ⟨fun _ => rfl, fun _ h => ?_⟩⟩
    omega
  | succ i ih =>
    intro e hi hlt
    by_cases hc : i + 1 = index
    · refine ⟨e, by simp [lept_insert_array_loop, hc], rfl, by rw [hc],
        fun j => ⟨fun _ => rfl, fun _ _ => ?_⟩⟩
      omega
    · obtain ⟨a, ha⟩ : ∃ a, e[i]? = some a := ⟨e[i], List.getElem?_eq_getElem (by omega)⟩
      obtain ⟨b, hb⟩ : ∃ b, e[i + 1]? = some b := ⟨e[i + 1], List.getElem?_eq_getElem hlt⟩
      obtain ⟨r, hr, hl, hidx, hj⟩ := ih ((e.set i b).set (i + 1) a) (by omega)
        (by rw [List.length_set, List.length_set]; omega)
      rw [List.length_set, List.length_set] at hl
      refine ⟨r, ?_, hl, ?_, fun j => ⟨fun h1 => ?_, fun h1 h2 => ?_⟩⟩
      · simp only [lept_insert_array_loop, ne_eq, hc, not_false_eq_true, if_true,
          lept_swap_elements, ha, hb, lept_swap, hr]
      · rw [hidx, List.getElem?_set_ne (by omega), List.getElem?_set_self (by omega), hb]
      · rw [(hj j).1 (by omega)]
        by_cases hji : j = i + 1
        · omega
        · rw [List.getElem?_set_ne (by omega), List.getElem?_set_ne (by omega)]
      · by_cases hji : j = i
        · subst hji
          rw [(hj (j + 1)).1 (by omega),
            List.getElem?_set_self (by rw [List.length_set]; omega), ha]
        · rw [(hj j).2 h1 (by omega), List.getElem?_set_ne (by omega),
            List.getElem?_set_ne (by omega)]

/-- What `lept_insert_array_element` returns within its asserted
precondition, when the copy of the element returns `x`. -/
theorem lept_insert_array_element_eq (fuel : Nat) (es : List lept_value) (capacity : Nat)
    (e x : lept_value) (index : Nat) (hx : lept_copy fuel jnull e = some x)
    (hindex : index ≤ es.length) :
    lept_insert_array_element fuel (jarray es capacity) e index
      = some (jarray (es.take index ++ x :: es.drop index)
          (if es.length = capacity then (if capacity = 0 then 1 else capacity * 2)
            else capacity)) := by
  have hpush := lept_pushback_array_element_rec_eq (lept_copy fuel) es capacity e x hx
  obtain ⟨r, hr, hl, hidx, hj⟩ := lept_insert_array_loop_spec index es.length (es ++ [x])
    hindex (by simp)
  have hlen : (es ++ [x]).length = es.length + 1 := by simp
  have hlast : (es ++ [x])[es.length]? = some x := by simp
  rw [hlen] at hl
  rw [hlast] at hidx
  have hlow : ∀ j, j < index → r[j]? = es[j]? := fun j h =>
    ((hj j).1 (Or.inl h)).trans (List.getElem?_append_left (by omega))
  have hup : ∀ j, index ≤ j → j < es.length → r[j + 1]? = es[j]? := fun j h1 h2 =>
    ((hj j).2 h1 h2).trans (List.getElem?_append_left h2)
  have hins : lept_insert_array_element fuel (jarray es capacity) e index
      = some (jarray r (if es.length = capacity then (if capacity = 0 then 1 else capacity * 2)
          else capacity)) := by
    simp only [lept_insert_array_element, if_pos hindex, lept_pushback_array_element, hpush,
      hlen, Nat.add_sub_cancel, hr]
    by_cases h1 : es.length + 1 = 1
    · rw [if_pos h1]
      have h0 : es.length = 0 := by omega
      have hes : es = [] := List.eq_nil_of_length_eq_zero h0
      subst hes
      have hi0 : index = 0 := by simpa using hindex
      subst hi0
      simp only [List.nil_append, lept_insert_array_loop, List.length_nil, ne_eq,
        not_true_eq_false, if_false, Option.some.injEq] at hr
      rw [List.nil_append, hr]
    · rw [if_neg h1]
  rw [hins]
  congr 2
  apply List.ext_getElem?
  intro j
  rw [List.getElem?_append, List.length_take, Nat.min_eq_left hindex, List.getElem?_take]
  by_cases hji : j < index
  · rw [if_pos hji, if_pos hji, hlow j hji]
  · rw [if_neg hji]
    by_cases hje : j = index
    · subst hje
      rw [Nat.sub_self, hidx, List.getElem?_cons_zero]
    · obtain ⟨k, rfl⟩ : ∃ k, j = k + 1 := ⟨j - 1, by omega⟩
      have e1 : k + 1 - index = (k - index) + 1 := by omega
      rw [e1, List.getElem?_cons_succ, List.getElem?_drop]
      by_cases hk : k < es.length
      · rw [hup k (by omega) hk]
        congr 1
        omega
      · rw [List.getElem?_eq_none (by omega), List.getElem?_eq_none (by omega)]

/-- C17: for `index <= n`, `lept_insert_array_element` leaves an array of size
`n + 1` with the copy `x` of `e` at position `index`, the old elements
`0..index-1` at their positions and the old elements `index..n-1` at the
positions `index+1..n`, in the same order. -/
theorem lept_insert_array_element_inserts (fuel : Nat) (es : List lept_value) (capacity : Nat)
    (e : lept_value) (index : Nat) (hfuel : lept_depth e < fuel) (hindex : index ≤ es.length) :
    ∃ x, lept_copy fuel jnull e = some x ∧
      ∃ es1 c1, lept_insert_array_element fuel (jarray es capacity) e index
          = some (jarray es1 c1) ∧
        es1.length = es.length + 1 ∧ es1[index]? = some x ∧
        (∀ j, j < index → es1[j]? = es[j]?) ∧
        (∀ j, index ≤ j → j < es.length → es1[j + 1]? = es[j]?) ∧
        es1 = es.take index ++ x :: es.drop index := by
  obtain ⟨x, hx, -, -⟩ := lept_copy_returns fuel e jnull hfuel
  have htake : (es.take index).length = index := by
    rw [List.length_take]; omega
  refine ⟨x, hx, _, _, lept_insert_array_element_eq fuel es capacity e x index hx hindex,
    ?_, ?_, fun j hj => ?_, fun j h1 h2 => ?_, rfl⟩
  · rw [List.length_append, List.length_cons, List.length_drop, htake]
    omega
  · rw [List.getElem?_append_right (by omega), htake, Nat.sub_self, List.getElem?_cons_zero]
  · rw [List.getElem?_append_left (by omega), List.getElem?_take, if_pos hj]
  · have e1 : j + 1 - index = (j - index) + 1 := by omega
    rw [List.getElem?_append_right (by omega), htake, e1, List.getElem?_cons_succ,
      List.getElem?_drop]
    congr 1
    omega

theorem lept_insert_array_element_inserts_witness :
    lept_insert_array_element 2 (jarray [jnull, jtrue, jfalse] 3) (jarray [jtrue] 1) 1
      = some (jarray [jnull, jarray [jtrue] 1, jtrue, jfalse] 6) ∧
    ∃ x, lept_copy 2 jnull (jarray [jtrue] 1) = some x ∧
      ∃ es1 c1, lept_insert_array_element 2 (jarray [jnull, jtrue, jfalse] 3)
          (jarray [jtrue] 1) 1 = some (jarray es1 c1) ∧
        es1.length = [jnull, jtrue, jfalse].length + 1 ∧ es1[1]? = some x ∧
        (∀ j, j < 1 → es1[j]? = [jnull, jtrue, jfalse][j]?) ∧
        (∀ j, 1 ≤ j → j < [jnull, jtrue, jfalse].length →
          es1[j + 1]? = [jnull, jtrue, jfalse][j]?) ∧
        es1 = [jnull, jtrue, jfalse].take 1 ++ x :: [jnull, jtrue, jfalse].drop 1 :=
  ⟨rfl, lept_insert_array_element_inserts 2 [jnull, jtrue, jfalse] 3 (jarray [jtrue] 1) 1
    (by decide) (by decide)⟩

/-! ## C16: the size stays within the capacity -/

theorem lept_parse_literal_size_le_capacity (json : List Nat) (v : lept_value) (lit : List Nat)
    (t : lept_type) (hv : lept_size_le_capacity v) :
    lept_size_le_capacity (lept_parse_literal json v lit t).2.1 := by
  simp only [lept_parse_literal]
  cases lept_parse_literal_loop lit.tail json.tail with
  | none => exact hv
  | some q =>
    cases t <;> first | exact trivial | exact hv

theorem lept_parse_number_size_le_capacity (strtod : List Nat → strtod_result)
    (json : List Nat) (v : lept_value) (hv : lept_size_le_capacity v) :
    lept_size_le_capacity (lept_parse_number strtod json v).2.1 := by
  have hn : ∀ x, lept_size_le_capacity (lept_set_n v x) := by
    intro x
    cases v <;> exact hv
  simp only [lept_parse_number]
  cases lept_number_int (if peek json = 45 then json.tail else json) with
  | none => exact hv
  | some p1 =>
    simp only []
    cases lept_number_frac p1 with
    | none => exact hv
    | some p2 =>
      simp only []
      cases lept_number_exp p2 with
      | none => exact hv
      | some p3 =>
        simp only []
        split
        · exact hn _
        · exact trivial

theorem lept_parse_string_size_le_capacity {json : List Nat} {v : lept_value}
    {r : parse_result} (hv : lept_size_le_capacity v) (h : lept_parse_string json v = some r) :
    lept_size_le_capacity r.2.1 := by
  simp only [lept_parse_string] at h
  cases hs : lept_parse_string_raw json with
  | none => rw [hs] at h; exact absurd h (by simp)
  | some x =>
    obtain ⟨ret, s, q⟩ := x
    rw [hs] at h
    simp only [] at h
    refine of_ite_eq_some h (fun _ h1 => ?_) (fun _ h1 => ?_)
    · rw [← Option.some.inj h1]; exact trivial
    · rw [← Option.some.inj h1]; exact hv

/-- Every array and object in a value that the parser returns has its size
within its capacity. -/
theorem lept_parse_value_size_le_capacity (strtod : List Nat → strtod_result) (n : Nat) :
    (∀ (json : List Nat) (v : lept_value) (r : parse_result), lept_size_le_capacity v →
      lept_parse_value strtod n json v = some r → lept_size_le_capacity r.2.1) ∧
    (∀ (json : List Nat) (v : lept_value) (r : parse_result), lept_size_le_capacity v →
      lept_parse_array strtod n json v = some r → lept_size_le_capacity r.2.1) ∧
    (∀ (json : List Nat) (stack : List lept_value) (v : lept_value) (r : parse_result),
      lept_size_le_capacity v → (∀ x ∈ stack, lept_size_le_capacity x) →
      lept_parse_array_loop strtod n json stack v = some r → lept_size_le_capacity r.2.1) ∧
    (∀ (json : List Nat) (v : lept_value) (r : parse_result), lept_size_le_capacity v →
      lept_parse_object strtod n json v = some r → lept_size_le_capacity r.2.1) ∧
    (∀ (json : List Nat) (stack : List lept_member) (v : lept_value) (r : parse_result),
      lept_size_le_capacity v → (∀ a ∈ stack, lept_size_le_capacity a.2) →
      lept_parse_object_loop strtod n json stack v = some r → lept_size_le_capacity r.2.1) := by
  induction n with
  | zero =>
    refine ⟨?_, ?_, ?_, ?_, ?_⟩ <;> intros <;> rename_i h <;>
      first
        | exact absurd h (by simp [lept_parse_value])
        | exact absurd h (by simp [lept_parse_array])
        | exact absurd h (by simp [lept_parse_array_loop])
        | exact absurd h (by simp [lept_parse_object])
        | exact absurd h (by simp [lept_parse_object_loop])
  | succ n ih =>
    obtain ⟨ihv, iha, ihal, iho, ihol⟩ := ih
    refine ⟨?_, ?_, ?_, ?_, ?_⟩
    · intro json v r hv h
      simp only [lept_parse_value] at h
      refine of_ite_eq_some h (fun _ h => ?_) (fun _ h => ?_)
      · rw [← Option.some.inj h]; exact lept_parse_literal_size_le_capacity _ _ _ _ hv
      refine of_ite_eq_some h (fun _ h => ?_) (fun _ h => ?_)
      · rw [← Option.some.inj h]; exact lept_parse_literal_size_le_capacity _ _ _ _ hv
      refine of_ite_eq_some h (fun _ h => ?_) (fun _ h => ?_)
      · rw [← Option.some.inj h]; exact lept_parse_literal_size_le_capacity _ _ _ _ hv
      refine of_ite_eq_some h (fun _ h => ?_) (fun _ h => ?_)
      · exact lept_parse_string_size_le_capacity hv h
      refine of_ite_eq_some h (fun _ h => iha _ _ _ hv h) (fun _ h => ?_)
      refine of_ite_eq_some h (fun _ h => iho _ _ _ hv h) (fun _ h => ?_)
      refine of_ite_eq_some h (fun _ h => ?_) (fun _ h => ?_)
      · rw [← Option.some.inj h]; exact hv
      · rw [← Option.some.inj h]; exact lept_parse_number_size_le_capacity _ _ _ hv
    · intro json v r hv h
      simp only [lept_parse_array] at h
      refine of_ite_eq_some h (fun _ h => ?_) (fun _ h => ?_)
      · rw [← Option.some.inj h]
        simp [lept_set_array, lept_size_le_capacity, lept_size_le_capacity_array]
      · exact ihal _ _ _ _ hv (fun x hx => absurd hx (List.not_mem_nil _)) h
    · intro json stack v r hv hstack h
      simp only [lept_parse_array_loop] at h
      cases hx : lept_parse_value strtod n json jnull with
      | none => rw [hx] at h; exact absurd h (by simp)
      | some x =>
        obtain ⟨ret, e, json1⟩ := x
        rw [hx] at h
        have he : lept_size_le_capacity e := ihv _ jnull _ trivial hx
        have hstack1 : ∀ y ∈ stack ++ [e], lept_size_le_capacity y := by
          intro y hy
          rcases List.mem_append.mp hy with h1 | h1
          · exact hstack y h1
          · rw [List.mem_singleton.mp h1]; exact he
        simp only [] at h
        refine of_ite_eq_some h (fun _ h => ?_) (fun _ h => ?_)
        · rw [← Option.some.inj h]; exact hv
        refine of_ite_eq_some h (fun _ h => ihal _ _ _ _ hv hstack1 h) (fun _ h => ?_)
        refine of_ite_eq_some h (fun _ h => ?_) (fun _ h => ?_)
        · rw [← Option.some.inj h]
          simp only [lept_size_le_capacity]
          exact ⟨le_refl _, lept_size_le_capacity_array_of_forall hstack1⟩
        · rw [← Option.some.inj h]; exact hv
    · intro json v r hv h
      simp only [lept_parse_object] at h
      refine of_ite_eq_some h (fun _ h => ?_) (fun _ h => ?_)
      · rw [← Option.some.inj h]
        simp [lept_set_object, lept_size_le_capacity, lept_size_le_capacity_object]
      · exact ihol _ _ _ _ hv (fun x hx => absurd hx (List.not_mem_nil _)) h
    · intro json stack v r hv hstack h
      simp only [lept_parse_object_loop] at h
      refine of_ite_eq_some h (fun _ h => ?_) (fun _ h => ?_)
      · rw [← Option.some.inj h]; exact trivial
      cases hs : lept_parse_string_raw json with
      | none => rw [hs] at h; exact absurd h (by simp)
      | some x =>
        obtain ⟨ret, str, json1⟩ := x
        rw [hs] at h
        simp only [] at h
        refine of_ite_eq_some h (fun _ h => ?_) (fun _ h => ?_)
        · rw [← Option.some.inj h]; exact trivial
        refine of_ite_eq_some h (fun _ h => ?_) (fun _ h => ?_)
        · rw [← Option.some.inj h]; exact trivial
        cases hx : lept_parse_value strtod n
            (lept_parse_whitespace (lept_parse_whitespace json1).tail) jnull with
        | none => rw [hx] at h; exact absurd h (by simp)
        | some x =>
          obtain ⟨ret1, mv, json3⟩ := x
          rw [hx] at h
          have he : lept_size_le_capacity mv := ihv _ jnull _ trivial hx
          have hstack1 : ∀ a ∈ stack ++ [(str, mv)], lept_size_le_capacity a.2 := by
            intro y hy
            rcases List.mem_append.mp hy with h1 | h1
            · exact hstack y h1
            · rw [List.mem_singleton.mp h1]; exact he
          simp only [] at h
          refine of_ite_eq_some h (fun _ h => ?_) (fun _ h => ?_)
          · rw [← Option.some.inj h]; exact trivial
          refine of_ite_eq_some h (fun _ h => ihol _ _ _ _ hv hstack1 h) (fun _ h => ?_)
          refine of_ite_eq_some h (fun _ h => ?_) (fun _ h => ?_)
          · rw [← Option.some.inj h]
            simp only [lept_size_le_capacity]
            exact ⟨le_refl _, lept_size_le_capacity_object_of_forall hstack1⟩
          · rw [← Option.some.inj h]; exact trivial

/-- Every array and object in the value that `lept_parse` leaves has its size
within its capacity. -/
theorem lept_parse_size_le_capacity (strtod : List Nat → strtod_result) (json : List Nat) :
    ∃ ret v, lept_parse strtod json = some (ret, v) ∧ lept_size_le_capacity v := by
  obtain ⟨r, hr, -⟩ :=
    (lept_parse_value_fuel strtod (3 * json.length + 1)).1 (lept_parse_whitespace json) jnull
      (by have := lept_parse_whitespace_length json; omega)
  obtain ⟨ret, v, json1⟩ := r
  have hv : lept_size_le_capacity v :=
    (lept_parse_value_size_le_capacity strtod _).1 _ jnull _ trivial hr
  simp only [lept_parse, hr]
  by_cases h1 : ret = LEPT_PARSE_OK
  · rw [if_pos h1]
    by_cases h2 : peek (lept_parse_whitespace json1) ≠ 0
    · rw [if_pos h2]; exact ⟨_, _, rfl, trivial⟩
    · rw [if_neg h2]; exact ⟨_, _, rfl, hv⟩
  · rw [if_neg h1]; exact ⟨_, _, rfl, hv⟩

/-- C16: `size <= capacity` holds in every array that `lept_set_array`,
`lept_parse` or `lept_copy` produces, at any depth of the value; and an array
in which it holds keeps it under `lept_reserve_array`, `lept_shrink_array`,
`lept_clear_array`, `lept_pushback_array_element`,
`lept_popback_array_element`, `lept_insert_array_element` and
`lept_erase_array_element`, each called within its asserted precondition. If
it holds inside the elements too, it still does so after the call. -/
theorem lept_array_size_le_capacity (strtod : List Nat → strtod_result) (fuel : Nat)
    (es : List lept_value) (capacity : Nat) (hinv : es.length ≤ capacity) :
    (∀ v c, lept_size_le_capacity (lept_set_array v c)) ∧
    (∀ json, ∃ ret v, lept_parse strtod json = some (ret, v) ∧ lept_size_le_capacity v) ∧
    (∀ dst src, lept_depth src < fuel →
      ∃ x, lept_copy fuel dst src = some x ∧ lept_size_le_capacity x) ∧
    (∀ c, ∃ es1 c1, lept_reserve_array (jarray es capacity) c = some (jarray es1 c1) ∧
      es1.length ≤ c1 ∧
      (lept_size_le_capacity_array es → lept_size_le_capacity_array es1)) ∧
    (∃ es1 c1, lept_shrink_array (jarray es capacity) = some (jarray es1 c1) ∧
      es1.length ≤ c1 ∧
      (lept_size_le_capacity_array es → lept_size_le_capacity_array es1)) ∧
    (∃ es1 c1, lept_clear_array (jarray es capacity) = some (jarray es1 c1) ∧
      es1.length ≤ c1 ∧
      (lept_size_le_capacity_array es → lept_size_le_capacity_array es1)) ∧
    (∀ e, lept_depth e < fuel →
      ∃ es1 c1, lept_pushback_array_element fuel (jarray es capacity) e
          = some (jarray es1 c1) ∧
        es1.length ≤ c1 ∧
        (lept_size_le_capacity_array es → lept_size_le_capacity_array es1)) ∧
    (0 < es.length →
      ∃ es1 c1, lept_popback_array_element (jarray es capacity) = some (jarray es1 c1) ∧
        es1.length ≤ c1 ∧
        (lept_size_le_capacity_array es → lept_size_le_capacity_array es1)) ∧
    (∀ e index, lept_depth e < fuel → index ≤ es.length →
      ∃ es1 c1, lept_insert_array_element fuel (jarray es capacity) e index
          = some (jarray es1 c1) ∧
        es1.length ≤ c1 ∧
        (lept_size_le_capacity_array es → lept_size_le_capacity_array es1)) ∧
    (∀ index count, index + count ≤ es.length →
      ∃ es1 c1, lept_erase_array_element (jarray es capacity) index count
          = some (jarray es1 c1) ∧
        es1.length ≤ c1 ∧
        (lept_size_le_capacity_array es → lept_size_le_capacity_array es1)) := by
  have hmk : ∀ (es1 : List lept_value) (c1 : Nat), es1.length ≤ c1 →
      ((∀ y ∈ es, lept_size_le_capacity y) → ∀ y ∈ es1, lept_size_le_capacity y) →
      es1.length ≤ c1 ∧
        (lept_size_le_capacity_array es → lept_size_le_capacity_array es1) :=
    fun es1 c1 h1 h2 => ⟨h1, fun hes => lept_size_le_capacity_array_of_forall
      (h2 (fun y hy => lept_size_le_capacity_array_of_mem hes hy))⟩
  refine ⟨?_, lept_parse_size_le_capacity strtod, ?_, ?_, ?_, ?_, ?_, ?_, ?_, ?_⟩
  · intro v c
    simp [lept_set_array, lept_size_le_capacity, lept_size_le_capacity_array]
  · intro dst src hd
    obtain ⟨x, hx, -, hs⟩ := lept_copy_returns fuel src dst hd
    exact ⟨x, hx, hs⟩
  · intro c
    by_cases hc : capacity < c
    · exact ⟨es, c, by simp [lept_reserve_array, hc], hmk es c (by omega) (fun h => h)⟩
    · exact ⟨es, capacity, by simp [lept_reserve_array, hc], hmk es capacity hinv (fun h => h)⟩
  · by_cases hc : capacity > es.length
    · exact ⟨es, es.length, by simp [lept_shrink_array, hc], hmk es _ (le_refl _) (fun h => h)⟩
    · exact ⟨es, capacity, by simp [lept_shrink_array, hc], hmk es capacity hinv (fun h => h)⟩
  · have hclear : lept_clear_array (jarray es capacity) = _ :=
      lept_erase_array_element_eq es capacity 0 es.length (by omega)
    refine ⟨_, _, hclear, hmk _ _ ?_ ?_⟩
    · simp only [List.take_zero, List.nil_append, Nat.zero_add, List.drop_length,
        List.length_nil]
      exact Nat.zero_le _
    · intro _ y hy
      simp at hy
  · intro e hd
    obtain ⟨x, hx, -, hs⟩ := lept_copy_returns fuel e jnull hd
    refine ⟨_, _, lept_pushback_array_element_rec_eq (lept_copy fuel) es capacity e x hx,
      hmk _ _ ?_ ?_⟩
    · simp only [List.length_append, List.length_singleton]
      split_ifs <;> omega
    · intro hmem y hy
      rcases List.mem_append.mp hy with h | h
      · exact hmem y h
      · rw [List.mem_singleton.mp h]; exact hs
  · intro hpos
    obtain ⟨a, ha⟩ : ∃ a, es[es.length - 1]? = some a :=
      ⟨es[es.length - 1], List.getElem?_eq_getElem (by omega)⟩
    refine ⟨_, _, ?_, hmk ((es.set (es.length - 1) (lept_free a)).take (es.length - 1))
      capacity ?_ ?_⟩
    · simp only [lept_popback_array_element, gt_iff_lt, hpos, if_true, ha]
    · rw [List.length_take, List.length_set]
      omega
    · intro hmem y hy
      rcases List.mem_or_eq_of_mem_set (List.mem_of_mem_take hy) with h | h
      · exact hmem y h
      · rw [h]; exact trivial
  · intro e index hd hindex
    obtain ⟨x, hx, -, hs⟩ := lept_copy_returns fuel e jnull hd
    refine ⟨_, _, lept_insert_array_element_eq fuel es capacity e x index hx hindex,
      hmk _ _ ?_ ?_⟩
    · rw [List.length_append, List.length_cons, List.length_drop, List.length_take]
      split_ifs <;> omega
    · intro hmem y hy
      rcases List.mem_append.mp hy with h | h
      · exact hmem y (List.mem_of_mem_take h)
      · rcases List.mem_cons.mp h with h1 | h1
        · rw [h1]; exact hs
        · exact hmem y (List.mem_of_mem_drop h1)
  · intro index count hic
    refine ⟨_, _, lept_erase_array_element_eq es capacity index count hic, hmk _ _ ?_ ?_⟩
    · rw [List.length_append, List.length_drop, List.length_take]
      split_ifs <;> omega
    · intro hmem y hy
      rcases List.mem_append.mp hy with h | h
      · exact hmem y (List.mem_of_mem_take h)
      · exact hmem y (List.mem_of_mem_drop h)

theorem lept_array_size_le_capacity_witness :
    (∀ v c, lept_size_le_capacity (lept_set_array v c)) ∧
    (∀ json, ∃ ret v, lept_parse strtod_zero json = some (ret, v) ∧ lept_size_le_capacity v) ∧
    (∀ dst src, lept_depth src < 2 →
      ∃ x, lept_copy 2 dst src = some x ∧ lept_size_le_capacity x) ∧
    (∀ c, ∃ es1 c1, lept_reserve_array (jarray [jnull, jtrue] 2) c = some (jarray es1 c1) ∧
      es1.length ≤ c1 ∧
      (lept_size_le_capacity_array [jnull, jtrue] → lept_size_le_capacity_array es1)) ∧
    (∃ es1 c1, lept_shrink_array (jarray [jnull, jtrue] 2) = some (jarray es1 c1) ∧
      es1.length ≤ c1 ∧
      (lept_size_le_capacity_array [jnull, jtrue] → lept_size_le_capacity_array es1)) ∧
    (∃ es1 c1, lept_clear_array (jarray [jnull, jtrue] 2) = some (jarray es1 c1) ∧
      es1.length ≤ c1 ∧
      (lept_size_le_capacity_array [jnull, jtrue] → lept_size_le_capacity_array es1)) ∧
    (∀ e, lept_depth e < 2 →
      ∃ es1 c1, lept_pushback_array_element 2 (jarray [jnull, jtrue] 2) e
          = some (jarray es1 c1) ∧
        es1.length ≤ c1 ∧
        (lept_size_le_capacity_array [jnull, jtrue] → lept_size_le_capacity_array es1)) ∧
    (0 < [jnull, jtrue].length →
      ∃ es1 c1, lept_popback_array_element (jarray [jnull, jtrue] 2) = some (jarray es1 c1) ∧
        es1.length ≤ c1 ∧
        (lept_size_le_capacity_array [jnull, jtrue] → lept_size_le_capacity_array es1)) ∧
    (∀ e index, lept_depth e < 2 → index ≤ [jnull, jtrue].length →
      ∃ es1 c1, lept_insert_array_element 2 (jarray [jnull, jtrue] 2) e index
          = some (jarray es1 c1) ∧
        es1.length ≤ c1 ∧
        (lept_size_le_capacity_array [jnull, jtrue] → lept_size_le_capacity_array es1)) ∧
    (∀ index count, index + count ≤ [jnull, jtrue].length →
      ∃ es1 c1, lept_erase_array_element (jarray [jnull, jtrue] 2) index count
          = some (jarray es1 c1) ∧
        es1.length ≤ c1 ∧
        (lept_size_le_capacity_array [jnull, jtrue] → lept_size_le_capacity_array es1)) :=
  lept_array_size_le_capacity strtod_zero 2 [jnull, jtrue] 2 (by decide)

/-! ## C20: the escape policy of the serializer -/

/-- The loop of `lept_stringify_string` writes every byte by the escape
policy. -/
theorem lept_stringify_string_loop_escape (s : List Nat) :
    lept_stringify_string_loop s = s.flatMap json_escape_byte := by
  induction s with
  | nil => rfl
  | cons ch s ih =>
    have hhex : ch < 0x20 →
        hex_digits.getD (ch >>> 4) 0 = hex_digit_char true (ch / 16) ∧
        hex_digits.getD (ch &&& 15) 0 = hex_digit_char true (ch % 16) := by
      intro h
      interval_cases ch <;> exact ⟨rfl, rfl⟩
    simp only [lept_stringify_string_loop, List.flatMap_cons, json_escape_byte, ih]
    congr 1
    split_ifs with h1 h2 h3 h4 h5 h6 h7 h8
    all_goals first | rfl | skip
    rw [(hhex h8).1, (hhex h8).2]

/-- C20: the text written for a string, and for the key of a member, is a
double quote, the escape of every byte in order, and a double quote; the
escape of a byte is `\"` for the quote, `\\` for the backslash, `\b`, `\f`,
`\n`, `\r`, `\t` for `0x08`, `0x0C`, `0x0A`, `0x0D`, `0x09`, `\u00XX` with two
upper-case hex digits for any other byte below `0x20`, and the byte itself
for every other byte, among them `/`, `0x7F` and the bytes from `0x80`. -/
theorem lept_stringify_string_escapes (sprintf : Nat → List Nat) (s : List Nat) :
    lept_stringify_string s = [34] ++ s.flatMap json_escape_byte ++ [34] ∧
    lept_stringify_value sprintf (jstring s) = [34] ++ s.flatMap json_escape_byte ++ [34] ∧
    (∀ (v : lept_value) (ms : List lept_member) (i : Nat),
      lept_stringify_object_loop sprintf ((s, v) :: ms) i
        = (if i > 0 then [44] else []) ++ ([34] ++ s.flatMap json_escape_byte ++ [34]) ++ [58]
          ++ lept_stringify_value sprintf v ++ lept_stringify_object_loop sprintf ms (i + 1)) ∧
    json_escape_byte 34 = [92, 34] ∧ json_escape_byte 92 = [92, 92] ∧
    json_escape_byte 8 = [92, 98] ∧ json_escape_byte 12 = [92, 102] ∧
    json_escape_byte 10 = [92, 110] ∧ json_escape_byte 13 = [92, 114] ∧
    json_escape_byte 9 = [92, 116] ∧
    (∀ b, b < 0x20 → b ≠ 8 → b ≠ 12 → b ≠ 10 → b ≠ 13 → b ≠ 9 →
      json_escape_byte b = [92, 117, 48, 48, hex_digit_char true (b / 16),
        hex_digit_char true (b % 16)]) ∧
    (∀ b, 0x20 ≤ b → b ≠ 34 → b ≠ 92 → json_escape_byte b = [b]) ∧
    json_escape_byte 47 = [47] ∧ json_escape_byte 0x7F = [0x7F] ∧
    lept_stringify_string [34, 92, 47, 8, 12, 10, 13, 9, 0, 1, 31, 127, 128, 255]
      = [34, 92, 34, 92, 92, 47, 92, 98, 92, 102, 92, 110, 92, 114, 92, 116,
          92, 117, 48, 48, 48, 48, 92, 117, 48, 48, 48, 49, 92, 117, 48, 48, 49, 70,
          127, 128, 255, 34] := by
  have hs : lept_stringify_string s = [34] ++ s.flatMap json_escape_byte ++ [34] := by
    simp only [lept_stringify_string, lept_stringify_string_loop_escape]
  refine ⟨hs, ?_, ?_, rfl, rfl, rfl, rfl, rfl, rfl, rfl, ?_, ?_, rfl, rfl, by decide⟩
  · simp only [lept_stringify_value, hs]
  · intro v ms i
    simp only [lept_stringify_object_loop, hs]
  · intro b h1 h2 h3 h4 h5 h6
    simp only [json_escape_byte]
    split_ifs <;> first | omega | rfl
  · intro b h1 h2 h3
    simp only [json_escape_byte]
    split_ifs <;> first | omega | rfl

/-! ## C26: the round trip of a string -/

/-- C26: for every byte sequence `s`, the text that `lept_stringify` writes
for the String `s` parses with `LEPT_PARSE_OK` to the String `s`, with the
same length and the same bytes; so for a string of zero bytes, control bytes,
quotes, backslashes and bytes from `0x80`. -/
theorem lept_parse_stringify_string (strtod : List Nat → strtod_result)
    (sprintf : Nat → List Nat) (s : List Nat) :
    lept_parse strtod (lept_stringify sprintf (jstring s)).1 = some (LEPT_PARSE_OK, jstring s) ∧
    (∀ s1, lept_parse strtod (lept_stringify sprintf (jstring s)).1
        = some (LEPT_PARSE_OK, jstring s1) → s1.length = s.length ∧ s1 = s) ∧
    lept_stringify sprintf (jstring [0, 31, 34, 92, 47, 127, 128, 255])
      = ([34, 92, 117, 48, 48, 48, 48, 92, 117, 48, 48, 49, 70, 92, 34, 92, 92, 47, 127, 128,
          255, 34], 22) ∧
    lept_parse strtod [34, 92, 117, 48, 48, 48, 48, 92, 117, 48, 48, 49, 70, 92, 34, 92, 92, 47,
        127, 128, 255, 34]
      = some (LEPT_PARSE_OK, jstring [0, 31, 34, 92, 47, 127, 128, 255]) := by
  have hroot : lept_parse_value strtod 1
      (lept_parse_whitespace (lept_stringify sprintf (jstring s)).1) jnull
      = some (LEPT_PARSE_OK, jstring s, []) := by
    have hw : lept_parse_whitespace (lept_stringify sprintf (jstring s)).1
        = lept_stringify_string s ++ [] := by
      rw [List.append_nil]
      exact lept_parse_whitespace_of_peek (by simp [lept_stringify, lept_stringify_value,
        lept_stringify_string, peek]) (by simp [lept_stringify, lept_stringify_value,
        lept_stringify_string, peek]) (by simp [lept_stringify, lept_stringify_value,
        lept_stringify_string, peek])
    rw [hw]
    exact lept_parse_value_string strtod 0 s [] jnull
  have h := lept_parse_of_value strtod 1 hroot
  rw [if_pos rfl, if_neg (by simp [lept_parse_whitespace, peek])] at h
  refine ⟨h, fun s1 h1 => ?_, rfl, rfl⟩
  rw [h] at h1
  have : s = s1 := by
    simpa using h1
  subst this
  exact ⟨rfl, rfl⟩

/-! ## C23: moving a value -/

/-- C23: after `lept_move(dst, src)` the type of `src` is `LEPT_NULL`, and
`dst` is the value that `src` was before the call, with its type and its
payload, whatever `dst` was. -/
theorem lept_move_moves (dst src : lept_value) :
    lept_get_type (lept_move dst src).2 = LEPT_NULL ∧ (lept_move dst src).1 = src ∧
    lept_get_type (lept_move dst src).1 = lept_get_type src :=
  ⟨rfl, rfl, rfl⟩

/-! ## C24: the UTF-8 encoder -/

theorem and_0x3F_eq_mod (x : Nat) : x &&& 0x3F = x % 64 := by
  have := Nat.and_pow_two_sub_one_eq_mod x 6
  simpa using this

/-- A continuation byte: its value, its marker and its payload. -/
theorem utf8_continuation (x : Nat) :
    0x80 ||| (x &&& 0x3F) = 128 + x % 64 ∧ (128 + x % 64) &&& 0xC0 = 0x80 ∧
      (128 + x % 64) &&& 0x3F = x % 64 := by
  rw [and_0x3F_eq_mod]
  have h : x % 64 < 64 := Nat.mod_lt _ (by decide)
  generalize x % 64 = k at h
  interval_cases k <;> exact ⟨rfl, rfl, rfl⟩

/-- The lead byte of two bytes. -/
theorem utf8_lead2 (y : Nat) (h : y < 32) :
    (0xC0 ||| (y &&& 0xFF)) % 256 = 0xC0 ||| y ∧ 0xC0 ||| y = 192 + y ∧
      (192 + y) &&& 0xE0 = 0xC0 ∧ (192 + y) &&& 0x1F = y := by
  interval_cases y <;> exact ⟨rfl, rfl, rfl, rfl⟩

/-- The lead byte of three bytes. -/
theorem utf8_lead3 (y : Nat) (h : y < 16) :
    (0xE0 ||| (y &&& 0xFF)) % 256 = 0xE0 ||| y ∧ 0xE0 ||| y = 224 + y ∧
      (224 + y) &&& 0xF0 = 0xE0 ∧ (224 + y) &&& 0x0F = y := by
  interval_cases y <;> exact ⟨rfl, rfl, rfl, rfl⟩

/-- The lead byte of four bytes. -/
theorem utf8_lead4 (y : Nat) (h : y < 8) :
    0xF0 ||| y = 240 + y ∧ (240 + y) &&& 0xF8 = 0xF0 ∧ (240 + y) &&& 0x07 = y := by
  interval_cases y <;> exact ⟨rfl, rfl, rfl⟩

/-- The two bytes that `lept_encode_utf8` pushes for a code point from `0x80`
to `0x7FF`. -/
theorem lept_encode_utf8_two (st : List Nat) (u : Nat) (h1 : 0x7F < u) (h2 : u ≤ 0x7FF) :
    lept_encode_utf8 st u = st ++ [0xC0 ||| (u >>> 6), 0x80 ||| (u &&& 0x3F)] := by
  have hk : u >>> 6 < 32 := by
    rw [Nat.shiftRight_eq_div_pow]
    exact Nat.div_lt_of_lt_mul (by omega)
  simp only [lept_encode_utf8, PUTC]
  rw [if_neg (by omega), if_pos h2, (utf8_lead2 _ hk).1, or_0x80_mod]
  simp

/-- The three bytes that `lept_encode_utf8` pushes for a code point from
`0x800` to `0xFFFF`. -/
theorem lept_encode_utf8_three (st : List Nat) (u : Nat) (h1 : 0x7FF < u) (h2 : u ≤ 0xFFFF) :
    lept_encode_utf8 st u
      = st ++ [0xE0 ||| (u >>> 12), 0x80 ||| ((u >>> 6) &&& 0x3F), 0x80 ||| (u &&& 0x3F)] := by
  have hk : u >>> 12 < 16 := by
    rw [Nat.shiftRight_eq_div_pow]
    exact Nat.div_lt_of_lt_mul (by omega)
  simp only [lept_encode_utf8, PUTC]
  rw [if_neg (by omega), if_neg (by omega), if_pos h2, (utf8_lead3 _ hk).1, or_0x80_mod,
    or_0x80_mod]
  simp

theorem shift_or_eq (a b i : Nat) (h : b < 2 ^ i) : (a <<< i) ||| b = 2 ^ i * a + b := by
  rw [Nat.shiftLeft_eq, Nat.mul_comm]
  exact (Nat.mul_add_lt_is_or h a).symm

/-- C24: for a code point `u` up to `0x10FFFF`, `lept_encode_utf8` appends 1
byte `u` when `u <= 0x7F`, the 2 bytes `0xC0 | u>>6`, `0x80 | u&0x3F` when
`u <= 0x7FF`, the 3 bytes `0xE0 | u>>12`, `0x80 | (u>>6)&0x3F`, `0x80 | u&0x3F`
when `u <= 0xFFFF`, and the 4 bytes `0xF0 | u>>18`, `0x80 | (u>>12)&0x3F`,
`0x80 | (u>>6)&0x3F`, `0x80 | u&0x3F` otherwise; each of them fits in one
byte, and decoding them by the bit layout of UTF-8 gives `u`. -/
theorem lept_encode_utf8_layout (st : List Nat) (u : Nat) (hu : u ≤ 0x10FFFF) :
    ∃ bytes, lept_encode_utf8 st u = st ++ bytes ∧
      bytes = (if u ≤ 0x7F then [u]
        else if u ≤ 0x7FF then [0xC0 ||| (u >>> 6), 0x80 ||| (u &&& 0x3F)]
        else if u ≤ 0xFFFF then
          [0xE0 ||| (u >>> 12), 0x80 ||| ((u >>> 6) &&& 0x3F), 0x80 ||| (u &&& 0x3F)]
        else [0xF0 ||| (u >>> 18), 0x80 ||| ((u >>> 12) &&& 0x3F),
          0x80 ||| ((u >>> 6) &&& 0x3F), 0x80 ||| (u &&& 0x3F)]) ∧
      bytes.length = (if u ≤ 0x7F then 1 else if u ≤ 0x7FF then 2
        else if u ≤ 0xFFFF then 3 else 4) ∧
      (∀ b ∈ bytes, b < 256) ∧ utf8_decode bytes = some u := by
  have h6 : u >>> 6 = u / 64 := Nat.shiftRight_eq_div_pow u 6
  have h12 : u >>> 12 = u / 4096 := Nat.shiftRight_eq_div_pow u 12
  have h18 : u >>> 18 = u / 262144 := Nat.shiftRight_eq_div_pow u 18
  have c0 := utf8_continuation u
  have c6 := utf8_continuation (u >>> 6)
  have c12 := utf8_continuation (u >>> 12)
  by_cases k1 : u ≤ 0x7F
  · refine ⟨[u], lept_encode_utf8_one st u k1, by rw [if_pos k1], by rw [if_pos k1]; rfl,
      ?_, ?_⟩
    · intro b hb
      rw [List.mem_singleton.mp hb]
      omega
    · have : u &&& 0x80 = 0 := by
        interval_cases u <;> rfl
      simp only [utf8_decode, this, if_true]
  by_cases k2 : u ≤ 0x7FF
  · have hy : u / 64 < 32 := by omega
    obtain ⟨-, l2, l3, l4⟩ := utf8_lead2 (u / 64) hy
    refine ⟨_, lept_encode_utf8_two st u (by omega) k2, by rw [if_neg k1, if_pos k2],
      by rw [if_neg k1, if_pos k2]; rfl, ?_, ?_⟩
    · intro b hb
      rw [h6, l2, c0.1] at hb
      simp only [List.mem_cons, List.mem_singleton, List.not_mem_nil, or_false] at hb
      omega
    · rw [h6, l2, c0.1]
      simp only [utf8_decode, l3, c0.2.1, and_self, if_true, l4, c0.2.2]
      rw [shift_or_eq _ _ 6 (by omega)]
      congr 1
      omega
  by_cases k3 : u ≤ 0xFFFF
  · have hy : u / 4096 < 16 := by omega
    obtain ⟨-, l2, l3, l4⟩ := utf8_lead3 (u / 4096) hy
    rw [h6] at c6
    refine ⟨_, lept_encode_utf8_three st u (by omega) k3,
      by rw [if_neg k1, if_neg k2, if_pos k3], by rw [if_neg k1, if_neg k2, if_pos k3]; rfl,
      ?_, ?_⟩
    · intro b hb
      rw [h12, h6, l2, c0.1, c6.1] at hb
      simp only [List.mem_cons, List.mem_singleton, List.not_mem_nil, or_false] at hb
      omega
    · rw [h12, h6, l2, c0.1, c6.1]
      simp only [utf8_decode, l3, c0.2.1, c6.2.1, and_self, if_true, l4, c0.2.2, c6.2.2]
      rw [Nat.shiftLeft_eq (u / 64 % 64) 6, shift_or_eq _ _ 12 (by omega),
        show 2 ^ 12 * (u / 4096) + u / 64 % 64 * 2 ^ 6
          = 2 ^ 6 * (64 * (u / 4096) + u / 64 % 64) by omega,
        ← Nat.mul_add_lt_is_or (show u % 64 < 2 ^ 6 by omega)]
      congr 1
      omega
  · have hy : u / 262144 < 8 := by omega
    obtain ⟨l2, l3, l4⟩ := utf8_lead4 (u / 262144) hy
    rw [h6] at c6
    rw [h12] at c12
    refine ⟨_, lept_encode_utf8_four st u (by omega) hu,
      by rw [if_neg k1, if_neg k2, if_neg k3], by rw [if_neg k1, if_neg k2, if_neg k3]; rfl,
      ?_, ?_⟩
    · intro b hb
      rw [h18, h12, h6, l2, c0.1, c6.1, c12.1] at hb
      simp only [List.mem_cons, List.mem_singleton, List.not_mem_nil, or_false] at hb
      omega
    · rw [h18, h12, h6, l2, c0.1, c6.1, c12.1]
      simp only [utf8_decode, l3, c0.2.1, c6.2.1, c12.2.1, and_self, if_true, l4, c0.2.2,
        c6.2.2, c12.2.2]
      rw [Nat.shiftLeft_eq (u / 64 % 64) 6, Nat.shiftLeft_eq (u / 4096 % 64) 12,
        shift_or_eq _ _ 18 (by omega),
        show 2 ^ 18 * (u / 262144) + u / 4096 % 64 * 2 ^ 12
          = 2 ^ 12 * (64 * (u / 262144) + u / 4096 % 64) by omega,
        ← Nat.mul_add_lt_is_or (show u / 64 % 64 * 2 ^ 6 < 2 ^ 12 by omega),
        show 2 ^ 12 * (64 * (u / 262144) + u / 4096 % 64) + u / 64 % 64 * 2 ^ 6
          = 2 ^ 6 * (64 * (64 * (u / 262144) + u / 4096 % 64) + u / 64 % 64) by omega,
        ← Nat.mul_add_lt_is_or (show u % 64 < 2 ^ 6 by omega)]
      congr 1
      omega

theorem lept_encode_utf8_layout_witness :
    lept_encode_utf8 [] 0x1D11E = [0xF0, 0x9D, 0x84, 0x9E] ∧
    lept_encode_utf8 [] 0x20AC = [0xE2, 0x82, 0xAC] ∧
    lept_encode_utf8 [] 0xE9 = [0xC3, 0xA9] ∧
    utf8_decode [0xF0, 0x9D, 0x84, 0x9E] = some 0x1D11E ∧
    ∃ bytes, lept_encode_utf8 [] 0x20AC = [] ++ bytes ∧
      bytes = (if 0x20AC ≤ 0x7F then [0x20AC]
        else if 0x20AC ≤ 0x7FF then [0xC0 ||| (0x20AC >>> 6), 0x80 ||| (0x20AC &&& 0x3F)]
        else if 0x20AC ≤ 0xFFFF then
          [0xE0 ||| (0x20AC >>> 12), 0x80 ||| ((0x20AC >>> 6) &&& 0x3F),
            0x80 ||| (0x20AC &&& 0x3F)]
        else [0xF0 ||| (0x20AC >>> 18), 0x80 ||| ((0x20AC >>> 12) &&& 0x3F),
          0x80 ||| ((0x20AC >>> 6) &&& 0x3F), 0x80 ||| (0x20AC &&& 0x3F)]) ∧
      bytes.length = (if 0x20AC ≤ 0x7F then 1 else if 0x20AC ≤ 0x7FF then 2
        else if 0x20AC ≤ 0xFFFF then 3 else 4) ∧
      (∀ b ∈ bytes, b < 256) ∧ utf8_decode bytes = some 0x20AC :=
  ⟨by decide, by decide, by decide, by decide, lept_encode_utf8_layout [] 0x20AC (by decide)⟩

/-! ## C25: pushing on the byte stack -/

theorem stack_growth_succ (s0 k : Nat) :
    stack_growth s0 (k + 1) = stack_growth (s0 + s0 / 2) k := by
  induction k with
  | zero => rfl
  | succ k ih =>
    rw [stack_growth, ih]
    rfl

/-- From a size of at least 2 the loop of `lept_context_push` ends, at the
first element of the growth sequence that is above `need`. -/
theorem lept_context_push_loop_first (fuel : Nat) :
    ∀ (need size : Nat), 2 ≤ size → need + 2 ≤ fuel + size → 0 < fuel →
      ∃ k, lept_context_push_loop fuel need size = some (stack_growth size k) ∧
        need < stack_growth size k ∧ ∀ j, j < k → stack_growth size j ≤ need := by
  induction fuel with
  | zero => intro need size _ _ h; omega
  | succ f ih =>
    intro need size h2 hf _
    simp only [lept_context_push_loop]
    by_cases hc : need ≥ size
    · rw [if_pos hc, Nat.shiftRight_eq_div_pow, Nat.pow_one]
      have hg : size + 1 ≤ size + size / 2 := by omega
      obtain ⟨k, hk, hlt, hmin⟩ := ih need (size + size / 2) (by omega) (by omega) (by omega)
      refine ⟨k + 1, by rw [stack_growth_succ]; exact hk, by rw [stack_growth_succ]; exact hlt,
        fun j hj => ?_⟩
      cases j with
      | zero => exact hc
      | succ j =>
        rw [stack_growth_succ]
        exact hmin j (by omega)
    · rw [if_neg hc]
      exact ⟨0, rfl, by simp only [stack_growth]; omega, fun j hj => absurd hj (Nat.not_lt_zero j)⟩

/-- C25: for a stack whose size is 0 or at least 2 and for `n > 0`,
`lept_context_push` returns (with fuel above `top + n + 1` for its loop) the
region at the old offset `top`, sets `top` to the old `top + n` and leaves
`top <= size`; the size is unchanged when the old `top + n` is below the old
size, and otherwise it is the first element of the sequence
`s -> s + floor(s / 2)`, which starts at the old size, or at 256 if the old
size was 0, that is strictly greater than the old `top + n`. -/
theorem lept_context_push_grows (c : lept_context) (n fuel : Nat)
    (hsize : c.size = 0 ∨ 2 ≤ c.size) (hn : 0 < n) (hfuel : c.top + n + 2 ≤ fuel) :
    ∃ c1, lept_context_push fuel c n = some (c.top, c1) ∧ c1.top = c.top + n ∧
      c1.top ≤ c1.size ∧ (c.top + n < c.size → c1.size = c.size) ∧
      (c.size ≤ c.top + n →
        ∃ k, c1.size = stack_growth (if c.size = 0 then 256 else c.size) k ∧
          c.top + n < stack_growth (if c.size = 0 then 256 else c.size) k ∧
          ∀ j, j < k → stack_growth (if c.size = 0 then 256 else c.size) j ≤ c.top + n) := by
  by_cases hc : c.top + n ≥ c.size
  · obtain ⟨k, hk, hlt, hmin⟩ := lept_context_push_loop_first fuel (c.top + n)
      (if c.size = 0 then 256 else c.size) (by split_ifs <;> omega) (by omega) (by omega)
    refine ⟨⟨stack_growth (if c.size = 0 then 256 else c.size) k, c.top + n⟩, ?_, rfl,
      Nat.le_of_lt hlt, fun h => absurd h (by omega), fun _ => ⟨k, rfl, hlt, hmin⟩⟩
    simp only [lept_context_push, gt_iff_lt, hn, if_true, if_pos hc, LEPT_PARSE_STACK_INIT_SIZE,
      hk]
  · refine ⟨⟨c.size, c.top + n⟩, ?_, rfl, by simp only; omega, fun _ => rfl,
      fun h => absurd h (by omega)⟩
    simp only [lept_context_push, gt_iff_lt, hn, if_true, if_neg hc]

theorem lept_context_push_grows_witness :
    lept_context_push 400 ⟨0, 0⟩ 300 = some (0, ⟨384, 300⟩) ∧
    lept_context_push 400 ⟨256, 250⟩ 6 = some (250, ⟨384, 256⟩) ∧
    lept_context_push 400 ⟨256, 250⟩ 5 = some (250, ⟨256, 255⟩) ∧
    ∃ c1, lept_context_push 400 ⟨0, 0⟩ 300 = some ((⟨0, 0⟩ : lept_context).top, c1) ∧
      c1.top = (⟨0, 0⟩ : lept_context).top + 300 ∧
      c1.top ≤ c1.size ∧
      ((⟨0, 0⟩ : lept_context).top + 300 < (⟨0, 0⟩ : lept_context).size →
        c1.size = (⟨0, 0⟩ : lept_context).size) ∧
      ((⟨0, 0⟩ : lept_context).size ≤ (⟨0, 0⟩ : lept_context).top + 300 →
        ∃ k, c1.size = stack_growth (if (⟨0, 0⟩ : lept_context).size = 0 then 256
              else (⟨0, 0⟩ : lept_context).size) k ∧
          (⟨0, 0⟩ : lept_context).top + 300 < stack_growth
            (if (⟨0, 0⟩ : lept_context).size = 0 then 256
              else (⟨0, 0⟩ : lept_context).size) k ∧
          ∀ j, j < k → stack_growth (if (⟨0, 0⟩ : lept_context).size = 0 then 256
              else (⟨0, 0⟩ : lept_context).size) j ≤ (⟨0, 0⟩ : lept_context).top + 300) :=
  ⟨rfl, rfl, rfl,
    lept_context_push_grows ⟨0, 0⟩ 300 400 (Or.inl rfl) (by decide) (by decide)⟩

/-! ## C21: the compact text -/

theorem intercalate_comma_cons (x : List Nat) (xs : List (List Nat)) :
    List.intercalate [44] (x :: xs) = x ++ (xs.map (fun y => 44 :: y)).flatten := by
  induction xs generalizing x with
  | nil => simp [List.intercalate]
  | cons y ys ih =>
    have h := ih y
    simp only [List.intercalate, List.intersperse_cons_cons, List.flatten_cons] at h ⊢
    rw [h]
    simp

theorem lept_stringify_array_loop_commas (sprintf : Nat → List Nat) (es : List lept_value) :
    ∀ i, lept_stringify_array_loop sprintf es (i + 1)
      = (es.map (fun e => 44 :: lept_stringify_value sprintf e)).flatten := by
  induction es with
  | nil => intro i; rfl
  | cons e es ih =>
    intro i
    simp only [lept_stringify_array_loop, ih, List.map_cons, List.flatten_cons]
    simp

theorem lept_stringify_object_loop_commas (sprintf : Nat → List Nat) (m : List lept_member) :
    ∀ i, lept_stringify_object_loop sprintf m (i + 1)
      = (m.map (fun a => 44 :: (lept_stringify_string a.1 ++ [58]
          ++ lept_stringify_value sprintf a.2))).flatten := by
  induction m with
  | nil => intro i; rfl
  | cons a ms ih =>
    intro i
    obtain ⟨k, v⟩ := a
    simp only [lept_stringify_object_loop, ih, List.map_cons, List.flatten_cons]
    simp

/-- The text of an array: the texts of the elements between brackets,
separated by single commas. -/
theorem lept_stringify_value_array (sprintf : Nat → List Nat) (es : List lept_value)
    (c : Nat) :
    lept_stringify_value sprintf (jarray es c)
      = [91] ++ List.intercalate [44] (es.map (lept_stringify_value sprintf)) ++ [93] := by
  cases es with
  | nil => rfl
  | cons e es =>
    simp only [lept_stringify_value, lept_stringify_array_loop, List.map_cons,
      intercalate_comma_cons, lept_stringify_array_loop_commas, List.map_map]
    simp [Function.comp_def]

/-- The text of an object: the texts of the members between braces, separated
by single commas, each of them the text of the key, a colon and the text of
the value. -/
theorem lept_stringify_value_object (sprintf : Nat → List Nat) (m : List lept_member)
    (c : Nat) :
    lept_stringify_value sprintf (jobject m c)
      = [123] ++ List.intercalate [44] (m.map (fun a => lept_stringify_string a.1 ++ [58]
          ++ lept_stringify_value sprintf a.2)) ++ [125] := by
  cases m with
  | nil => rfl
  | cons a ms =>
    obtain ⟨k, v⟩ := a
    simp only [lept_stringify_value, lept_stringify_object_loop, List.map_cons,
      intercalate_comma_cons, lept_stringify_object_loop_commas, List.map_map]
    simp [Function.comp_def]

/-- A byte of whitespace in the escape of a byte is a space that was the
byte itself. -/
theorem json_escape_byte_whitespace {c b : Nat} (hb : b ∈ json_escape_byte c)
    (hw : is_json_whitespace b) : b = 32 ∧ c = 32 := by
  have hx : ∀ d, 48 ≤ hex_digit_char true d := by
    intro d
    simp only [hex_digit_char, if_true]
    split_ifs <;> omega
  have h1 := hx (c / 16)
  have h2 := hx (c % 16)
  simp only [is_json_whitespace] at hw
  simp only [json_escape_byte] at hb
  split_ifs at hb <;>
    simp only [List.mem_cons, List.mem_singleton, List.not_mem_nil, or_false] at hb <;> omega

/-- A byte of whitespace in the text of a string is a space of the string. -/
theorem lept_stringify_string_whitespace {s : List Nat} {b : Nat}
    (hb : b ∈ lept_stringify_string s) (hw : is_json_whitespace b) : b = 32 ∧ 32 ∈ s := by
  simp only [lept_stringify_string, lept_stringify_string_loop_escape, List.mem_append,
    List.mem_singleton, List.mem_flatMap] at hb
  rcases hb with (h | ⟨c, hc, hbc⟩) | h
  · simp only [is_json_whitespace] at hw; omega
  · obtain ⟨e1, e2⟩ := json_escape_byte_whitespace hbc hw
    exact ⟨e1, e2 ▸ hc⟩
  · simp only [is_json_whitespace] at hw; omega

mutual

/-- A byte of whitespace in the text of a value is a space of a string or of
a key of the value, when `sprintf` writes no whitespace for its numbers. -/
theorem lept_stringify_value_whitespace (sprintf : Nat → List Nat) :
    ∀ (v : lept_value), (∀ n ∈ lept_numbers v, ∀ b ∈ sprintf n, ¬ is_json_whitespace b) →
      ∀ b ∈ lept_stringify_value sprintf v, is_json_whitespace b →
        b = 32 ∧ ∃ s ∈ lept_strings v, 32 ∈ s
  | jnull, _, b, hb, hw => by
    simp only [lept_stringify_value, List.mem_cons, List.mem_singleton, List.not_mem_nil,
      or_false] at hb
    simp only [is_json_whitespace] at hw
    omega
  | jfalse, _, b, hb, hw => by
    simp only [lept_stringify_value, List.mem_cons, List.mem_singleton, List.not_mem_nil,
      or_false] at hb
    simp only [is_json_whitespace] at hw
    omega
  | jtrue, _, b, hb, hw => by
    simp only [lept_stringify_value, List.mem_cons, List.mem_singleton, List.not_mem_nil,
      or_false] at hb
    simp only [is_json_whitespace] at hw
    omega
  | jnumber n, hn, b, hb, hw => by
    simp only [lept_stringify_value] at hb
    exact absurd hw (hn n (by simp [lept_numbers]) b hb)
  | jstring s, _, b, hb, hw => by
    simp only [lept_stringify_value] at hb
    obtain ⟨e1, e2⟩ := lept_stringify_string_whitespace hb hw
    exact ⟨e1, s, by simp [lept_strings], e2⟩
  | jarray e _, hn, b, hb, hw => by
    simp only [lept_stringify_value, List.mem_append, List.mem_singleton] at hb
    rcases hb with (h | h) | h
    · simp only [is_json_whitespace] at hw; omega
    · exact lept_stringify_array_loop_whitespace sprintf e 0
        (by simpa [lept_numbers] using hn) b h hw
    · simp only [is_json_whitespace] at hw; omega
  | jobject m _, hn, b, hb, hw => by
    simp only [lept_stringify_value, List.mem_append, List.mem_singleton] at hb
    rcases hb with (h | h) | h
    · simp only [is_json_whitespace] at hw; omega
    · exact lept_stringify_object_loop_whitespace sprintf m 0
        (by simpa [lept_numbers] using hn) b h hw
    · simp only [is_json_whitespace] at hw; omega

theorem lept_stringify_array_loop_whitespace (sprintf : Nat → List Nat) :
    ∀ (es : List lept_value) (i : Nat),
      (∀ n ∈ lept_numbers_array es, ∀ b ∈ sprintf n, ¬ is_json_whitespace b) →
      ∀ b ∈ lept_stringify_array_loop sprintf es i, is_json_whitespace b →
        b = 32 ∧ ∃ s ∈ lept_strings_array es, 32 ∈ s
  | [], _, _, b, hb, _ => by
    simp [lept_stringify_array_loop] at hb
  | e :: es, i, hn, b, hb, hw => by
    simp only [lept_numbers_array, List.mem_append] at hn
    simp only [lept_stringify_array_loop, List.mem_append] at hb
    rcases hb with (h | h) | h
    · have : b = 44 := by
        split_ifs at h
        · simpa using h
        · simp at h
      simp only [is_json_whitespace] at hw
      omega
    · obtain ⟨e1, s, hs, h32⟩ := lept_stringify_value_whitespace sprintf e
        (fun n h1 => hn n (Or.inl h1)) b h hw
      exact ⟨e1, s, by simp only [lept_strings_array, List.mem_append]; exact Or.inl hs, h32⟩
    · obtain ⟨e1, s, hs, h32⟩ := lept_stringify_array_loop_whitespace sprintf es (i + 1)
        (fun n h1 => hn n (Or.inr h1)) b h hw
      exact ⟨e1, s, by simp only [lept_strings_array, List.mem_append]; exact Or.inr hs, h32⟩

theorem lept_stringify_object_loop_whitespace (sprintf : Nat → List Nat) :
    ∀ (m : List lept_member) (i : Nat),
      (∀ n ∈ lept_numbers_object m, ∀ b ∈ sprintf n, ¬ is_json_whitespace b) →
      ∀ b ∈ lept_stringify_object_loop sprintf m i, is_json_whitespace b →
        b = 32 ∧ ∃ s ∈ lept_strings_object m, 32 ∈ s
  | [], _, _, b, hb, _ => by
    simp [lept_stringify_object_loop] at hb
  | (k, v) :: ms, i, hn, b, hb, hw => by
    simp only [lept_numbers_object, List.mem_append] at hn
    simp only [lept_stringify_object_loop, List.mem_append, List.mem_singleton] at hb
    rcases hb with (((h | h) | h) | h) | h
    · have : b = 44 := by
        split_ifs at h
        · simpa using h
        · simp at h
      simp only [is_json_whitespace] at hw
      omega
    · obtain ⟨e1, e2⟩ := lept_stringify_string_whitespace h hw
      exact ⟨e1, k, by simp [lept_strings_object], e2⟩
    · simp only [is_json_whitespace] at hw; omega
    · obtain ⟨e1, s, hs, h32⟩ := lept_stringify_value_whitespace sprintf v
        (fun n h1 => hn n (Or.inl h1)) b h hw
      exact ⟨e1, s, by
        simp only [lept_strings_object, List.mem_cons, List.mem_append]
        exact Or.inr (Or.inl hs), h32⟩
    · obtain ⟨e1, s, hs, h32⟩ := lept_stringify_object_loop_whitespace sprintf ms (i + 1)
        (fun n h1 => hn n (Or.inr h1)) b h hw
      exact ⟨e1, s, by
        simp only [lept_strings_object, List.mem_cons, List.mem_append]
        exact Or.inr (Or.inr hs), h32⟩

end

/-- The loop of `lept_stringify_string` writes at most six bytes for a
byte. -/
theorem lept_stringify_string_loop_length_le (s : List Nat) :
    (lept_stringify_string_loop s).length ≤ s.length * 6 := by
  induction s with
  | nil => simp [lept_stringify_string_loop]
  | cons ch s ih =>
    have h : (json_escape_byte ch).length ≤ 6 := by
      simp only [json_escape_byte]
      split_ifs <;> simp
    rw [lept_stringify_string_loop_escape] at ih ⊢
    simp only [List.flatMap_cons, List.length_append, List.length_cons]
    omega

/-- The string writer leaves `top` advanced by the bytes it wrote. -/
theorem lept_stringify_string_top_eq (top : Nat) (s : List Nat) :
    lept_stringify_string_top top s = top + (lept_stringify_string s).length := by
  have h := lept_stringify_string_loop_length_le s
  simp only [lept_stringify_string_top, lept_stringify_string, List.length_append,
    List.length_singleton]
  omega

mutual

/-- The serializer leaves `top` advanced by the bytes it wrote, when
`sprintf` writes at most 32 bytes for a number. -/
theorem lept_stringify_value_top_eq (sprintf : Nat → List Nat) :
    ∀ (v : lept_value) (top : Nat), (∀ n ∈ lept_numbers v, (sprintf n).length ≤ 32) →
      lept_stringify_value_top sprintf v top = top + (lept_stringify_value sprintf v).length
  | jnull, _, _ => rfl
  | jfalse, _, _ => rfl
  | jtrue, _, _ => rfl
  | jnumber n, top, hn => by
    have := hn n (by simp [lept_numbers])
    simp only [lept_stringify_value_top, lept_stringify_value]
    omega
  | jstring s, top, _ => by
    simp only [lept_stringify_value_top, lept_stringify_value, lept_stringify_string_top_eq]
  | jarray e _, top, hn => by
    simp only [lept_stringify_value_top, lept_stringify_value,
      lept_stringify_array_loop_top_eq sprintf e 0 (top + 1) (by simpa [lept_numbers] using hn),
      List.length_append, List.length_singleton]
    omega
  | jobject m _, top, hn => by
    simp only [lept_stringify_value_top, lept_stringify_value,
      lept_stringify_object_loop_top_eq sprintf m 0 (top + 1)
        (by simpa [lept_numbers] using hn),
      List.length_append, List.length_singleton]
    omega

theorem lept_stringify_array_loop_top_eq (sprintf : Nat → List Nat) :
    ∀ (es : List lept_value) (i top : Nat),
      (∀ n ∈ lept_numbers_array es, (sprintf n).length ≤ 32) →
      lept_stringify_array_loop_top sprintf es i top
        = top + (lept_stringify_array_loop sprintf es i).length
  | [], _, _, _ => rfl
  | e :: es, i, top, hn => by
    simp only [lept_numbers_array, List.mem_append] at hn
    simp only [lept_stringify_array_loop_top, lept_stringify_array_loop,
      lept_stringify_array_loop_top_eq sprintf es (i + 1) _ (fun n h => hn n (Or.inr h)),
      lept_stringify_value_top_eq sprintf e _ (fun n h => hn n (Or.inl h)),
      List.length_append]
    split_ifs <;> simp <;> omega

theorem lept_stringify_object_loop_top_eq (sprintf : Nat → List Nat) :
    ∀ (m : List lept_member) (i top : Nat),
      (∀ n ∈ lept_numbers_object m, (sprintf n).length ≤ 32) →
      lept_stringify_object_loop_top sprintf m i top
        = top + (lept_stringify_object_loop sprintf m i).length
  | [], _, _, _ => rfl
  | (k, v) :: ms, i, top, hn => by
    simp only [lept_numbers_object, List.mem_append] at hn
    simp only [lept_stringify_object_loop_top, lept_stringify_object_loop,
      lept_stringify_object_loop_top_eq sprintf ms (i + 1) _ (fun n h => hn n (Or.inr h)),
      lept_stringify_value_top_eq sprintf v _ (fun n h => hn n (Or.inl h)),
      lept_stringify_string_top_eq, List.length_append, List.length_singleton]
    split_ifs <;> simp <;> omega

end

/-- C21: `lept_stringify` writes `null`, `false`, `true` for the three
literals; for an array `[`, the texts of the elements separated by single
commas, and `]`; for an object `{`, for each member in stored order the
escaped key, `:` and the text of the value, separated by single commas, and
`}`. When `sprintf` writes at most 32 bytes and no whitespace for a number of
the value, a byte of whitespace in the text is a space inside a string or a
key, and the length reported is the number of bytes written. -/
theorem lept_stringify_compact (sprintf : Nat → List Nat) (v : lept_value)
    (hlen : ∀ n ∈ lept_numbers v, (sprintf n).length ≤ 32)
    (hws : ∀ n ∈ lept_numbers v, ∀ b ∈ sprintf n, ¬ is_json_whitespace b) :
    (lept_stringify sprintf jnull).1 = [110, 117, 108, 108] ∧
    (lept_stringify sprintf jfalse).1 = [102, 97, 108, 115, 101] ∧
    (lept_stringify sprintf jtrue).1 = [116, 114, 117, 101] ∧
    (∀ es c, (lept_stringify sprintf (jarray es c)).1
      = [91] ++ List.intercalate [44] (es.map (fun e => (lept_stringify sprintf e).1)) ++ [93]) ∧
    (∀ m c, (lept_stringify sprintf (jobject m c)).1
      = [123] ++ List.intercalate [44] (m.map (fun a =>
          ([34] ++ a.1.flatMap json_escape_byte ++ [34]) ++ [58]
            ++ (lept_stringify sprintf a.2).1)) ++ [125]) ∧
    (∀ b ∈ (lept_stringify sprintf v).1, is_json_whitespace b →
      b = 32 ∧ ∃ s ∈ lept_strings v, 32 ∈ s) ∧
    (lept_stringify sprintf v).2 = (lept_stringify sprintf v).1.length ∧
    lept_stringify_length sprintf v = (lept_stringify sprintf v).1.length := by
  refine ⟨rfl, rfl, rfl, fun es c => lept_stringify_value_array sprintf es c, fun m c => ?_,
    lept_stringify_value_whitespace sprintf v hws, rfl, ?_⟩
  · have h := lept_stringify_value_object sprintf m c
    simp only [lept_stringify, h, lept_stringify_string, lept_stringify_string_loop_escape]
  · simp only [lept_stringify_length, lept_stringify, lept_stringify_value_top_eq sprintf v 0 hlen,
      Nat.zero_add]

theorem lept_stringify_compact_witness :
    lept_parse strtod_small [91, 49, 44, 32, 50, 44, 32, 51, 93]
      = some (LEPT_PARSE_OK, jarray [jnumber 0x3FF0000000000000, jnumber 0x4000000000000000,
          jnumber 0x4008000000000000] 3) ∧
    lept_stringify sprintf_small (jarray [jnumber 0x3FF0000000000000,
        jnumber 0x4000000000000000, jnumber 0x4008000000000000] 3)
      = ([91, 49, 44, 50, 44, 51, 93], 7) ∧
    lept_stringify_length sprintf_small (jarray [jnumber 0x3FF0000000000000,
        jnumber 0x4000000000000000, jnumber 0x4008000000000000] 3) = 7 ∧
    (∀ b ∈ (lept_stringify sprintf_small (jarray [jnumber 0x3FF0000000000000,
        jnumber 0x4000000000000000, jnumber 0x4008000000000000] 3)).1, is_json_whitespace b →
      b = 32 ∧ ∃ s ∈ lept_strings (jarray [jnumber 0x3FF0000000000000,
        jnumber 0x4000000000000000, jnumber 0x4008000000000000] 3), 32 ∈ s) := by
  have hnum : ∀ n ∈ lept_numbers (jarray [jnumber 0x3FF0000000000000,
      jnumber 0x4000000000000000, jnumber 0x4008000000000000] 3),
      n = 0x3FF0000000000000 ∨ n = 0x4000000000000000 ∨ n = 0x4008000000000000 := by
    intro n hn
    simpa [lept_numbers, lept_numbers_array] using hn
  have h := lept_stringify_compact sprintf_small (jarray [jnumber 0x3FF0000000000000,
      jnumber 0x4000000000000000, jnumber 0x4008000000000000] 3)
    (fun n hn => by rcases hnum n hn with rfl | rfl | rfl <;> decide)
    (fun n hn b hb => by
      rcases hnum n hn with rfl | rfl | rfl <;>
        simp [sprintf_small] at hb <;> subst hb <;> simp [is_json_whitespace])
  exact ⟨rfl, rfl, rfl, h.2.2.2.2.2.1⟩

/-! ## The loops of the equality -/

/-- The object loop returns true exactly when every left member is found in
the right object with an equal value. -/
theorem lept_is_equal_object_loop_iff (l m2 : List lept_member) :
    lept_is_equal_object_loop l m2 = true ↔
      ∀ k v, (k, v) ∈ l → ∃ idx v2, lept_find_object_index m2 k = some idx ∧
        m2[idx]? = some (k, v2) ∧ lept_is_equal v v2 = true := by
  induction l with
  | nil => simp [lept_is_equal_object_loop]
  | cons a l ih =>
    obtain ⟨k, v⟩ := a
    constructor
    · intro h k1 v1 hmem
      simp only [lept_is_equal_object_loop] at h
      cases hf : lept_find_object_index m2 k with
      | none => rw [hf] at h; simp at h
      | some idx =>
        rw [hf] at h
        obtain ⟨i, w, hr, hw, -⟩ := (lept_find_object_index_loop_first m2 k 0).1 idx hf
        rw [Nat.zero_add] at hr
        subst hr
        simp only [hw] at h
        by_cases he : lept_is_equal v w = true
        · rw [he] at h
          simp only [Bool.not_true, Bool.false_eq_true, if_false] at h
          rcases List.mem_cons.mp hmem with h1 | h1
          · obtain ⟨rfl, rfl⟩ := Prod.mk.inj h1
            exact ⟨idx, w, hf, hw, he⟩
          · exact ih.mp h k1 v1 h1
        · simp only [Bool.not_eq_true] at he
          rw [he] at h
          simp at h
    · intro h
      obtain ⟨idx, v2, hf, hv2, he⟩ := h k v (List.mem_cons_self _ _)
      simp only [lept_is_equal_object_loop, hf, hv2, he, Bool.not_true, Bool.false_eq_true,
        if_false]
      exact ih.mpr (fun k1 v1 h1 => h k1 v1 (List.mem_cons_of_mem _ h1))

/-- In an object with distinct keys a key has one value. -/
theorem lept_member_value_unique {m : List lept_member} {k : List Nat} {v v1 : lept_value}
    (hd : (m.map Prod.fst).Nodup) (h : (k, v) ∈ m) (h1 : (k, v1) ∈ m) : v = v1 := by
  obtain ⟨j, hj, hm⟩ := lept_find_object_index_of_mem m k v h hd
  obtain ⟨j1, hj1, hm1⟩ := lept_find_object_index_of_mem m k v1 h1 hd
  rw [hj] at hj1
  have : j = j1 := Option.some.inj hj1
  subst this
  rw [hm] at hm1
  exact (Prod.mk.inj (Option.some.inj hm1)).2

/-! ## C22: equality of objects whatever the order of the members -/

/-- C22: two objects are equal, whatever the order of their members, when the
keys of the first are pairwise distinct, the keys of the second are a
permutation of them (and so pairwise distinct too) and the values under the
same key are equal. -/
theorem lept_is_equal_permuted (m1 m2 : List lept_member) (c1 c2 : Nat)
    (hd1 : (m1.map Prod.fst).Nodup)
    (hperm : (m1.map Prod.fst).Perm (m2.map Prod.fst))
    (hval : ∀ k v1 v2, (k, v1) ∈ m1 → (k, v2) ∈ m2 → lept_is_equal v1 v2 = true) :
    lept_is_equal (jobject m1 c1) (jobject m2 c2) = true := by
  have hd2 : (m2.map Prod.fst).Nodup := hperm.nodup_iff.mp hd1
  have hlen : m1.length = m2.length := by
    have := hperm.length_eq
    simpa using this
  simp only [lept_is_equal, ne_eq, hlen, not_true_eq_false, if_false]
  rw [lept_is_equal_object_loop_iff]
  intro k v hmem
  have hk : k ∈ m2.map Prod.fst := hperm.subset (List.mem_map_of_mem Prod.fst hmem)
  obtain ⟨a, ha, hka⟩ := List.mem_map.mp hk
  obtain ⟨k2, v2⟩ := a
  simp only at hka
  subst hka
  obtain ⟨j, hj, hm⟩ := lept_find_object_index_of_mem m2 k2 v2 ha hd2
  exact ⟨j, v2, hj, hm, hval k2 v v2 hmem ha⟩

theorem lept_is_equal_permuted_witness :
    lept_is_equal (jobject [([97], jnumber 0x3FF0000000000000), ([98], jarray [jtrue] 1),
        ([99], jstring [120])] 3)
      (jobject [([99], jstring [120]), ([97], jnumber 0x3FF0000000000000),
        ([98], jarray [jtrue] 4)] 8) = true :=
  lept_is_equal_permuted _ _ 3 8 (by decide) (by decide)
    (by
      intro k v1 v2 h1 h2
      simp only [List.mem_cons, Prod.mk.injEq, List.mem_singleton, List.not_mem_nil,
        or_false] at h1 h2
      rcases h1 with ⟨rfl, rfl⟩ | ⟨rfl, rfl⟩ | ⟨rfl, rfl⟩ <;>
        rcases h2 with ⟨h, rfl⟩ | ⟨h, rfl⟩ | ⟨h, rfl⟩ <;>
        first | rfl | exact absurd h (by decide))

/-! ## C27: symmetry of the equality -/

theorem double_eq_comm (a b : Nat) : double_eq a b = double_eq b a := by
  simp only [double_eq]
  by_cases h : a = b
  · subst h; rfl
  · have h1 : ¬ b = a := fun e => h e.symm
    simp only [h, h1, decide_False, Bool.false_or]
    cases double_is_nan a <;> cases double_is_nan b <;> cases double_is_zero a <;>
      cases double_is_zero b <;> rfl

/-- The comparison of two strings does not depend on the side. -/
theorem lept_is_equal_string_comm (s1 s2 : List Nat) :
    lept_is_equal (jstring s1) (jstring s2) = lept_is_equal (jstring s2) (jstring s1) := by
  simp only [lept_is_equal]
  by_cases hl : s1.length = s2.length
  · have h1 : memcmp_eq s1 s2 s1.length = memcmp_eq s2 s1 s2.length := by
      simp only [memcmp_eq, hl]
      exact decide_eq_decide.mpr ⟨Eq.symm, Eq.symm⟩
    rw [h1]
    simp [hl]
  · have hl1 : ¬ s2.length = s1.length := fun e => hl e.symm
    simp [hl, hl1]

/-- The object loop in the other direction, when the two objects have
distinct keys and the same size and the equality of the member values of the
left object can be turned around. -/
theorem lept_is_equal_object_loop_symm_of (m1 m2 : List lept_member)
    (hd1 : (m1.map Prod.fst).Nodup) (hd2 : (m2.map Prod.fst).Nodup)
    (hlen : m1.length = m2.length)
    (ih : ∀ a ∈ m1, ∀ a2 ∈ m2, lept_is_equal a.2 a2.2 = true → lept_is_equal a2.2 a.2 = true)
    (h : lept_is_equal_object_loop m1 m2 = true) :
    lept_is_equal_object_loop m2 m1 = true := by
  rw [lept_is_equal_object_loop_iff] at h ⊢
  have hsub : m1.map Prod.fst ⊆ m2.map Prod.fst := by
    intro k hk
    obtain ⟨a, ha, rfl⟩ := List.mem_map.mp hk
    obtain ⟨idx, v2, -, hm, -⟩ := h a.1 a.2 ha
    exact List.mem_map.mpr ⟨(a.1, v2), List.getElem?_mem hm, rfl⟩
  have hperm : (m1.map Prod.fst).Perm (m2.map Prod.fst) :=
    (List.subperm_of_subset hd1 hsub).perm_of_length_le (by simp [hlen])
  intro k2 v2 hmem2
  have hk : k2 ∈ m1.map Prod.fst := hperm.symm.subset (List.mem_map_of_mem Prod.fst hmem2)
  obtain ⟨a, ha, hka⟩ := List.mem_map.mp hk
  obtain ⟨k, v⟩ := a
  simp only at hka
  subst hka
  obtain ⟨idx, w, -, hw, he⟩ := h k v ha
  have hwv : w = v2 := lept_member_value_unique hd2 (List.getElem?_mem hw) hmem2
  subst hwv
  obtain ⟨j, hj, hm⟩ := lept_find_object_index_of_mem m1 k v ha hd1
  exact ⟨j, v, hj, hm, ih (k, v) ha (k, w) hmem2 he⟩

mutual

/-- Equality can be turned around between two values without repeated
keys. -/
theorem lept_is_equal_symm : ∀ (a b : lept_value), lept_keys_distinct a →
    lept_keys_distinct b → lept_is_equal a b = true → lept_is_equal b a = true
  | jnull, b, _, _, h => by cases b <;> simp [lept_is_equal] at h ⊢
  | jfalse, b, _, _, h => by cases b <;> simp [lept_is_equal] at h ⊢
  | jtrue, b, _, _, h => by cases b <;> simp [lept_is_equal] at h ⊢
  | jnumber n, b, _, _, h => by
    cases b with
    | jnumber n2 =>
      simp only [lept_is_equal] at h ⊢
      rw [double_eq_comm]; exact h
    | _ => simp [lept_is_equal] at h
  | jstring s, b, _, _, h => by
    cases b with
    | jstring s2 => rw [← lept_is_equal_string_comm]; exact h
    | _ => simp [lept_is_equal] at h
  | jarray e1 _, b, ha, hb, h => by
    cases b with
    | jarray e2 _ =>
      simp only [lept_keys_distinct] at ha hb
      simp only [lept_is_equal, ne_eq, ite_not] at h ⊢
      by_cases hl : e1.length = e2.length
      · rw [if_pos hl] at h
        rw [if_pos hl.symm]
        exact lept_is_equal_array_loop_symm e1 e2 ha hb hl h
      · rw [if_neg hl] at h
        simp at h
    | _ => simp [lept_is_equal] at h
  | jobject m1 _, b, ha, hb, h => by
    cases b with
    | jobject m2 _ =>
      simp only [lept_keys_distinct] at ha hb
      simp only [lept_is_equal, ne_eq, ite_not] at h ⊢
      by_cases hl : m1.length = m2.length
      · rw [if_pos hl] at h
        rw [if_pos hl.symm]
        exact lept_is_equal_object_loop_symm_of m1 m2 ha.1 hb.1 hl
          (fun a ha1 a2 ha2 => lept_is_equal_members_symm m1 a ha1 a2.2
            (lept_keys_distinct_object_of_mem ha.2 ha1)
            (lept_keys_distinct_object_of_mem hb.2 ha2)) h
      · rw [if_neg hl] at h
        simp at h
    | _ => simp [lept_is_equal] at h

theorem lept_is_equal_array_loop_symm : ∀ (e1 e2 : List lept_value),
    lept_keys_distinct_array e1 → lept_keys_distinct_array e2 → e1.length = e2.length →
    lept_is_equal_array_loop e1 e2 = true → lept_is_equal_array_loop e2 e1 = true
  | [], [], _, _, _, _ => rfl
  | [], _ :: _, _, _, hl, _ => by simp at hl
  | _ :: _, [], _, _, hl, _ => by simp at hl
  | a :: l, b :: r, ha, hb, hl, h => by
    simp only [lept_keys_distinct_array] at ha hb
    simp only [lept_is_equal_array_loop] at h ⊢
    by_cases he : lept_is_equal a b = true
    · rw [he] at h
      simp only [Bool.not_true, Bool.false_eq_true, if_false] at h
      rw [lept_is_equal_symm a b ha.1 hb.1 he]
      simp only [Bool.not_true, Bool.false_eq_true, if_false]
      exact lept_is_equal_array_loop_symm l r ha.2 hb.2 (by simpa using hl) h
    · simp only [Bool.not_eq_true] at he
      rw [he] at h
      simp at h

theorem lept_is_equal_members_symm : ∀ (m1 : List lept_member), ∀ a ∈ m1, ∀ b,
    lept_keys_distinct a.2 → lept_keys_distinct b → lept_is_equal a.2 b = true →
    lept_is_equal b a.2 = true
  | [], a, ha, _, _, _, _ => absurd ha (List.not_mem_nil _)
  | (k, v) :: ms, a, ha, b, h1, h2, h3 => by
    by_cases hc : a = (k, v)
    · subst hc
      exact lept_is_equal_symm v b h1 h2 h3
    · have hmem : a ∈ ms := by
        rcases List.mem_cons.mp ha with h | h
        · exact absurd h hc
        · exact h
      exact lept_is_equal_members_symm ms a hmem b h1 h2 h3

end

/-- C27: for two values in which no object, at any depth, has two members
with the same key, `lept_is_equal(a, b)` and `lept_is_equal(b, a)` return the
same result. -/
theorem lept_is_equal_symmetric (a b : lept_value) (ha : lept_keys_distinct a)
    (hb : lept_keys_distinct b) : lept_is_equal a b = lept_is_equal b a := by
  cases h1 : lept_is_equal a b <;> cases h2 : lept_is_equal b a
  · rfl
  · have h := lept_is_equal_symm b a hb ha h2
    rw [h1] at h
    exact h
  · have h := lept_is_equal_symm a b ha hb h1
    rw [h2] at h
    exact h.symm
  · rfl

theorem lept_is_equal_symmetric_witness :
    lept_is_equal (jobject [([97], jnumber 0x3FF0000000000000), ([98], jarray [jtrue] 1)] 2)
      (jobject [([98], jarray [jtrue] 4), ([97], jnumber 0x3FF0000000000000)] 2) = true ∧
    lept_is_equal (jobject [([97], jnumber 0x3FF0000000000000), ([98], jarray [jtrue] 1)] 2)
        (jobject [([98], jarray [jtrue] 4), ([97], jnumber 0x3FF0000000000000)] 2)
      = lept_is_equal
        (jobject [([98], jarray [jtrue] 4), ([97], jnumber 0x3FF0000000000000)] 2)
        (jobject [([97], jnumber 0x3FF0000000000000), ([98], jarray [jtrue] 1)] 2) ∧
    lept_is_equal (jarray [jstring [120], jnull] 2) (jarray [jstring [121], jnull] 2)
      = lept_is_equal (jarray [jstring [121], jnull] 2) (jarray [jstring [120], jnull] 2) :=
  ⟨rfl,
    lept_is_equal_symmetric _ _
      (by simp [lept_keys_distinct, lept_keys_distinct_object, lept_keys_distinct_array])
      (by simp [lept_keys_distinct, lept_keys_distinct_object, lept_keys_distinct_array]),
    lept_is_equal_symmetric _ _
      (by simp [lept_keys_distinct, lept_keys_distinct_array])
      (by simp [lept_keys_distinct, lept_keys_distinct_array])⟩

end leptjson
